import Mathlib

/-!
# Verification of the OSL B+tree (`b_tree`)

A shallow embedding of the quiescent (single-actor) behaviour of the
optimistic single-layer-locking B+tree of this repository
(`src/include/b_tree/component/osl/b_tree.hpp` and
`src/include/b_tree/component/record_iterator.hpp`), together with proofs of
the behavioural claims at the public interface.

The tree-level control flow (descent, split completion, merge completion,
root split/shrink, bulk loading, the public `Read`/`Scan`/`Write`/`Insert`/
`Update`/`Delete`/`Bulkload` entry points, and the record iterator) is
translated from the source.  The node-level operations live in
`node_varlen.hpp`/`node_fixlen.hpp`, which are not part of the sources at
hand; those operations are modelled from the specification (`spec.md` §3,
§4.2, §4.4, §4.5) and are marked `Modelled from the spec:` below.

Keys and payloads are `Nat` (the repository instantiates the template with
unsigned integers in its tests; payload length is fixed).  Concurrency is
not modelled: every operation is an atomic function from tree to tree, which
is the quiescent setting the claims address.  Epoch guards, node locks and
memory orderings are modelled as explicit data where a claim mentions them.
-/

namespace BTreeOSL

/-- Public return codes (`kSuccess`, `kKeyExist`, `kKeyNotExist`), the only
codes surfaced to callers (spec §7). -/
inductive ReturnCode where
  | kSuccess
  | kKeyExist
  | kKeyNotExist
deriving DecidableEq, Repr

export ReturnCode (kSuccess kKeyExist kKeyNotExist)

/-- Intra-tree node-level return codes, used between the tree-SMO layer and
the node layer, as used in `osl/b_tree.hpp` (`NodeRC::…`). -/
inductive NodeRC where
  | kCompleted
  | kKeyAlreadyInserted
  | kKeyNotInserted
  | kNeedSplit
  | kNeedMerge
  | kNeedRetry
  | kAbortMerge
deriving DecidableEq, Repr

/-- C++ `std::memory_order` values, used to record the ordering each atomic
access of the root pointer in `osl/b_tree.hpp` is annotated with. -/
inductive MemOrder where
  | relaxed
  | acquire
  | release
  | acq_rel
  | seq_cst
deriving DecidableEq, Repr

/-- A leaf data record: `(key, payload, delete-flag)` (spec §3).  Records are
kept in slot order inside a node; `Delete` marks the flag rather than
removing the slot. -/
structure Record where
  key : Nat
  payload : Nat
  isDeleted : Bool
deriving DecidableEq, Repr

/-- A node of the B+tree.

`leaf ver rs` is a leaf page: `ver` models the version counter of the
version-and-lock word (bumped on every committed modification, spec §3) and
`rs` the ordered slot array of records.

`inner c0 es` is an inner page: the slot array holds child pointers; the
leftmost child `c0` covers every key below the first separator (the leftmost
routing key of an inner node is a routing artifact that search ignores, as
stripped by `RemoveLeftmostKeys`); `es` lists the remaining children, each
with its routing key.  `search_child(key)` descends into the child of the
greatest routing key `≤ key`, defaulting to `c0`.

High keys and right-sibling pointers are represented implicitly: in the
quiescent tree the leaf chain is exactly the in-order sequence of leaves and
a node's high key is the separator to its right, which the well-formedness
invariant below keeps in lock-step with the structure. -/
inductive Node where
  | leaf (ver : Nat) (rs : List Record)
  | inner (c0 : Node) (es : List (Nat × Node))
deriving Repr

open Node

/-- Page capacity in slots.  In the source this is derived from the page
size (`kPageSize`, `kMaxRecLen`); the `static_assert` in `b_tree.hpp`
requires room for at least two records.  The model fixes it at 4 slots. -/
def kNodeCap : Nat := 4

/-- Modelled from the spec: the merge threshold of `delete(key)` /
`delete_child(sep_key)` (§4.2): a node whose live-record count falls below
this threshold reports `need-merge`. -/
def kMergeThreshold : Nat := 2

/-- Modelled from the spec: the target occupancy of leaf nodes during bulk
load (§4.2 `bulkload`: fill greedily up to a target occupancy, leaving a
free-space reserve); `kLeafNodeCap` in the source. -/
def kLeafNodeCap : Nat := 3

/-- Modelled from the spec: the target occupancy of inner nodes during bulk
load; `kInnerNodeCap` in the source. -/
def kInnerNodeCap : Nat := 3

/-- The number of slots a node occupies (record count, `GetRecordCount`).
For an inner node the leftmost child occupies a slot as well. -/
def slotCount : Node → Nat
  | .leaf _ rs => rs.length
  | .inner _ es => 1 + es.length

/-- The records of a leaf that are not marked deleted. -/
def liveRecs (rs : List Record) : List Record :=
  rs.filter (fun r => !r.isDeleted)

/-- Modelled from the spec: the number of records `merge` appends to the
left node (§4.2 `merge(right)`: append the right node's live records).  For
a leaf these are its live records; inner slots are never delete-marked
(routing entries are removed physically), so all slots count. -/
def liveSlots : Node → Nat
  | .leaf _ rs => (liveRecs rs).length
  | .inner _ es => 1 + es.length

mutual
/-- The live key/payload bindings of a (sub)tree, in slot (in-order)
traversal order: the logical contents of the tree. -/
def liveList : Node → List (Nat × Nat)
  | .leaf _ rs => rs.filterMap fun r => if r.isDeleted then none else some (r.key, r.payload)
  | .inner c0 es => liveList c0 ++ liveListL es
termination_by t => sizeOf t

/-- `liveList` over the routed children of an inner node. -/
def liveListL : List (Nat × Node) → List (Nat × Nat)
  | [] => []
  | (_, c) :: rest => liveList c ++ liveListL rest
termination_by es => sizeOf es
end

mutual
/-- The leaves of a (sub)tree in left-to-right order; the quiescent
right-sibling chain (spec §3: the leaf level is a forward-linked list). -/
def leaves : Node → List (List Record)
  | .leaf _ rs => [rs]
  | .inner c0 es => leaves c0 ++ leavesL es
termination_by t => sizeOf t

/-- `leaves` over the routed children of an inner node. -/
def leavesL : List (Nat × Node) → List (List Record)
  | [] => []
  | (_, c) :: rest => leaves c ++ leavesL rest
termination_by es => sizeOf es
end

/-- Slot keys strictly increase inside a node (spec §3 invariant 1;
testable property 1). -/
def sortedRecs : List Record → Bool
  | [] => true
  | [_] => true
  | r :: r' :: rest => decide (r.key < r'.key) && sortedRecs (r' :: rest)

/-- `k` is at or above an optional inclusive lower bound (`none` = `-∞`). -/
def loLE (lo : Option Nat) (k : Nat) : Bool :=
  match lo with
  | none => true
  | some l => decide (l ≤ k)

/-- `k` is strictly below an optional upper bound (`none` = `+∞`). -/
def hiGT (hi : Option Nat) (k : Nat) : Bool :=
  match hi with
  | none => true
  | some h => decide (k < h)

/-- `k` lies in the key range `[lo, hi)` of a node. -/
def inB (lo hi : Option Nat) (k : Nat) : Bool :=
  loLE lo k && hiGT hi k

/-- The height of a node: leaves are at height 0, an inner node of height
`h+1` points to nodes of height `h` (spec §3 invariant 3; the invariant
below makes all children share the leftmost child's height, so following
the left spine measures it). -/
def height : Node → Nat
  | .leaf _ _ => 0
  | .inner c0 _ => height c0 + 1

mutual
/-- Every slot key of a subtree (including delete-marked slots), in slot
order.  Delete-marked slots still occupy their keyed slot. -/
def slotKeys : Node → List Nat
  | .leaf _ rs => rs.map (·.key)
  | .inner c0 es => slotKeys c0 ++ slotKeysL es
termination_by t => sizeOf t

/-- `slotKeys` over the routed children of an inner node. -/
def slotKeysL : List (Nat × Node) → List Nat
  | [] => []
  | (_, c) :: rest => slotKeys c ++ slotKeysL rest
termination_by es => sizeOf es
end

mutual
/-- Well-formedness of a subtree whose key range is `[lo, hi)`
(`none` = unbounded).  It packages the structural invariants of spec §3 and
§8 that the quiescent operations maintain:
slot keys strictly increase inside every node; every key lies in the node's
key range (the range recheck invariant: a node's high key bounds its keys
and is at most the next sibling's first key); each child of an inner node
covers the keys between its routing key and the next; all children of an
inner node have the same height (balance: all leaves at the same depth);
no node exceeds the page capacity; and every non-root node holds at least
one record (spec §3: a non-root node holds at least one record between
SMOs).  Routing keys increase strictly along a level as a consequence
(every child holds a key squeezed between consecutive routing keys). -/
def wfIn : Node → Option Nat → Option Nat → Bool
  | .leaf _ rs, lo, hi =>
      sortedRecs rs && rs.all (fun r => inB lo hi r.key) && decide (rs.length ≤ kNodeCap)
  | .inner c0 es, lo, hi =>
      wfEntries c0 es lo hi && decide (1 + es.length ≤ kNodeCap) &&
        es.all (fun sc => height sc.2 == height c0)
termination_by t _ _ => sizeOf t

/-- The children of an inner node, each bounded by consecutive routing keys:
`c` covers `[lo, s₁)`, the child of `sᵢ` covers `[sᵢ, sᵢ₊₁)`, and the last
child covers up to `hi`.  Every child holds at least one slot. -/
def wfEntries : Node → List (Nat × Node) → Option Nat → Option Nat → Bool
  | c, [], lo, hi => wfIn c lo hi && decide (1 ≤ slotCount c)
  | c, (s, c') :: rest, lo, hi =>
      wfIn c lo (some s) && decide (1 ≤ slotCount c) && wfEntries c' rest (some s) hi
termination_by c es _ _ => sizeOf c + sizeOf es
end

/-- Well-formedness of a whole tree (unbounded key range at the root). -/
def wf (t : Node) : Bool := wfIn t none none

mutual
/-- `SearchLeafNode` (`osl/b_tree.hpp`): root-to-leaf descent; at each inner
node `search_child(key)` picks the child of the greatest routing key
`≤ key`, defaulting to the leftmost child.  Returns the leaf page. -/
def searchLeaf : Node → Nat → Nat × List Record
  | .leaf ver rs, _ => (ver, rs)
  | .inner c0 es, k => searchLeafL c0 es k
termination_by t _ => sizeOf t

/-- `search_child` threaded through the routing entries: keep the last child
whose routing key is `≤ k`. -/
def searchLeafL : Node → List (Nat × Node) → Nat → Nat × List Record
  | c, [], k => searchLeaf c k
  | c, (s, c') :: rest, k =>
      if s ≤ k then searchLeafL c' rest k else searchLeaf c k
termination_by c es _ => sizeOf c + sizeOf es
end

/-- Modelled from the spec: leaf-level `read(key)` (§4.2): binary search for
the key; a record found live yields `key-present` with its payload, a
missing or delete-marked record yields `key-absent`. -/
def leafRead (rs : List Record) (k : Nat) : Option Nat :=
  match rs.find? (fun r => r.key == k) with
  | some r => if r.isDeleted then none else some r.payload
  | none => none

/-- `Read` (`osl/b_tree.hpp`): acquire an epoch guard, descend with
`SearchLeafNode`, read the leaf optimistically; `kKeyAlreadyInserted` maps
to `some payload`, otherwise `std::nullopt`. -/
def readT (t : Node) (k : Nat) : Option Nat :=
  leafRead (searchLeaf t k).2 k

/-- The tree a freshly constructed `BTree` holds: a single empty leaf root
(the constructor allocates one leaf page). -/
def emptyTree : Node := .leaf 0 []

/-- Insert a record into a slot array, keeping slot order (spec §4.2
`insert`: shift slots and write the record). -/
def insRecSorted (rs : List Record) (nr : Record) : List Record :=
  match rs with
  | [] => [nr]
  | r :: rest => if nr.key < r.key then nr :: r :: rest else r :: insRecSorted rest nr

/-- Insert a routing entry into an inner node's entry list by routing key
(`insert_child`: maintain routing invariants). -/
def insEntrySorted (es : List (Nat × Node)) (s : Nat) (r : Node) : List (Nat × Node) :=
  match es with
  | [] => [(s, r)]
  | (s1, c1) :: rest =>
      if s < s1 then (s, r) :: (s1, c1) :: rest else (s1, c1) :: insEntrySorted rest s r

/-- Result of a key-level modification of a subtree: either the updated
subtree, or — when the modified node had to split — the split-left node,
the separator key and the split-right node, to be completed at the parent
(`CompleteSplit`). -/
inductive UpRes where
  | one (t : Node)
  | split (l : Node) (s : Nat) (r : Node)
deriving Repr

/-- Modelled from the spec: `split(right)` at a leaf followed by inserting
the pending record into the valid half (§4.2 `split`, §4.3 split
completion, `HalfSplit` / `GetValidSplitNode` / `InsertRecord` /
`GetSeparatorKey` in the source).  The upper half of the live records moves
to the fresh right node; versions are bumped on both halves and again on
the half receiving the record; the separator is the split boundary, which
equals the right node's smallest key whichever half the new record went to.
`rs` is the compacted (live) slot array. -/
def splitLeaf (ver : Nat) (rs : List Record) (k : Nat) (v : Nat) : UpRes :=
  let keep := rs.length - rs.length / 2
  match rs.drop keep with
  | [] => .one (.leaf (ver + 1) (insRecSorted rs ⟨k, v, false⟩))
  | m :: moved =>
      if k < m.key then
        .split (.leaf (ver + 2) (insRecSorted (rs.take keep) ⟨k, v, false⟩))
          m.key (.leaf 1 (m :: moved))
      else
        .split (.leaf (ver + 1) (rs.take keep))
          m.key (.leaf 2 (insRecSorted (m :: moved) ⟨k, v, false⟩))

/-- Modelled from the spec: leaf-level `write(key, payload)` (§4.2): blind
upsert.  If a slot with the key exists it is overwritten in place (payload
length is fixed) and revived if delete-marked; otherwise the record is
inserted as by `insert`: if free space does not suffice the variable-length
layout compacts the delete-marked slots, and only if the node is still full
does it split. -/
def writeLeaf (ver : Nat) (rs : List Record) (k : Nat) (v : Nat) : UpRes :=
  if rs.any (fun r => r.key == k) then
    .one (.leaf (ver + 1) (rs.map fun r => if r.key == k then ⟨k, v, false⟩ else r))
  else if rs.length < kNodeCap then
    .one (.leaf (ver + 1) (insRecSorted rs ⟨k, v, false⟩))
  else
    let live := liveRecs rs
    if live.length < kNodeCap then
      .one (.leaf (ver + 1) (insRecSorted live ⟨k, v, false⟩))
    else
      splitLeaf ver live k v

/-- Modelled from the spec: `split(right)` on a full inner node followed by
`insert_child` of the pending routing entry into the valid half (§4.2,
`CompleteSplit`'s `kNeedSplit` branch in the source).  The slot array is
`c0 :: es`; the upper half of the slots moves to the fresh right node and
the separator is the moved half's first routing key. -/
def splitInner (c0 : Node) (es : List (Nat × Node)) (s : Nat) (r : Node) : UpRes :=
  let n := 1 + es.length
  let keep := es.length - n / 2
  match es.drop keep with
  | [] => .one (.inner c0 (insEntrySorted es s r))
  | (sep, cm) :: moved =>
      if s < sep then
        .split (.inner c0 (insEntrySorted (es.take keep) s r)) sep (.inner cm moved)
      else
        .split (.inner c0 (es.take keep)) sep (.inner cm (insEntrySorted moved s r))

/-- `InsertChild` at a parent node during split completion: insert the
routing entry for the split-right child if space remains, otherwise split
the parent and insert into the valid half (`CompleteSplit`). -/
def insertChild (c0 : Node) (es : List (Nat × Node)) (s : Nat) (r : Node) : UpRes :=
  if 1 + es.length < kNodeCap then .one (.inner c0 (insEntrySorted es s r))
  else splitInner c0 es s r

mutual
/-- The recursive core of `Write` (`osl/b_tree.hpp`): descend to the leaf
along `SearchLeafNodeForWrite`'s path, upsert there, and complete any split
on the way back up the stack (`CompleteSplit` resolves each `kNeedSplit` at
the parent captured during descent; in the quiescent tree the captured
stack is exactly the descent path). -/
def writeAux : Node → Nat → Nat → UpRes
  | .leaf ver rs, k, v => writeLeaf ver rs k v
  | .inner c0 es, k, v =>
      match writeDescend c0 es k v with
      | (c0', es', none) => .one (.inner c0' es')
      | (c0', es', some (s, r)) => insertChild c0' es' s r
termination_by t _ _ => sizeOf t

/-- Descend into the child picked by `search_child` (the last routing key
`≤ k`), apply `writeAux` there, and replace the child; a child split leaves
the split-left node in place and hands `(separator, right)` up as a pending
routing-entry insertion. -/
def writeDescend : Node → List (Nat × Node) → Nat → Nat →
    Node × List (Nat × Node) × Option (Nat × Node)
  | c, [], k, v =>
      match writeAux c k v with
      | .one c' => (c', [], none)
      | .split l s r => (l, [], some (s, r))
  | c, (s1, c1) :: rest, k, v =>
      if s1 ≤ k then
        match writeDescend c1 rest k v with
        | (c1', rest', pend) => (c, (s1, c1') :: rest', pend)
      else
        match writeAux c k v with
        | .one c' => (c', (s1, c1) :: rest, none)
        | .split l s r => (l, (s1, c1) :: rest, some (s, r))
termination_by c es _ _ => sizeOf c + sizeOf es
end

/-- `Write` (`osl/b_tree.hpp`): upsert under the leaf's write lock;
`kNeedSplit` is resolved by `HalfSplit` + `CompleteSplit`; when the split
reaches an empty stack, `TryRootSplit` installs a new root over the two
halves.  Always returns `kSuccess`. -/
def writeT (t : Node) (k : Nat) (v : Nat) : ReturnCode × Node :=
  match writeAux t k v with
  | .one t' => (kSuccess, t')
  | .split l s r => (kSuccess, .inner l [(s, r)])

/-- Result of `Insert`'s recursive core: `dup` reports an already-inserted
live key with its payload and the node's current version (no mutation);
otherwise the updated subtree (or split) plus the version the modified leaf
ended with. -/
inductive InsRes where
  | dup (p : Nat) (ver : Nat)
  | one (t : Node) (ver : Nat)
  | split (l : Node) (s : Nat) (r : Node) (ver : Nat)
deriving Repr

/-- Modelled from the spec: leaf-level `insert(key, payload)` (§4.2): under
the exclusive lock, search the key; a live record yields `key-present`
with the existing payload and the current version, without mutating;
a delete-marked slot is revived in place; otherwise insert as in
`writeLeaf` (compacting, then splitting if still full). -/
def insLeaf (ver : Nat) (rs : List Record) (k : Nat) (v : Nat) : InsRes :=
  match rs.find? (fun r => r.key == k) with
  | some r =>
      if r.isDeleted then
        .one (.leaf (ver + 1) (rs.map fun r' => if r'.key == k then ⟨k, v, false⟩ else r'))
          (ver + 1)
      else .dup r.payload ver
  | none =>
      if rs.length < kNodeCap then
        .one (.leaf (ver + 1) (insRecSorted rs ⟨k, v, false⟩)) (ver + 1)
      else
        let live := liveRecs rs
        if live.length < kNodeCap then
          .one (.leaf (ver + 1) (insRecSorted live ⟨k, v, false⟩)) (ver + 1)
        else
          match splitLeaf ver live k v with
          | .one t' => .one t' (ver + 1)
          | .split l s r => .split l s r (if k < s then ver + 2 else 2)

/-- Intermediate result of `Insert`'s descent through one inner node. -/
inductive DescRes where
  | dup (p : Nat) (ver : Nat)
  | desc (c0 : Node) (es : List (Nat × Node)) (pend : Option (Nat × Node)) (ver : Nat)

mutual
/-- The recursive core of `Insert` (`osl/b_tree.hpp`): like `writeAux`, but
`kKeyAlreadyInserted` short-circuits with the existing payload and version
and leaves the tree untouched. -/
def insAux : Node → Nat → Nat → InsRes
  | .leaf ver rs, k, v => insLeaf ver rs k v
  | .inner c0 es, k, v =>
      match insDescend c0 es k v with
      | .dup p ver => .dup p ver
      | .desc c0' es' none ver => .one (.inner c0' es') ver
      | .desc c0' es' (some (s, r)) ver =>
          match insertChild c0' es' s r with
          | .one t' => .one t' ver
          | .split l s' r' => .split l s' r' ver
termination_by t _ _ => sizeOf t

/-- `insAux`'s descent through an inner node's routing entries. -/
def insDescend : Node → List (Nat × Node) → Nat → Nat → DescRes
  | c, [], k, v =>
      match insAux c k v with
      | .dup p ver => .dup p ver
      | .one c' ver => .desc c' [] none ver
      | .split l s r ver => .desc l [] (some (s, r)) ver
  | c, (s1, c1) :: rest, k, v =>
      if s1 ≤ k then
        match insDescend c1 rest k v with
        | .dup p ver => .dup p ver
        | .desc c1' rest' pend ver => .desc c ((s1, c1') :: rest') pend ver
      else
        match insAux c k v with
        | .dup p ver => .dup p ver
        | .one c' ver => .desc c' ((s1, c1) :: rest) none ver
        | .split l s r ver => .desc l ((s1, c1) :: rest) (some (s, r)) ver
termination_by c es _ _ => sizeOf c + sizeOf es
end

/-- `Insert` (`osl/b_tree.hpp`): returns `kKeyExist` with the existing
payload (in `out_payload`) and the node's version when the key is live;
otherwise inserts (completing splits, `TryRootSplit` at the top) and
returns `kSuccess` with the version the leaf ended with.  The result is
`(return code, out_payload, version, tree)`. -/
def insertT (t : Node) (k : Nat) (v : Nat) : ReturnCode × Option Nat × Nat × Node :=
  match insAux t k v with
  | .dup p ver => (kKeyExist, some p, ver, t)
  | .one t' ver => (kSuccess, none, ver, t')
  | .split l s r ver => (kSuccess, none, ver, .inner l [(s, r)])

/-- The tree produced by `Insert`. -/
def insertTree (t : Node) (k : Nat) (v : Nat) : Node := (insertT t k v).2.2.2

mutual
/-- The recursive core of `Update` (`osl/b_tree.hpp`): descend with
`SearchLeafNode`; at the leaf, `update(key, payload)` overwrites the
payload of a live record and bumps the version, or reports `key-absent`
(`none`) leaving the tree untouched.  No structure changes. -/
def updAux : Node → Nat → Nat → Option Node
  | .leaf ver rs, k, v =>
      match rs.find? (fun r => r.key == k) with
      | some r =>
          if r.isDeleted then none
          else some (.leaf (ver + 1)
            (rs.map fun r' => if r'.key == k then ⟨k, v, false⟩ else r'))
      | none => none
  | .inner c0 es, k, v =>
      match updDescend c0 es k v with
      | some (c0', es') => some (.inner c0' es')
      | none => none
termination_by t _ _ => sizeOf t

/-- `updAux`'s descent through an inner node's routing entries, rebuilding
the path with the updated leaf in place. -/
def updDescend : Node → List (Nat × Node) → Nat → Nat → Option (Node × List (Nat × Node))
  | c, [], k, v =>
      match updAux c k v with
      | some c' => some (c', [])
      | none => none
  | c, (s1, c1) :: rest, k, v =>
      if s1 ≤ k then
        match updDescend c1 rest k v with
        | some (c1', rest') => some (c, (s1, c1') :: rest')
        | none => none
      else
        match updAux c k v with
        | some c' => some (c', (s1, c1) :: rest)
        | none => none
termination_by c es _ _ => sizeOf c + sizeOf es
end

/-- `Update` (`osl/b_tree.hpp`): `kSuccess` on overwrite, `kKeyNotExist`
when the key is absent or delete-marked. -/
def updateT (t : Node) (k : Nat) (v : Nat) : ReturnCode × Node :=
  match updAux t k v with
  | some t' => (kSuccess, t')
  | none => (kKeyNotExist, t)

/-- Result of `Delete`'s recursive core: `notFound` reports a missing (or
already delete-marked) key with no mutation (`kKeyNotInserted`); `ok` the
updated subtree; `needMerge` an updated subtree whose live occupancy fell
below the merge threshold (`kNeedMerge`), to be merged with its right
sibling by the parent. -/
inductive DelRes where
  | notFound
  | ok (t : Node)
  | needMerge (t : Node)
deriving Repr

/-- Modelled from the spec: leaf-level `delete(key)` (§4.2): a missing or
delete-marked record yields `key-absent`; otherwise mark the slot deleted
and bump the version; report `need-merge` when the live-record count falls
below the merge threshold. -/
def deleteLeaf (ver : Nat) (rs : List Record) (k : Nat) : DelRes :=
  match rs.find? (fun r => r.key == k) with
  | some r =>
      if r.isDeleted then .notFound
      else
        let rs' := rs.map fun r' => if r'.key == k then ⟨r'.key, r'.payload, true⟩ else r'
        if (liveRecs rs').length < kMergeThreshold then .needMerge (.leaf (ver + 1) rs')
        else .ok (.leaf (ver + 1) rs')
  | none => .notFound

/-- Modelled from the spec: `merge(right)` (§4.2): append the right node's
live records to the left node, adopt the right node's high key and right
sibling (both implicit here), and bump the left node's version.  For inner
nodes the right node's leftmost child re-enters under the routing key the
parent just deleted (`del_key`, the left node's old high key), which is the
separator between the two nodes.  The right node is retired. -/
def mergeNodes : Node → Node → Nat → Node
  | .leaf ver rs, .leaf _ rs', _ => .leaf (ver + 1) (rs ++ liveRecs rs')
  | .inner c0 es, .inner c0' es', sep => .inner c0 (es ++ (sep, c0') :: es')
  | t, _, _ => t

/-- Intermediate result of `Delete`'s descent through one inner node:
`merged` marks that a routing entry of this node was deleted by merge
completion (`DeleteChild`), so the node must check its own merge
threshold. -/
inductive DelDescRes where
  | notFound
  | done (c0 : Node) (es : List (Nat × Node))
  | merged (c0 : Node) (es : List (Nat × Node))

mutual
/-- The recursive core of `Delete` (`osl/b_tree.hpp`): delete at the leaf;
a `kNeedMerge` is resolved by `Merge`: probe the right sibling
(`GetMergeableSiblingNode` — in the quiescent model a merge partner is the
right sibling under the same parent; when the underflowing child is its
parent's last child no merge is performed), delete the sibling's routing
entry from the parent (`DeleteChild`) and merge; a parent left below the
merge threshold propagates `kNeedMerge` upward (the `Merge` loop continues
with the parent as the new left child). -/
def delAux : Node → Nat → DelRes
  | .leaf ver rs, k => deleteLeaf ver rs k
  | .inner c0 es, k =>
      match delDescend c0 es k with
      | .notFound => .notFound
      | .done c0' es' => .ok (.inner c0' es')
      | .merged c0' es' =>
          if 1 + es'.length < kMergeThreshold then .needMerge (.inner c0' es')
          else .ok (.inner c0' es')
termination_by t _ => sizeOf t

/-- `delAux`'s descent through an inner node's routing entries, performing
merge completion between adjacent children. -/
def delDescend : Node → List (Nat × Node) → Nat → DelDescRes
  | c, [], k =>
      match delAux c k with
      | .notFound => .notFound
      | .ok c' => .done c' []
      | .needMerge c' => .done c' []
  | c, (s1, c1) :: rest, k =>
      if s1 ≤ k then
        match delDescend c1 rest k with
        | .notFound => .notFound
        | .done c1' rest' => .done c ((s1, c1') :: rest')
        | .merged c1' rest' => .merged c ((s1, c1') :: rest')
      else
        match delAux c k with
        | .notFound => .notFound
        | .ok c' => .done c' ((s1, c1) :: rest)
        | .needMerge c' =>
            if slotCount c' + liveSlots c1 ≤ kNodeCap then
              .merged (mergeNodes c' c1 s1) rest
            else .done c' ((s1, c1) :: rest)
termination_by c es _ => sizeOf c + sizeOf es
end

/-- `RemoveRoot`: retire a single-child root and return its only child. -/
def removeRoot : Node → Node
  | .inner c0 _ => c0
  | t => t

/-- The `do … while (GetRecordCount() == 1 && IsInner())` loop of
`TryShrinkTree` after the first `RemoveRoot`: keep unwrapping while the
candidate root is an inner node with a single child. -/
def shrinkLoop : Node → Node
  | .inner c0 [] => shrinkLoop c0
  | t => t

/-- `Delete` (`osl/b_tree.hpp`): `kKeyNotExist` when the key is absent,
else mark-delete and run merge completion; when the merge cascade empties
the stack, `TryShrinkTree` publishes the root's sole remaining child as the
new root, repeating while the new root is inner with one child. -/
def deleteT (t : Node) (k : Nat) : ReturnCode × Node :=
  match delAux t k with
  | .notFound => (kKeyNotExist, t)
  | .ok t' => (kSuccess, t')
  | .needMerge t' =>
      match t' with
      | .inner c0 [] => (kSuccess, shrinkLoop c0)
      | t' => (kSuccess, t')

/-- Split a list into successive chunks of `n` elements (the last possibly
shorter); the greedy fill of `bulkload` (§4.2): each node takes entries up
to the target occupancy. -/
def chunkList (n : Nat) (l : List α) : List (List α) :=
  match l with
  | [] => []
  | x :: xs => (x :: xs).take (max n 1) :: chunkList n ((x :: xs).drop (max n 1))
termination_by l.length
decreasing_by
  simp only [List.length_drop, List.length_cons]
  omega

theorem sub_max_one_le (a n : Nat) : a + 1 - max n 1 ≤ a := by
  have h := Nat.sub_le_sub_left (Nat.le_max_right n 1) (a + 1)
  simp only [Nat.add_sub_cancel] at h
  exact h

theorem chunkList_length_le (n : Nat) (l : List α) : (chunkList n l).length ≤ l.length := by
  induction l using chunkList.induct n with
  | case1 => simp [chunkList]
  | case2 x xs ih =>
      rw [chunkList]
      have h1 : (chunkList n ((x :: xs).drop (max n 1))).length ≤ xs.length := by
        refine le_trans ih ?_
        rw [List.length_drop]
        simp only [List.length_cons]
        exact sub_max_one_le xs.length n
      simpa using Nat.succ_le_succ h1

theorem chunkList_length_lt (n : Nat) (l : List α) (hn : 2 ≤ n) (h : 2 ≤ l.length) :
    (chunkList n l).length < l.length := by
  match l with
  | x :: xs =>
      rw [chunkList]
      have h1 : (chunkList n ((x :: xs).drop (max n 1))).length ≤ xs.length + 1 - 2 := by
        refine le_trans (chunkList_length_le n _) ?_
        rw [List.length_drop]
        have hm : 2 ≤ max n 1 := le_trans hn (Nat.le_max_left n 1)
        simpa using Nat.sub_le_sub_left hm (xs.length + 1)
      simp only [List.length_cons] at h ⊢
      omega

/-- Modelled from the spec: one call of `ConstructSingleLayer` on leaf
entries (§4.5 single-thread algorithm, steps 1–2): stream the entries into
successive leaf nodes filled to the target occupancy, link siblings
(implicit here), and emit a routing entry (first key of the node, node) per
node. -/
def buildLeafLayer (entries : List (Nat × Nat)) : List (Nat × Node) :=
  (chunkList kLeafNodeCap entries).filterMap fun ch =>
    match ch with
    | [] => none
    | (k, _) :: _ => some (k, Node.leaf 0 (ch.map fun e => ⟨e.1, e.2, false⟩))

/-- Modelled from the spec: one call of `ConstructSingleLayer` on node
entries (§4.5 step 3): build the next layer of inner nodes over the routing
entries of the layer below, emitting a routing entry per node. -/
def buildInnerLayer (es : List (Nat × Node)) : List (Nat × Node) :=
  (chunkList kInnerNodeCap es).filterMap fun ch =>
    match ch with
    | [] => none
    | (k, c) :: rest => some (k, Node.inner c rest)

theorem buildInnerLayer_length_le (es : List (Nat × Node)) :
    (buildInnerLayer es).length ≤ (chunkList kInnerNodeCap es).length := by
  simpa [buildInnerLayer] using List.length_filterMap_le _ _

/-- The `for (auto n = nodes.size(); n > kInnerNodeCap; …)` loop of
`BulkloadWithSingleThread`: stack inner layers until the top layer is small
enough, counting the height. -/
def bulkUpper (h : Nat) (nodes : List (Nat × Node)) : Nat × List (Nat × Node) :=
  if kInnerNodeCap < nodes.length then bulkUpper (h + 1) (buildInnerLayer nodes)
  else (h, nodes)
termination_by nodes.length
decreasing_by
  calc (buildInnerLayer nodes).length
      ≤ (chunkList kInnerNodeCap nodes).length := buildInnerLayer_length_le nodes
    _ < nodes.length := by
        apply chunkList_length_lt
        · decide
        · simp only [kInnerNodeCap] at *
          omega

/-- `BulkloadWithSingleThread` (`osl/b_tree.hpp`): build the data layer,
then index layers until the top layer fits in one inner node; returns the
height and the top layer (no root is created here). -/
def bulkSingle (entries : List (Nat × Nat)) : Nat × List (Nat × Node) :=
  bulkUpper 1 (buildLeafLayer entries)

/-- The per-worker partition sizes of `Bulkload`'s multi-threaded path:
worker `i` of `tn` loads `(total + i) / tn` consecutive entries. -/
def bulkParts (tn total : Nat) : List Nat :=
  (List.range tn).map fun i => (total + i) / tn

/-- Cut the entry list into the per-worker contiguous ranges (the
`iter += n` loop of `Bulkload`). -/
def partitionEntries : List Nat → List (Nat × Nat) → List (List (Nat × Nat))
  | [], _ => []
  | n :: ns, l => l.take n :: partitionEntries ns (l.drop n)

/-- The height-alignment loop of `Bulkload`: wrap a partial tree's top
layer in further inner layers until it reaches the target height. -/
def alignHeight (target h : Nat) (nodes : List (Nat × Node)) : List (Nat × Node) :=
  if h < target then alignHeight target (h + 1) (buildInnerLayer nodes)
  else nodes
termination_by target - h

/-- The multi-threaded path of `Bulkload`: partition the input into `tn`
contiguous ranges, bulkload each with the single-thread algorithm, align
the partial trees' heights to the tallest, and concatenate their top
layers.  `LinkVerticalBorderNodes` links the border spines' sibling
pointers, which are implicit in this model. -/
def bulkMulti (entries : List (Nat × Nat)) (tn : Nat) : List (Nat × Node) :=
  let parts := (partitionEntries (bulkParts tn entries.length) entries).map bulkSingle
  let height := parts.foldl (fun acc p => max acc p.1) 1
  (parts.map fun p => alignHeight height p.1 p.2).flatten

/-- The `while (nodes.size() > 1)` loop of `Bulkload`: stack further inner
layers until a single root entry remains. -/
def bulkRootLoop (nodes : List (Nat × Node)) : List (Nat × Node) :=
  if 1 < nodes.length then bulkRootLoop (buildInnerLayer nodes)
  else nodes
termination_by nodes.length
decreasing_by
  calc (buildInnerLayer nodes).length
      ≤ (chunkList kInnerNodeCap nodes).length := buildInnerLayer_length_le nodes
    _ < nodes.length := by
        apply chunkList_length_lt
        · decide
        · omega

/-- `Bulkload` (`osl/b_tree.hpp`): an empty entry vector returns `kSuccess`
at once without touching the tree; otherwise build with one worker
(`thread_num ≤ 1` or fewer records than workers) or many, stack layers
until a single node remains, and publish it as the root.
`RemoveLeftmostKeys` strips the root's leftmost routing key, which is
structural in this model (the leftmost child carries no key). -/
def bulkloadT (t : Node) (entries : List (Nat × Nat)) (tn : Nat) : ReturnCode × Node :=
  if entries.isEmpty then (kSuccess, t)
  else
    let nodes :=
      if tn ≤ 1 ∨ entries.length < tn then (bulkSingle entries).2
      else bulkMulti entries tn
    match bulkRootLoop nodes with
    | [] => (kSuccess, t)
    | (_, root) :: _ => (kSuccess, root)

/-! ## Scan and the record iterator -/

/-- The first slot key of a leaf, the quiescent stand-in for the previous
sibling's high key (a node's high key equals the next node's smallest
routing bound; spec §3 invariant 2). -/
def firstKeyOf (rs : List Record) : Option Nat := rs.head?.map (·.key)

/-- Modelled from the spec: the node operation behind
`SearchEndPositionFor` (§4.4): against the optional end key (key +
closed-flag), decide whether this node is the last one in the scan range
(`is_end_`) and up to which slot the scan may run in it (`end_pos_`).
`nextKey` is the first key of the right sibling (`none` when the node is
rightmost). -/
def searchEndPositionFor (rs : List Record) (nextKey : Option Nat)
    (ek : Option (Nat × Bool)) : Bool × Nat :=
  match ek with
  | none => (nextKey.isNone, rs.length)
  | some (e, closed) =>
      let isEnd :=
        match nextKey with
        | none => true
        | some nk => if closed then decide (e < nk) else decide (e ≤ nk)
      if isEnd then
        (true, rs.findIdx fun r => if closed then decide (e < r.key) else decide (e ≤ r.key))
      else (false, rs.length)

/-- Modelled from the spec: the initial cursor slot for a begin key (§4.4):
the first slot at or above (strictly above, when open) the begin key. -/
def beginPos (rs : List Record) (bk : Option (Nat × Bool)) : Nat :=
  match bk with
  | none => 0
  | some (a, closed) =>
      rs.findIdx fun r => if closed then decide (a ≤ r.key) else decide (a < r.key)

/-- The iterator run to exhaustion: the `while (HasNext()) { yield *it; ++it; }`
loop of `RecordIterator` (`record_iterator.hpp`), collecting the records a
quiescent scan yields.  The argument list is the current node (head) and
its right-sibling chain; `pos`/`endPos`/`isEnd`/`ek` are the cursor
fields. -/
def scanCollect : List (List Record) → Nat → Nat → Bool → Option (Nat × Bool) → List (Nat × Nat)
  | [], _, _, _, _ => []
  | rs :: rest, pos, endPos, isEnd, ek =>
      if pos < endPos then
        match rs[pos]? with
        | some r =>
            if r.isDeleted then scanCollect (rs :: rest) (pos + 1) endPos isEnd ek
            else (r.key, r.payload) :: scanCollect (rs :: rest) (pos + 1) endPos isEnd ek
        | none => []
      else if isEnd then []
      else
        match rest with
        | [] => []
        | rs' :: rest' =>
            let ep := searchEndPositionFor rs' (rest'.head?.bind firstKeyOf) ek
            scanCollect (rs' :: rest') 0 ep.2 ep.1 ek
termination_by lvs pos endPos _ _ => (lvs.length, endPos - pos)
decreasing_by
  · apply Prod.Lex.right; omega
  · apply Prod.Lex.left; simp

mutual
/-- The leaf found by `SearchLeafNode(begin_key)` together with the
right-sibling chain beyond it: the portion of the leaf level a scan
starting at `begin` visits. -/
def leavesFrom : Node → Nat → List (List Record)
  | .leaf _ rs, _ => [rs]
  | .inner c0 es, k => leavesFromL c0 es k
termination_by t _ => sizeOf t

/-- `leavesFrom` threaded through the routing entries. -/
def leavesFromL : Node → List (Nat × Node) → Nat → List (List Record)
  | c, [], k => leavesFrom c k
  | c, (s, c') :: rest, k =>
      if s ≤ k then leavesFromL c' rest k
      else leavesFrom c k ++ leavesL ((s, c') :: rest)
termination_by c es _ => sizeOf c + sizeOf es
end

/-- `Scan` (`osl/b_tree.hpp`): descend to the leaf containing the begin key
(or the leftmost leaf), position the cursor with the begin key, compute
the end slot and last-leaf flag, and iterate (the records the returned
iterator yields before its `HasNext` goes false). -/
def scanT (t : Node) (bk ek : Option (Nat × Bool)) : List (Nat × Nat) :=
  let lvs :=
    match bk with
    | some (a, _) => leavesFrom t a
    | none => leaves t
  match lvs with
  | [] => []
  | rs :: rest =>
      let ep := searchEndPositionFor rs (rest.head?.bind firstKeyOf) ek
      scanCollect (rs :: rest) (beginPos rs bk) ep.2 ep.1 ek

/-- The state of a `RecordIterator` (`record_iterator.hpp`) together with
the run-time resources the cursor protocol touches: `node`/`pos`/`endPos`/
`endKey`/`isEnd` are the class members (`node_`, `pos_`, `end_pos_`,
`end_key_`, `is_end_`); `chain` is the right-sibling chain reachable from
`node_`; `sLock` is the shared lock the cursor holds on `node_`; `guard`
is the caller's epoch guard (the class holds no guard member). -/
structure IterState where
  node : List Record
  chain : List (List Record)
  pos : Nat
  endPos : Nat
  endKey : Option (Nat × Bool)
  isEnd : Bool
  sLock : Bool
  guard : Bool
deriving Repr

/-- `RecordIterator::HasNext` (`record_iterator.hpp`), line by line:
skip delete-marked slots; if an undeleted slot remains below `end_pos_`,
true; if `is_end_`, release the node's shared lock and return false (the
epoch guard is not touched — the class holds none); otherwise move to the
right sibling under lock coupling (`GetNextNodeForRead` leaves the cursor
holding the new node's S lock), reset `pos_` to 0, recompute `is_end_` and
`end_pos_` with `SearchEndPositionFor`, and loop. -/
def hasNext (it : IterState) : Bool × IterState :=
  if it.pos < it.endPos then
    match it.node[it.pos]? with
    | some r =>
        if r.isDeleted then hasNext { it with pos := it.pos + 1 }
        else (true, it)
    | none => (true, it)
  else if it.isEnd then
    (false, { it with sLock := false })
  else
    match _hc : it.chain with
    | [] => (false, it)
    | rs :: rest =>
        let ep := searchEndPositionFor rs (rest.head?.bind firstKeyOf) it.endKey
        hasNext { it with
          node := rs, chain := rest, pos := 0, endPos := ep.2, isEnd := ep.1 }
termination_by (it.chain.length, it.endPos - it.pos)
decreasing_by
  · apply Prod.Lex.right; omega
  · apply Prod.Lex.left; rw [_hc]; simp

/-! ## Root publication (`TryRootSplit`, `TryShrinkTree`) -/

mutual
/-- Structural equality of nodes, the model of comparing node pointers
(`cur_root != l_child`, `node == root_`). -/
def nodeEq : Node → Node → Bool
  | .leaf v rs, .leaf v' rs' => v == v' && rs == rs'
  | .inner c0 es, .inner c0' es' => nodeEq c0 c0' && nodeEqL es es'
  | _, _ => false
termination_by a _ => sizeOf a

/-- `nodeEq` on routing-entry lists. -/
def nodeEqL : List (Nat × Node) → List (Nat × Node) → Bool
  | [], [] => true
  | (s, c) :: r, (s', c') :: r' => s == s' && nodeEq c c' && nodeEqL r r'
  | _, _ => false
termination_by a _ => sizeOf a
end

/-- `TryRootSplit` (`osl/b_tree.hpp`): read the root (relaxed); if it no
longer equals the split-left child, fail (the caller re-derives the parent
path by a fresh descent); otherwise build a new root holding the two
children under the separator key and publish it (release store).  Returns
the published root, `none` on failure. -/
def tryRootSplit (curRoot lChild : Node) (sep : Nat) (rChild : Node) : Option Node :=
  if nodeEq curRoot lChild then some (.inner lChild [(sep, rChild)]) else none

/-- `TryShrinkTree` (`osl/b_tree.hpp`): when the candidate node is still
the root and holds a single record, retire roots and follow their sole
child (`RemoveRoot`) while the candidate remains an inner node with one
record, then publish (relaxed store).  Returns the root after the call. -/
def tryShrinkTree (curRoot node : Node) : Node :=
  if nodeEq node curRoot && decide (slotCount node = 1) then shrinkLoop (removeRoot node)
  else curRoot

/-- Memory ordering of the `root_.store` in the `BTree` constructor. -/
def ctorRootStoreOrder : MemOrder := .release

/-- Memory ordering of the `root_.load` in `SearchLeafNode`,
`SearchLeftmostLeaf`, `SearchLeafNodeForWrite` and `SearchParentNode`. -/
def descentRootLoadOrder : MemOrder := .acquire

/-- Memory ordering of the `root_.load` in `TryRootSplit`. -/
def tryRootSplitLoadOrder : MemOrder := .relaxed

/-- Memory ordering of the `root_.store` in `TryRootSplit`. -/
def tryRootSplitStoreOrder : MemOrder := .release

/-- Memory ordering of the `root_.load` in `TryShrinkTree`. -/
def tryShrinkTreeLoadOrder : MemOrder := .relaxed

/-- Memory ordering of the `root_.store` in `TryShrinkTree`. -/
def tryShrinkTreeStoreOrder : MemOrder := .relaxed

/-- Memory ordering of the `root_ = …` assignment in `Bulkload`
(`std::atomic::operator=`, sequentially consistent). -/
def bulkloadRootStoreOrder : MemOrder := .seq_cst

/-! ## Auxiliary: induction principle, equality, version erasure -/

/-- Structural induction over `Node` with a member-wise hypothesis for the
routed children. -/
def Node.induct (motive : Node → Prop)
    (hleaf : ∀ v rs, motive (.leaf v rs))
    (hinner : ∀ c0 es, motive c0 → (∀ s c, (s, c) ∈ es → motive c) →
      motive (.inner c0 es)) :
    ∀ t, motive t := fun t =>
  match t with
  | .leaf v rs => hleaf v rs
  | .inner c0 es =>
      hinner c0 es (Node.induct motive hleaf hinner c0)
        (fun _s c _h => Node.induct motive hleaf hinner c)
termination_by t => sizeOf t
decreasing_by
  · simp only [Node.inner.sizeOf_spec]; omega
  · have h1 := List.sizeOf_lt_of_mem _h
    simp only [Prod.mk.sizeOf_spec] at h1
    simp only [Node.inner.sizeOf_spec]
    omega

theorem nodeEqL_iff (es : List (Nat × Node))
    (ih : ∀ s c, (s, c) ∈ es → ∀ b, nodeEq c b = true ↔ c = b) :
    ∀ es', nodeEqL es es' = true ↔ es = es' := by
  induction es with
  | nil => intro es'; cases es' <;> simp [nodeEqL]
  | cons e r ihr =>
      obtain ⟨s, c⟩ := e
      intro es'
      cases es' with
      | nil => simp [nodeEqL]
      | cons e' r' =>
          obtain ⟨s', c'⟩ := e'
          simp only [nodeEqL, Bool.and_eq_true, beq_iff_eq]
          rw [ih s c (by simp) c']
          rw [ihr (fun s2 c2 h b => ih s2 c2 (by simp [h]) b) r']
          constructor
          · rintro ⟨⟨h1, h2⟩, h3⟩; simp_all
          · intro h; injection h with h1 h2; injection h1 with h3 h4; simp_all

theorem nodeEq_iff : ∀ a b, nodeEq a b = true ↔ a = b := by
  intro a
  induction a using Node.induct with
  | hleaf v rs =>
      intro b
      cases b with
      | leaf v' rs' => simp [nodeEq]
      | inner c0 es => simp [nodeEq]
  | hinner c0 es ih0 ihes =>
      intro b
      cases b with
      | leaf v' rs' => simp [nodeEq]
      | inner c0' es' =>
          simp only [nodeEq, Bool.and_eq_true]
          rw [ih0 c0', nodeEqL_iff es ihes es']
          constructor
          · rintro ⟨h1, h2⟩; simp_all
          · intro h; injection h with h1 h2; simp_all

instance : DecidableEq Node := fun a b => decidable_of_iff (nodeEq a b = true) (nodeEq_iff a b)

mutual
/-- Erase the version counters of every node: the value state of the tree
(record contents and structure), as opposed to the version words that every
committed modification advances. -/
def stripVer : Node → Node
  | .leaf _ rs => .leaf 0 rs
  | .inner c0 es => .inner (stripVer c0) (stripVerL es)
termination_by t => sizeOf t

/-- `stripVer` on routing-entry lists. -/
def stripVerL : List (Nat × Node) → List (Nat × Node)
  | [] => []
  | (s, c) :: rest => (s, stripVer c) :: stripVerL rest
termination_by es => sizeOf es
end

/-! ## Specification-side association lists

The logical contents of the tree form a key-sorted association list; the
public operations are specified against sorted-list lookup, upsert and
erase. -/

/-- Lookup in an association list (the payload bound to `k`, if any). -/
def lookupA (l : List (Nat × Nat)) (k : Nat) : Option Nat :=
  (l.find? (fun p => p.1 == k)).map (·.2)

/-- Sorted upsert: replace the binding of `k`, or insert it at its sorted
position. -/
def upsertA (l : List (Nat × Nat)) (k : Nat) (v : Nat) : List (Nat × Nat) :=
  match l with
  | [] => [(k, v)]
  | (k', v') :: rest =>
      if k < k' then (k, v) :: (k', v') :: rest
      else if k = k' then (k, v) :: rest
      else (k', v') :: upsertA rest k v

/-- Remove the binding of `k`. -/
def eraseA (l : List (Nat × Nat)) (k : Nat) : List (Nat × Nat) :=
  l.filter (fun p => !(p.1 == k))

@[simp] theorem lookupA_nil (k : Nat) : lookupA [] k = none := rfl

theorem lookupA_cons (p : Nat × Nat) (l : List (Nat × Nat)) (k : Nat) :
    lookupA (p :: l) k = if p.1 = k then some p.2 else lookupA l k := by
  by_cases h : p.1 = k <;> simp [lookupA, List.find?_cons, h]

theorem lookupA_append (l1 l2 : List (Nat × Nat)) (k : Nat) :
    lookupA (l1 ++ l2) k = (lookupA l1 k).or (lookupA l2 k) := by
  simp only [lookupA, List.find?_append]
  cases List.find? (fun p => p.1 == k) l1 <;> simp

theorem lookupA_eq_none (l : List (Nat × Nat)) (k : Nat) :
    lookupA l k = none ↔ ∀ p ∈ l, p.1 ≠ k := by
  simp [lookupA, List.find?_eq_none]

theorem lookupA_upsert_self (l : List (Nat × Nat)) (k : Nat) (v : Nat) :
    lookupA (upsertA l k v) k = some v := by
  induction l with
  | nil => simp [upsertA, lookupA_cons]
  | cons p rest ih =>
      obtain ⟨k', v'⟩ := p
      by_cases h1 : k < k'
      · simp [upsertA, h1, lookupA_cons]
      · by_cases h2 : k = k'
        · simp [upsertA, h1, h2, lookupA_cons]
        · simp [upsertA, h1, h2, lookupA_cons, Ne.symm h2, ih]

theorem lookupA_upsert_ne (l : List (Nat × Nat)) (k k' : Nat) (v : Nat) (h : k' ≠ k) :
    lookupA (upsertA l k v) k' = lookupA l k' := by
  induction l with
  | nil => simp [upsertA, lookupA_cons, Ne.symm h]
  | cons p rest ih =>
      obtain ⟨k0, v0⟩ := p
      by_cases h1 : k < k0
      · simp [upsertA, h1, lookupA_cons, Ne.symm h]
      · by_cases h2 : k = k0
        · subst h2
          simp [upsertA, h1, lookupA_cons, Ne.symm h]
        · simp only [upsertA, if_neg h1, if_neg h2]
          rw [lookupA_cons, lookupA_cons, ih]

theorem lookupA_erase_self (l : List (Nat × Nat)) (k : Nat) :
    lookupA (eraseA l k) k = none := by
  rw [lookupA_eq_none]
  intro p hp
  simp only [eraseA, List.mem_filter, Bool.not_eq_true', beq_eq_false_iff_ne] at hp
  exact hp.2

theorem lookupA_erase_ne (l : List (Nat × Nat)) (k k' : Nat) (h : k' ≠ k) :
    lookupA (eraseA l k) k' = lookupA l k' := by
  induction l with
  | nil => simp [eraseA]
  | cons p rest ih =>
      by_cases hp : p.1 = k
      · have : eraseA (p :: rest) k = eraseA rest k := by
          simp [eraseA, List.filter_cons, hp]
        rw [this, ih, lookupA_cons, if_neg (by rw [hp]; exact fun hh => h hh.symm)]
      · have : eraseA (p :: rest) k = p :: eraseA rest k := by
          simp [eraseA, List.filter_cons, hp]
        rw [this, lookupA_cons, lookupA_cons, ih]

theorem upsertA_append_left (l1 l2 : List (Nat × Nat)) (k : Nat) (v : Nat)
    (h : ∀ p ∈ l2, k < p.1) :
    upsertA (l1 ++ l2) k v = upsertA l1 k v ++ l2 := by
  induction l1 with
  | nil =>
      match l2 with
      | [] => rfl
      | p :: rest =>
          simp only [List.nil_append, upsertA]
          rw [if_pos (h p (by simp))]
          simp
  | cons p rest ih =>
      obtain ⟨k', v'⟩ := p
      by_cases h1 : k < k'
      · simp [upsertA, h1]
      · by_cases h2 : k = k'
        · simp [upsertA, h1, h2]
        · simp [upsertA, h1, h2, ih]

theorem upsertA_append_right (l1 l2 : List (Nat × Nat)) (k : Nat) (v : Nat)
    (h : ∀ p ∈ l1, p.1 < k) :
    upsertA (l1 ++ l2) k v = l1 ++ upsertA l2 k v := by
  induction l1 with
  | nil => rfl
  | cons p rest ih =>
      obtain ⟨k', v'⟩ := p
      have hk : k' < k := h (k', v') (by simp)
      have hne : ¬k = k' := Ne.symm (ne_of_lt hk)
      simp only [List.cons_append, upsertA, if_neg (lt_asymm hk), if_neg hne,
        List.cons.injEq, true_and]
      exact ih (fun p hp => h p (by simp [hp]))

theorem eraseA_append (l1 l2 : List (Nat × Nat)) (k : Nat) :
    eraseA (l1 ++ l2) k = eraseA l1 k ++ eraseA l2 k := by
  simp [eraseA, List.filter_append]

theorem eraseA_of_not_mem (l : List (Nat × Nat)) (k : Nat) (h : ∀ p ∈ l, p.1 ≠ k) :
    eraseA l k = l := by
  simp only [eraseA]
  rw [List.filter_eq_self]
  intro p hp
  simpa using h p hp

/-! ## Foundations: bounds arithmetic, key bounds, structure of `wfEntries` -/

theorem sortedRecs_iff (rs : List Record) :
    sortedRecs rs = true ↔ rs.Pairwise (fun a b => a.key < b.key) := by
  haveI : IsTrans Record (fun a b => a.key < b.key) := ⟨fun _ _ _ h1 h2 => lt_trans h1 h2⟩
  rw [← List.chain'_iff_pairwise]
  induction rs with
  | nil => simp [sortedRecs]
  | cons r rest ih =>
      cases rest with
      | nil => simp [sortedRecs]
      | cons r' rest' =>
          simp only [sortedRecs, Bool.and_eq_true, decide_eq_true_eq, List.chain'_cons, ih]

@[simp] theorem loLE_none (κ : Nat) : loLE none κ = true := rfl

@[simp] theorem hiGT_none (κ : Nat) : hiGT none κ = true := rfl

@[simp] theorem loLE_some (s κ : Nat) : loLE (some s) κ = decide (s ≤ κ) := rfl

@[simp] theorem hiGT_some (s κ : Nat) : hiGT (some s) κ = decide (κ < s) := rfl

theorem inB_split (lo hi : Option Nat) (κ : Nat) :
    inB lo hi κ = true ↔ loLE lo κ = true ∧ hiGT hi κ = true := by
  simp [inB]

theorem loLE_trans (lo : Option Nat) (a b : Nat) (h1 : loLE lo a = true) (h2 : a ≤ b) :
    loLE lo b = true := by
  cases lo with
  | none => rfl
  | some l => simp only [loLE_some, decide_eq_true_eq] at h1 ⊢; omega

theorem hiGT_trans (hi : Option Nat) (a b : Nat) (h1 : b ≤ a) (h2 : hiGT hi a = true) :
    hiGT hi b = true := by
  cases hi with
  | none => rfl
  | some h => simp only [hiGT_some, decide_eq_true_eq] at h2 ⊢; omega

theorem wfEntries_first (c : Node) (es : List (Nat × Node)) (lo hi : Option Nat)
    (h : wfEntries c es lo hi = true) :
    1 ≤ slotCount c ∧ ∃ hi', wfIn c lo hi' = true := by
  cases es with
  | nil =>
      rw [wfEntries] at h
      simp only [Bool.and_eq_true, decide_eq_true_eq] at h
      exact ⟨h.2, hi, h.1⟩
  | cons e rest =>
      obtain ⟨s, c'⟩ := e
      rw [wfEntries] at h
      simp only [Bool.and_eq_true, decide_eq_true_eq] at h
      exact ⟨h.1.2, some s, h.1.1⟩

theorem slotKeys_ne_nil :
    ∀ t, ∀ lo hi, wfIn t lo hi = true → 1 ≤ slotCount t → slotKeys t ≠ [] := by
  intro t
  induction t using Node.induct with
  | hleaf v rs =>
      intro lo hi _ hs
      rw [slotKeys]
      simp only [slotCount] at hs
      intro hcon
      rw [List.map_eq_nil_iff] at hcon
      simp [hcon] at hs
  | hinner c0 es ih0 _ =>
      intro lo hi hwf _
      rw [wfIn] at hwf
      simp only [Bool.and_eq_true] at hwf
      obtain ⟨⟨hent, _⟩, _⟩ := hwf
      obtain ⟨hs0, hi', hwf0⟩ := wfEntries_first c0 es _ _ hent
      rw [slotKeys]
      exact fun hcon => (ih0 _ _ hwf0 hs0) (List.append_eq_nil.1 hcon).1

theorem keysBounded_entries :
    ∀ (es : List (Nat × Node)) (c : Node) (lo hi : Option Nat),
      (∀ x, (x = c ∨ ∃ s, (s, x) ∈ es) → ∀ lo' hi', wfIn x lo' hi' = true →
        ∀ κ ∈ slotKeys x, inB lo' hi' κ = true) →
      wfEntries c es lo hi = true →
      ∀ κ ∈ slotKeys c ++ slotKeysL es, inB lo hi κ = true := by
  intro es
  induction es with
  | nil =>
      intro c lo hi IH hwf κ hκ
      rw [wfEntries] at hwf
      simp only [Bool.and_eq_true, decide_eq_true_eq] at hwf
      rw [slotKeysL] at hκ
      simp only [List.append_nil] at hκ
      exact IH c (Or.inl rfl) lo hi hwf.1 κ hκ
  | cons e rest ih =>
      obtain ⟨s, c'⟩ := e
      intro c lo hi IH hwf κ hκ
      rw [wfEntries] at hwf
      simp only [Bool.and_eq_true, decide_eq_true_eq] at hwf
      obtain ⟨⟨hwfc, hslotc⟩, hrest⟩ := hwf
      have IHrest : ∀ x, (x = c' ∨ ∃ s', (s', x) ∈ rest) → ∀ lo' hi',
          wfIn x lo' hi' = true → ∀ κ' ∈ slotKeys x, inB lo' hi' κ' = true := by
        intro x hx
        refine IH x ?_
        rcases hx with h | ⟨s', h⟩
        · exact Or.inr ⟨s, by simp [h]⟩
        · exact Or.inr ⟨s', by simp [h]⟩
      have hrestB := ih c' (some s) hi IHrest hrest
      -- a witness key in the right part pins `s` under `hi`
      obtain ⟨hslotc', hi', hwfc'⟩ := wfEntries_first c' rest _ _ hrest
      obtain ⟨κ', hκ'⟩ := List.exists_mem_of_ne_nil _ (slotKeys_ne_nil c' _ _ hwfc' hslotc')
      have hκ'B := hrestB κ' (List.mem_append_left _ hκ')
      rw [inB_split] at hκ'B
      -- a witness key in the left part pins `lo` under `s`
      obtain ⟨κ0, hκ0⟩ := List.exists_mem_of_ne_nil _ (slotKeys_ne_nil c _ _ hwfc hslotc)
      have hκ0B := IH c (Or.inl rfl) lo (some s) hwfc κ0 hκ0
      rw [inB_split] at hκ0B
      rw [slotKeysL] at hκ
      rcases List.mem_append.1 hκ with hL | hR
      · have hB := IH c (Or.inl rfl) lo (some s) hwfc κ hL
        rw [inB_split] at hB
        rw [inB_split]
        refine ⟨hB.1, ?_⟩
        -- κ < s ≤ κ' and hiGT hi κ'
        refine hiGT_trans hi κ' κ ?_ hκ'B.2
        have h1 : κ < s := by simpa using hB.2
        have h2 : s ≤ κ' := by simpa using hκ'B.1
        omega
      · have hB := hrestB κ hR
        rw [inB_split] at hB
        rw [inB_split]
        refine ⟨?_, hB.2⟩
        -- lo ≤ κ0 < s ≤ κ
        refine loLE_trans lo κ0 κ hκ0B.1 ?_
        have h1 : κ0 < s := by simpa using hκ0B.2
        have h2 : s ≤ κ := by simpa using hB.1
        omega

theorem slotKeys_bounded :
    ∀ t (lo hi : Option Nat), wfIn t lo hi = true → ∀ κ ∈ slotKeys t, inB lo hi κ = true := by
  intro t
  induction t using Node.induct with
  | hleaf v rs =>
      intro lo hi h κ hκ
      rw [wfIn] at h
      simp only [Bool.and_eq_true, List.all_eq_true, decide_eq_true_eq] at h
      rw [slotKeys] at hκ
      obtain ⟨r, hr, hrk⟩ := List.mem_map.1 hκ
      rw [← hrk]
      exact h.1.2 r hr
  | hinner c0 es ih0 ihes =>
      intro lo hi h κ hκ
      rw [wfIn] at h
      simp only [Bool.and_eq_true] at h
      rw [slotKeys] at hκ
      refine keysBounded_entries es c0 lo hi ?_ h.1.1 κ hκ
      intro x hx
      rcases hx with h' | ⟨s, h'⟩
      · subst h'; exact ih0
      · exact ihes s x h'

theorem exists_key_inB (t : Node) (lo hi : Option Nat) (hwf : wfIn t lo hi = true)
    (hs : 1 ≤ slotCount t) : ∃ κ, inB lo hi κ = true := by
  obtain ⟨κ, hκ⟩ := List.exists_mem_of_ne_nil _ (slotKeys_ne_nil t lo hi hwf hs)
  exact ⟨κ, slotKeys_bounded t lo hi hwf κ hκ⟩

/-- Within `[some a, some b)` a key exists only if `a < b`: separator keys
strictly increase along a routing level. -/
theorem lt_of_exists_key (t : Node) (a b : Nat) (hwf : wfIn t (some a) (some b) = true)
    (hs : 1 ≤ slotCount t) : a < b := by
  obtain ⟨κ, hκ⟩ := exists_key_inB t _ _ hwf hs
  rw [inB_split] at hκ
  have h1 : a ≤ κ := by simpa using hκ.1
  have h2 : κ < b := by simpa using hκ.2
  omega

theorem liveList_keys_subsetL :
    ∀ (es : List (Nat × Node)),
      (∀ s c, (s, c) ∈ es → ∀ p ∈ liveList c, p.1 ∈ slotKeys c) →
      ∀ p ∈ liveListL es, p.1 ∈ slotKeysL es := by
  intro es
  induction es with
  | nil => intro _ p hp; rw [liveListL] at hp; simp at hp
  | cons e rest ih =>
      obtain ⟨s, c⟩ := e
      intro IH p hp
      rw [liveListL] at hp
      rw [slotKeysL]
      rcases List.mem_append.1 hp with h | h
      · exact List.mem_append_left _ (IH s c (by simp) p h)
      · exact List.mem_append_right _ (ih (fun s' c' h' => IH s' c' (by simp [h'])) p h)

theorem liveList_keys_subset :
    ∀ t, ∀ p ∈ liveList t, p.1 ∈ slotKeys t := by
  intro t
  induction t using Node.induct with
  | hleaf v rs =>
      intro p hp
      rw [liveList] at hp
      rw [slotKeys]
      obtain ⟨r, hr, hrp⟩ := List.mem_filterMap.1 hp
      by_cases hd : r.isDeleted
      · simp [hd] at hrp
      · simp only [hd, Bool.false_eq_true, if_false, Option.some.injEq] at hrp
        subst hrp
        simpa using List.mem_map_of_mem (fun x => x.key) hr
  | hinner c0 es ih0 ihes =>
      intro p hp
      rw [liveList] at hp
      rw [slotKeys]
      rcases List.mem_append.1 hp with h | h
      · exact List.mem_append_left _ (ih0 p h)
      · exact List.mem_append_right _ (liveList_keys_subsetL es ihes p h)

theorem liveList_bounded (t : Node) (lo hi : Option Nat) (hwf : wfIn t lo hi = true) :
    ∀ p ∈ liveList t, inB lo hi p.1 = true := fun p hp =>
  slotKeys_bounded t lo hi hwf p.1 (liveList_keys_subset t p hp)

/-- Splitting / joining a routing level at an entry: the children to the
left of `(s, cm)` cover `[lo, s)` and `cm` with the rest covers
`[s, hi)`. -/
theorem wfEntries_append (c : Node) (es1 : List (Nat × Node)) (s : Nat) (cm : Node)
    (es2 : List (Nat × Node)) (lo hi : Option Nat) :
    wfEntries c (es1 ++ (s, cm) :: es2) lo hi =
      (wfEntries c es1 lo (some s) && wfEntries cm es2 (some s) hi) := by
  induction es1 generalizing c lo with
  | nil =>
      rw [List.nil_append, wfEntries, wfEntries]
  | cons e r ih =>
      obtain ⟨s1, c1⟩ := e
      rw [List.cons_append]
      rw [wfEntries]
      conv_rhs => rw [wfEntries]
      rw [ih]
      conv_rhs => rw [Bool.and_assoc]

/-! ## Search correctness: `Read` computes association-list lookup -/

theorem slotKeysL_bounded (c : Node) (es : List (Nat × Node)) (lo hi : Option Nat)
    (h : wfEntries c es lo hi = true) :
    ∀ κ ∈ slotKeys c ++ slotKeysL es, inB lo hi κ = true :=
  keysBounded_entries es c lo hi (fun x _ => slotKeys_bounded x) h

theorem liveListL_bounded (c : Node) (es : List (Nat × Node)) (lo hi : Option Nat)
    (h : wfEntries c es lo hi = true) :
    ∀ p ∈ liveList c ++ liveListL es, inB lo hi p.1 = true := by
  intro p hp
  refine slotKeysL_bounded c es lo hi h p.1 ?_
  rcases List.mem_append.1 hp with h' | h'
  · exact List.mem_append_left _ (liveList_keys_subset c p h')
  · exact List.mem_append_right _
      (liveList_keys_subsetL es (fun _ c' _ => liveList_keys_subset c') p h')

theorem leafRead_eq_lookupA (rs : List Record) (k : Nat) (hs : sortedRecs rs = true) :
    leafRead rs k =
      lookupA (rs.filterMap fun r => if r.isDeleted then none else some (r.key, r.payload)) k := by
  rw [sortedRecs_iff] at hs
  induction rs with
  | nil => rfl
  | cons r rest ih =>
      rw [List.pairwise_cons] at hs
      obtain ⟨hlt, hrest⟩ := hs
      have ihr := ih hrest
      by_cases hk : r.key = k
      · by_cases hd : r.isDeleted
        · simp only [leafRead, List.find?_cons, hk, beq_self_eq_true, hd, if_true,
            List.filterMap_cons]
          symm
          rw [lookupA_eq_none]
          intro p hp
          obtain ⟨r', hr', hrp⟩ := List.mem_filterMap.1 hp
          by_cases hd' : r'.isDeleted
          · simp [hd'] at hrp
          · simp only [hd', Bool.false_eq_true, if_false, Option.some.injEq] at hrp
            have := hlt r' hr'
            subst hrp
            simp only []
            omega
        · simp [leafRead, List.find?_cons, hk, hd, List.filterMap_cons, lookupA_cons]
      · have hbeq : (r.key == k) = false := by simp [hk]
        by_cases hd : r.isDeleted
        · simp only [leafRead, List.find?_cons, hbeq, hd, List.filterMap_cons, if_true]
          exact ihr
        · simp only [leafRead, List.find?_cons, hbeq, hd, List.filterMap_cons,
            Bool.false_eq_true, if_false]
          rw [lookupA_cons, if_neg hk]
          exact ihr

theorem searchLeafL_read :
    ∀ (es : List (Nat × Node)) (c : Node) (lo hi : Option Nat) (k : Nat),
      (∀ x, (x = c ∨ ∃ s, (s, x) ∈ es) → ∀ lo' hi', wfIn x lo' hi' = true →
        inB lo' hi' k = true →
        leafRead (searchLeaf x k).2 k = lookupA (liveList x) k) →
      wfEntries c es lo hi = true → inB lo hi k = true →
      leafRead (searchLeafL c es k).2 k = lookupA (liveList c ++ liveListL es) k := by
  intro es
  induction es with
  | nil =>
      intro c lo hi k IH hwf hk
      rw [wfEntries] at hwf
      simp only [Bool.and_eq_true, decide_eq_true_eq] at hwf
      rw [searchLeafL, liveListL, List.append_nil]
      exact IH c (Or.inl rfl) lo hi hwf.1 hk
  | cons e rest ih =>
      obtain ⟨s, c'⟩ := e
      intro c lo hi k IH hwf hk
      rw [wfEntries] at hwf
      simp only [Bool.and_eq_true, decide_eq_true_eq] at hwf
      obtain ⟨⟨hwfc, _⟩, hrest⟩ := hwf
      rw [searchLeafL, liveListL]
      rw [inB_split] at hk
      by_cases hsk : s ≤ k
      · rw [if_pos hsk]
        have hcnone : lookupA (liveList c) k = none := by
          rw [lookupA_eq_none]
          intro p hp
          have := liveList_bounded c lo (some s) hwfc p hp
          rw [inB_split] at this
          have h1 : p.1 < s := by simpa using this.2
          omega
        rw [lookupA_append, hcnone, Option.none_or]
        refine ih c' (some s) hi k ?_ hrest ?_
        · intro x hx
          refine IH x ?_
          rcases hx with h | ⟨s', h⟩
          · exact Or.inr ⟨s, by simp [h]⟩
          · exact Or.inr ⟨s', by simp [h]⟩
        · rw [inB_split]
          exact ⟨by simpa using hsk, hk.2⟩
      · rw [if_neg hsk]
        have hrnone : lookupA (liveList c' ++ liveListL rest) k = none := by
          rw [lookupA_eq_none]
          intro p hp
          have := liveListL_bounded c' rest (some s) hi hrest p hp
          rw [inB_split] at this
          have h1 : s ≤ p.1 := by simpa using this.1
          omega
        rw [lookupA_append, hrnone, Option.or_none]
        refine IH c (Or.inl rfl) lo (some s) hwfc ?_
        rw [inB_split]
        refine ⟨hk.1, ?_⟩
        simp only [hiGT_some, decide_eq_true_eq]
        omega

theorem searchLeaf_read :
    ∀ t (lo hi : Option Nat) (k : Nat), wfIn t lo hi = true → inB lo hi k = true →
      leafRead (searchLeaf t k).2 k = lookupA (liveList t) k := by
  intro t
  induction t using Node.induct with
  | hleaf v rs =>
      intro lo hi k hwf _
      rw [wfIn] at hwf
      simp only [Bool.and_eq_true] at hwf
      rw [searchLeaf, liveList]
      exact leafRead_eq_lookupA rs k hwf.1.1
  | hinner c0 es ih0 ihes =>
      intro lo hi k hwf hk
      rw [wfIn] at hwf
      simp only [Bool.and_eq_true] at hwf
      rw [searchLeaf, liveList]
      refine searchLeafL_read es c0 lo hi k ?_ hwf.1.1 hk
      intro x hx
      rcases hx with h | ⟨s, h⟩
      · subst h; exact fun lo' hi' => ih0 lo' hi' k
      · exact fun lo' hi' => ihes s x h lo' hi' k

/-- `Read` is association-list lookup on the tree's live contents. -/
theorem readT_lookup (t : Node) (k : Nat) (h : wf t = true) :
    readT t k = lookupA (liveList t) k :=
  searchLeaf_read t none none k h rfl

/-! ## Leaf-level modification lemmas -/

/-- The live-pair projection of a slot array. -/
def livePairs (rs : List Record) : List (Nat × Nat) :=
  rs.filterMap fun r => if r.isDeleted then none else some (r.key, r.payload)

theorem liveList_leaf_eq (v : Nat) (rs : List Record) :
    liveList (.leaf v rs) = livePairs rs := by
  rw [liveList]; rfl

theorem livePairs_keys_mem (rs : List Record) (p : Nat × Nat) (hp : p ∈ livePairs rs) :
    ∃ r ∈ rs, r.key = p.1 ∧ r.isDeleted = false := by
  obtain ⟨r, hr, hrp⟩ := List.mem_filterMap.1 hp
  by_cases hd : r.isDeleted
  · simp [hd] at hrp
  · refine ⟨r, hr, ?_, by simpa using hd⟩
    simp only [hd, Bool.false_eq_true, if_false, Option.some.injEq] at hrp
    rw [← hrp]

theorem upsertA_front (l : List (Nat × Nat)) (k : Nat) (v : Nat)
    (h : ∀ p ∈ l, k < p.1) : upsertA l k v = (k, v) :: l := by
  cases l with
  | nil => rfl
  | cons p rest => rw [upsertA, if_pos (h p (by simp))]

theorem map_replace_id (rs : List Record) (k : Nat) (v : Nat)
    (h : ∀ r ∈ rs, r.key ≠ k) :
    (rs.map fun r => if r.key == k then ⟨k, v, false⟩ else r) = rs := by
  induction rs with
  | nil => rfl
  | cons r rest ih =>
      rw [List.map_cons, if_neg (by simpa using h r (by simp)),
        ih (fun r' hr' => h r' (by simp [hr']))]

/-- Overwriting the slot of `k` in place rewrites the live pairs by
`upsertA` (the slot may have been delete-marked, in which case it is
revived exactly where the sorted position of `k` is). -/
theorem livePairs_replace (rs : List Record) (k : Nat) (v : Nat)
    (hs : rs.Pairwise (fun a b => a.key < b.key))
    (hmem : ∃ r ∈ rs, r.key = k) :
    livePairs (rs.map fun r => if r.key == k then ⟨k, v, false⟩ else r) =
      upsertA (livePairs rs) k v := by
  induction rs with
  | nil => simp at hmem
  | cons r rest ih =>
      rw [List.pairwise_cons] at hs
      obtain ⟨hlt, hrest⟩ := hs
      by_cases hk : r.key = k
      · have hnone : ∀ r' ∈ rest, r'.key ≠ k := by
          intro r' hr'
          have := hlt r' hr'
          omega
        have hgt : ∀ p ∈ livePairs rest, k < p.1 := by
          intro p hp
          obtain ⟨r', hr', hrk, _⟩ := livePairs_keys_mem rest p hp
          have := hlt r' hr'
          omega
        rw [List.map_cons, if_pos (by simpa using hk), map_replace_id rest k v hnone]
        by_cases hd : r.isDeleted
        · have h1 : livePairs (r :: rest) = livePairs rest := by
            simp [livePairs, List.filterMap_cons, hd]
          have h2 : livePairs (⟨k, v, false⟩ :: rest) = (k, v) :: livePairs rest := by
            simp [livePairs, List.filterMap_cons]
          rw [h1, h2, upsertA_front _ _ _ hgt]
        · have h1 : livePairs (r :: rest) = (r.key, r.payload) :: livePairs rest := by
            simp [livePairs, List.filterMap_cons, hd]
          have h2 : livePairs (⟨k, v, false⟩ :: rest) = (k, v) :: livePairs rest := by
            simp [livePairs, List.filterMap_cons]
          rw [h1, h2, upsertA, if_neg (by omega), if_pos hk.symm]
      · obtain ⟨r0, hr0, hr0k⟩ := hmem
        have hr0rest : r0 ∈ rest := by
          rcases List.mem_cons.1 hr0 with h | h
          · exact absurd (by rw [h] at hr0k; exact hr0k) hk
          · exact h
        have hkgt : r.key < k := by
          have := hlt r0 hr0rest
          omega
        have ihh := ih hrest ⟨r0, hr0rest, hr0k⟩
        rw [List.map_cons, if_neg (by simpa using hk)]
        by_cases hd : r.isDeleted
        · have h1 : ∀ rs', livePairs (r :: rs') = livePairs rs' := by
            intro rs'; simp [livePairs, List.filterMap_cons, hd]
          rw [h1, h1, ihh]
        · have h1 : ∀ rs', livePairs (r :: rs') = (r.key, r.payload) :: livePairs rs' := by
            intro rs'; simp [livePairs, List.filterMap_cons, hd]
          rw [h1, h1, ihh, upsertA, if_neg (by omega), if_neg (Ne.symm hk)]

theorem insRecSorted_length (rs : List Record) (nr : Record) :
    (insRecSorted rs nr).length = rs.length + 1 := by
  induction rs with
  | nil => rfl
  | cons r rest ih =>
      rw [insRecSorted]
      by_cases h : nr.key < r.key
      · rw [if_pos h]; simp
      · rw [if_neg h]; simp [ih]

theorem insRecSorted_mem (rs : List Record) (nr : Record) (r' : Record)
    (h : r' ∈ insRecSorted rs nr) : r' ∈ rs ∨ r' = nr := by
  induction rs with
  | nil =>
      rw [insRecSorted] at h
      simp at h
      exact Or.inr h
  | cons r rest ih =>
      rw [insRecSorted] at h
      by_cases hc : nr.key < r.key
      · rw [if_pos hc] at h
        rcases List.mem_cons.1 h with h1 | h1
        · exact Or.inr h1
        · exact Or.inl h1
      · rw [if_neg hc] at h
        rcases List.mem_cons.1 h with h1 | h1
        · exact Or.inl (by simp [h1])
        · rcases ih h1 with h2 | h2
          · exact Or.inl (List.mem_cons.2 (Or.inr h2))
          · exact Or.inr h2

theorem insRecSorted_pairwise (rs : List Record) (nr : Record)
    (hs : rs.Pairwise (fun a b => a.key < b.key))
    (habs : ∀ r ∈ rs, r.key ≠ nr.key) :
    (insRecSorted rs nr).Pairwise (fun a b => a.key < b.key) := by
  induction rs with
  | nil => simp [insRecSorted]
  | cons r rest ih =>
      rw [List.pairwise_cons] at hs
      obtain ⟨hlt, hrest⟩ := hs
      rw [insRecSorted]
      by_cases hc : nr.key < r.key
      · rw [if_pos hc]
        rw [List.pairwise_cons]
        constructor
        · intro r' hr'
          rcases List.mem_cons.1 hr' with h | h
          · rw [h]; exact hc
          · have := hlt r' h; omega
        · exact List.pairwise_cons.2 ⟨hlt, hrest⟩
      · rw [if_neg hc]
        rw [List.pairwise_cons]
        constructor
        · intro r' hr'
          rcases insRecSorted_mem rest nr r' hr' with h | h
          · exact hlt r' h
          · rw [h]
            have := habs r (by simp)
            omega
        · exact ih hrest (fun r' hr' => habs r' (by simp [hr']))

theorem livePairs_insRecSorted (rs : List Record) (k : Nat) (v : Nat)
    (hs : rs.Pairwise (fun a b => a.key < b.key))
    (habs : ∀ r ∈ rs, r.key ≠ k) :
    livePairs (insRecSorted rs ⟨k, v, false⟩) = upsertA (livePairs rs) k v := by
  induction rs with
  | nil => rfl
  | cons r rest ih =>
      rw [List.pairwise_cons] at hs
      obtain ⟨hlt, hrest⟩ := hs
      rw [insRecSorted]
      by_cases hc : (⟨k, v, false⟩ : Record).key < r.key
      · rw [if_pos hc]
        simp only at hc
        have hgt : ∀ p ∈ livePairs (r :: rest), k < p.1 := by
          intro p hp
          obtain ⟨r', hr', hrk, _⟩ := livePairs_keys_mem _ p hp
          rcases List.mem_cons.1 hr' with h | h
          · rw [h] at hrk; omega
          · have := hlt r' h; omega
        have h2 : livePairs (⟨k, v, false⟩ :: r :: rest) = (k, v) :: livePairs (r :: rest) := by
          simp [livePairs, List.filterMap_cons]
        rw [h2, upsertA_front _ _ _ hgt]
      · rw [if_neg hc]
        simp only at hc
        have hne : r.key ≠ k := habs r (by simp)
        have hkr : r.key < k := by omega
        have ihh := ih hrest (fun r' hr' => habs r' (by simp [hr']))
        by_cases hd : r.isDeleted
        · have h1 : ∀ rs', livePairs (r :: rs') = livePairs rs' := by
            intro rs'; simp [livePairs, List.filterMap_cons, hd]
          rw [h1, h1, ihh]
        · have h1 : ∀ rs', livePairs (r :: rs') = (r.key, r.payload) :: livePairs rs' := by
            intro rs'; simp [livePairs, List.filterMap_cons, hd]
          rw [h1, h1, upsertA, if_neg (by omega), if_neg (Ne.symm hne), ihh]

theorem livePairs_liveRecs (rs : List Record) :
    livePairs (liveRecs rs) = livePairs rs := by
  induction rs with
  | nil => rfl
  | cons r rest ih =>
      by_cases hd : r.isDeleted
      · simp [livePairs, liveRecs, List.filter_cons, List.filterMap_cons, hd] at ih ⊢
        exact ih
      · simp [livePairs, liveRecs, List.filter_cons, List.filterMap_cons, hd] at ih ⊢
        exact ih

theorem livePairs_all_live (rs : List Record) (hl : ∀ r ∈ rs, r.isDeleted = false) :
    livePairs rs = rs.map fun r => (r.key, r.payload) := by
  induction rs with
  | nil => rfl
  | cons r rest ih =>
      have hd := hl r (by simp)
      simp only [livePairs, List.filterMap_cons, hd, Bool.false_eq_true, if_false, List.map_cons]
      exact congrArg _ (ih (fun r' hr' => hl r' (by simp [hr'])))

/-! ## Write / Insert preservation -/

theorem wfIn_leaf_iff (v : Nat) (rs : List Record) (lo hi : Option Nat) :
    wfIn (.leaf v rs) lo hi = true ↔
      rs.Pairwise (fun a b => a.key < b.key) ∧ (∀ r ∈ rs, inB lo hi r.key = true) ∧
        rs.length ≤ kNodeCap := by
  rw [wfIn]
  simp [sortedRecs_iff, List.all_eq_true, and_assoc]

theorem wfIn_inner_iff (c0 : Node) (es : List (Nat × Node)) (lo hi : Option Nat) :
    wfIn (.inner c0 es) lo hi = true ↔
      wfEntries c0 es lo hi = true ∧ 1 + es.length ≤ kNodeCap ∧
        ∀ sc ∈ es, height sc.2 = height c0 := by
  rw [wfIn]
  simp [List.all_eq_true, and_assoc]

theorem wfEntries_nil_iff (c : Node) (lo hi : Option Nat) :
    wfEntries c [] lo hi = true ↔ wfIn c lo hi = true ∧ 1 ≤ slotCount c := by
  rw [wfEntries]; simp

theorem wfEntries_cons_iff (c : Node) (s : Nat) (c' : Node) (rest : List (Nat × Node))
    (lo hi : Option Nat) :
    wfEntries c ((s, c') :: rest) lo hi = true ↔
      wfIn c lo (some s) = true ∧ 1 ≤ slotCount c ∧ wfEntries c' rest (some s) hi = true := by
  rw [wfEntries]; simp [and_assoc]

/-- The contract of a key-level modification of a subtree with key range
`[lo, hi)` whose children sit at height `h0`: either one well-formed
replacement of the same height whose live contents are `base`, or two
split halves around a separator jointly carrying `base`. -/
def GoodUp (lo hi : Option Nat) (h0 : Nat) (base : List (Nat × Nat)) : UpRes → Prop
  | .one t' => wfIn t' lo hi = true ∧ 1 ≤ slotCount t' ∧ height t' = h0 ∧ liveList t' = base
  | .split l s r => wfIn l lo (some s) = true ∧ wfIn r (some s) hi = true ∧
      1 ≤ slotCount l ∧ 1 ≤ slotCount r ∧ height l = h0 ∧ height r = h0 ∧
      liveList l ++ liveList r = base

theorem splitLeaf_ok (ver : Nat) (rs : List Record) (k v : Nat) (lo hi : Option Nat)
    (hlen : rs.length = kNodeCap)
    (hs : rs.Pairwise (fun a b => a.key < b.key))
    (hb : ∀ r ∈ rs, inB lo hi r.key = true)
    (hlive : ∀ r ∈ rs, r.isDeleted = false)
    (habs : ∀ r ∈ rs, r.key ≠ k)
    (hk : inB lo hi k = true) :
    GoodUp lo hi 0 (upsertA (livePairs rs) k v) (splitLeaf ver rs k v) := by
  match rs, hlen with
  | [r1, r2, r3, r4], _ =>
  simp only [List.pairwise_cons, List.mem_cons, List.not_mem_nil, or_false,
    forall_eq_or_imp, forall_eq] at hs
  obtain ⟨⟨h12, h13, h14⟩, ⟨h23, h24⟩, h34, -⟩ := hs
  have hb1 := hb r1 (by simp); have hb2 := hb r2 (by simp)
  have hb3 := hb r3 (by simp); have hb4 := hb r4 (by simp)
  have hl1 := hlive r1 (by simp); have hl2 := hlive r2 (by simp)
  have hl3 := hlive r3 (by simp); have hl4 := hlive r4 (by simp)
  have ha1 := habs r1 (by simp); have ha2 := habs r2 (by simp)
  have ha3 := habs r3 (by simp); have ha4 := habs r4 (by simp)
  rw [inB_split] at hb1 hb2 hb3 hb4 hk
  have hsplit : ([r1, r2, r3, r4] : List Record) = [r1, r2] ++ [r3, r4] := rfl
  have hlp : livePairs [r1, r2, r3, r4] = livePairs [r1, r2] ++ livePairs [r3, r4] := by
    rw [hsplit, livePairs, List.filterMap_append]; rfl
  have hkeys12 : ∀ p ∈ livePairs [r1, r2], p.1 < r3.key := by
    intro p hp
    obtain ⟨r', hr', hrk, _⟩ := livePairs_keys_mem _ p hp
    rcases List.mem_cons.1 hr' with h | h
    · rw [h] at hrk; omega
    · simp only [List.mem_singleton] at h; rw [h] at hrk; omega
  have hkeys34 : ∀ p ∈ livePairs [r3, r4], r3.key ≤ p.1 := by
    intro p hp
    obtain ⟨r', hr', hrk, _⟩ := livePairs_keys_mem _ p hp
    rcases List.mem_cons.1 hr' with h | h
    · rw [h] at hrk; omega
    · simp only [List.mem_singleton] at h; rw [h] at hrk; omega
  rw [show splitLeaf ver [r1, r2, r3, r4] k v =
      (if k < r3.key then
        UpRes.split (.leaf (ver + 2) (insRecSorted [r1, r2] ⟨k, v, false⟩)) r3.key
          (.leaf 1 [r3, r4])
      else
        UpRes.split (.leaf (ver + 1) [r1, r2]) r3.key
          (.leaf 2 (insRecSorted [r3, r4] ⟨k, v, false⟩))) from by
    rw [splitLeaf]
    norm_num]
  by_cases hc : k < r3.key
  · rw [if_pos hc]
    refine ⟨?_, ?_, ?_, ?_, rfl, rfl, ?_⟩
    · rw [wfIn_leaf_iff]
      refine ⟨?_, ?_, ?_⟩
      · refine insRecSorted_pairwise _ _ ?_ ?_
        · simp [List.pairwise_cons, h12]
        · intro r hr
          rcases List.mem_cons.1 hr with h | h
          · rw [h]; exact ha1
          · simp only [List.mem_singleton] at h; rw [h]; exact ha2
      · intro r hr
        rcases insRecSorted_mem _ _ _ hr with h | h
        · rw [inB_split]
          rcases List.mem_cons.1 h with h' | h'
          · rw [h']; exact ⟨hb1.1, by simp; omega⟩
          · simp only [List.mem_singleton] at h'; rw [h']; exact ⟨hb2.1, by simp; omega⟩
        · rw [h, inB_split]
          exact ⟨hk.1, by simp [hc]⟩
      · rw [insRecSorted_length]; simp [kNodeCap]
    · rw [wfIn_leaf_iff]
      refine ⟨by simp [List.pairwise_cons, h34], ?_, by simp [kNodeCap]⟩
      intro r hr
      rcases List.mem_cons.1 hr with h | h
      · rw [h, inB_split]; exact ⟨by simp, hb3.2⟩
      · simp only [List.mem_singleton] at h
        rw [h, inB_split]; exact ⟨by simp; omega, hb4.2⟩
    · simp only [slotCount, insRecSorted_length]; omega
    · simp [slotCount]
    · rw [liveList_leaf_eq, liveList_leaf_eq, hlp,
        upsertA_append_left _ _ _ _ (fun p hp => lt_of_lt_of_le hc (hkeys34 p hp)),
        livePairs_insRecSorted _ _ _ (by simp [List.pairwise_cons, h12]) ?_]
      intro r hr
      rcases List.mem_cons.1 hr with h | h
      · rw [h]; exact ha1
      · simp only [List.mem_singleton] at h; rw [h]; exact ha2
  · rw [if_neg hc]
    have hk3 : r3.key < k := by
      have := ha3; omega
    refine ⟨?_, ?_, ?_, ?_, rfl, rfl, ?_⟩
    · rw [wfIn_leaf_iff]
      refine ⟨by simp [List.pairwise_cons, h12], ?_, by simp [kNodeCap]⟩
      intro r hr
      rcases List.mem_cons.1 hr with h | h
      · rw [h, inB_split]; exact ⟨hb1.1, by simp; omega⟩
      · simp only [List.mem_singleton] at h
        rw [h, inB_split]; exact ⟨hb2.1, by simp; omega⟩
    · rw [wfIn_leaf_iff]
      refine ⟨?_, ?_, ?_⟩
      · refine insRecSorted_pairwise _ _ (by simp [List.pairwise_cons, h34]) ?_
        intro r hr
        rcases List.mem_cons.1 hr with h | h
        · rw [h]; exact ha3
        · simp only [List.mem_singleton] at h; rw [h]; exact ha4
      · intro r hr
        rcases insRecSorted_mem _ _ _ hr with h | h
        · rw [inB_split]
          rcases List.mem_cons.1 h with h' | h'
          · rw [h']; exact ⟨by simp, hb3.2⟩
          · simp only [List.mem_singleton] at h'
            rw [h']; exact ⟨by simp; omega, hb4.2⟩
        · rw [h, inB_split]
          exact ⟨by simp; omega, hk.2⟩
      · rw [insRecSorted_length]; simp [kNodeCap]
    · simp [slotCount]
    · simp only [slotCount, insRecSorted_length]; omega
    · rw [liveList_leaf_eq, liveList_leaf_eq, hlp,
        upsertA_append_right _ _ _ _ (fun p hp => lt_trans (hkeys12 p hp) hk3),
        livePairs_insRecSorted _ _ _ (by simp [List.pairwise_cons, h34]) ?_]
      intro r hr
      rcases List.mem_cons.1 hr with h | h
      · rw [h]; exact ha3
      · simp only [List.mem_singleton] at h; rw [h]; exact ha4

theorem replace_keys_eq (rs : List Record) (k v : Nat) :
    ((rs.map fun r => if r.key == k then ⟨k, v, false⟩ else r).map (·.key)) =
      rs.map (·.key) := by
  rw [List.map_map]
  apply List.map_congr_left
  intro r _
  by_cases h : r.key = k
  · simp [h]
  · simp [h]

theorem pairwise_key_iff (l : List Record) :
    l.Pairwise (fun a b => a.key < b.key) ↔ (l.map (·.key)).Pairwise (· < ·) := by
  rw [List.pairwise_map]

theorem writeLeaf_ok (ver : Nat) (rs : List Record) (k v : Nat) (lo hi : Option Nat)
    (hwf : wfIn (.leaf ver rs) lo hi = true) (hk : inB lo hi k = true) :
    GoodUp lo hi 0 (upsertA (livePairs rs) k v) (writeLeaf ver rs k v) := by
  rw [wfIn_leaf_iff] at hwf
  obtain ⟨hs, hb, hcap⟩ := hwf
  rw [writeLeaf]
  by_cases hany : rs.any (fun r => r.key == k)
  · rw [if_pos hany]
    rw [List.any_eq_true] at hany
    obtain ⟨r0, hr0, hr0k⟩ := hany
    rw [beq_iff_eq] at hr0k
    refine ⟨?_, ?_, rfl, ?_⟩
    · rw [wfIn_leaf_iff]
      refine ⟨?_, ?_, by simpa using hcap⟩
      · rw [pairwise_key_iff, replace_keys_eq, ← pairwise_key_iff]
        exact hs
      · intro r' hr'
        obtain ⟨r, hr, hfr⟩ := List.mem_map.1 hr'
        by_cases h : r.key = k
        · rw [← hfr, if_pos (by simpa using h)]
          exact hk
        · rw [← hfr, if_neg (by simpa using h)]
          exact hb r hr
    · simp only [slotCount, List.length_map]
      exact List.length_pos_of_mem hr0
    · rw [liveList_leaf_eq]
      exact livePairs_replace rs k v hs ⟨r0, hr0, hr0k⟩
  · have habs : ∀ r ∈ rs, r.key ≠ k := by
      intro r hr
      rw [List.any_eq_true] at hany
      exact fun h => hany ⟨r, hr, by simpa using h⟩
    rw [if_neg hany]
    by_cases hlen : rs.length < kNodeCap
    · rw [if_pos hlen]
      refine ⟨?_, ?_, rfl, ?_⟩
      · rw [wfIn_leaf_iff]
        refine ⟨insRecSorted_pairwise rs _ hs habs, ?_, by rw [insRecSorted_length]; omega⟩
        intro r hr
        rcases insRecSorted_mem rs _ r hr with h | h
        · exact hb r h
        · rw [h]; exact hk
      · simp only [slotCount, insRecSorted_length]; omega
      · rw [liveList_leaf_eq]
        exact livePairs_insRecSorted rs k v hs habs
    · rw [if_neg hlen]
      have hsub : (liveRecs rs).Sublist rs := List.filter_sublist rs
      have hs' : (liveRecs rs).Pairwise (fun a b => a.key < b.key) := hs.sublist hsub
      have hb' : ∀ r ∈ liveRecs rs, inB lo hi r.key = true :=
        fun r hr => hb r (hsub.mem hr)
      have habs' : ∀ r ∈ liveRecs rs, r.key ≠ k := fun r hr => habs r (hsub.mem hr)
      have hlive' : ∀ r ∈ liveRecs rs, r.isDeleted = false := by
        intro r hr
        have := List.mem_filter.1 hr
        simpa using this.2
      by_cases hll : (liveRecs rs).length < kNodeCap
      · rw [if_pos hll]
        refine ⟨?_, ?_, rfl, ?_⟩
        · rw [wfIn_leaf_iff]
          refine ⟨insRecSorted_pairwise _ _ hs' habs', ?_, by rw [insRecSorted_length]; omega⟩
          intro r hr
          rcases insRecSorted_mem _ _ r hr with h | h
          · exact hb' r h
          · rw [h]; exact hk
        · simp only [slotCount, insRecSorted_length]; omega
        · rw [liveList_leaf_eq]
          rw [livePairs_insRecSorted _ k v hs' habs', livePairs_liveRecs]
      · rw [if_neg hll]
        have hlen4 : (liveRecs rs).length = kNodeCap := by
          have h1 : (liveRecs rs).length ≤ rs.length := hsub.length_le
          omega
        have := splitLeaf_ok ver (liveRecs rs) k v lo hi hlen4 hs' hb' hlive' habs' hk
        rwa [livePairs_liveRecs] at this

theorem liveList_inner_eq (c0 : Node) (es : List (Nat × Node)) :
    liveList (.inner c0 es) = liveList c0 ++ liveListL es := by
  rw [liveList]

theorem liveListL_cons_eq (s : Nat) (c : Node) (rest : List (Nat × Node)) :
    liveListL ((s, c) :: rest) = liveList c ++ liveListL rest := by
  rw [liveListL]

theorem liveListL_nil_eq : liveListL [] = [] := by rw [liveListL]

theorem splitInner_ok (c0 : Node) (es : List (Nat × Node)) (s : Nat) (r : Node)
    (lo hi : Option Nat) (h0 : Nat)
    (hlen : es.length = 3)
    (hwf : wfEntries c0 (insEntrySorted es s r) lo hi = true)
    (hh : ∀ sc ∈ insEntrySorted es s r, height sc.2 = h0)
    (hh0 : height c0 = h0) :
    GoodUp lo hi (h0 + 1) (liveList c0 ++ liveListL (insEntrySorted es s r))
      (splitInner c0 es s r) := by
  match es, hlen with
  | [(s1, c1), (s2, c2), (s3, c3)], _ =>
  rw [show splitInner c0 [(s1, c1), (s2, c2), (s3, c3)] s r =
      (if s < s2 then
        UpRes.split (.inner c0 (insEntrySorted [(s1, c1)] s r)) s2 (.inner c2 [(s3, c3)])
      else
        UpRes.split (.inner c0 [(s1, c1)]) s2 (.inner c2 (insEntrySorted [(s3, c3)] s r)))
      from by rw [splitInner]; norm_num]
  by_cases h1 : s < s1
  · -- the new entry lands first: [(s,r),(s1,c1),(s2,c2),(s3,c3)]
    have hins : insEntrySorted [(s1, c1), (s2, c2), (s3, c3)] s r =
        [(s, r), (s1, c1), (s2, c2), (s3, c3)] := by
      rw [insEntrySorted, if_pos h1]
    rw [hins] at hwf hh ⊢
    rw [wfEntries_cons_iff, wfEntries_cons_iff, wfEntries_cons_iff,
      wfEntries_cons_iff, wfEntries_nil_iff] at hwf
    obtain ⟨hw0, hn0, hwr, hnr, hw1, hn1, hw2, hn2, hw3, hn3⟩ := hwf
    have er : height r = h0 := hh (s, r) (by simp)
    have e1 : height c1 = h0 := hh (s1, c1) (by simp)
    have e2 : height c2 = h0 := hh (s2, c2) (by simp)
    have e3 : height c3 = h0 := hh (s3, c3) (by simp)
    have h12 : s1 < s2 := lt_of_exists_key c1 s1 s2 hw1 hn1
    rw [if_pos (lt_trans h1 h12)]
    have hins1 : insEntrySorted [(s1, c1)] s r = [(s, r), (s1, c1)] := by
      rw [insEntrySorted, if_pos h1]
    rw [hins1]
    refine ⟨?_, ?_, by simp [slotCount], by simp [slotCount], by rw [height, hh0],
      by rw [height, e2], ?_⟩
    · rw [wfIn_inner_iff]
      refine ⟨?_, by simp [kNodeCap], ?_⟩
      · rw [wfEntries_cons_iff, wfEntries_cons_iff, wfEntries_nil_iff]
        exact ⟨hw0, hn0, hwr, hnr, hw1, hn1⟩
      · intro sc hsc
        rcases List.mem_cons.1 hsc with h | h
        · subst h; show height r = height c0; rw [er, hh0]
        · simp only [List.mem_singleton] at h; subst h
          show height c1 = height c0; rw [e1, hh0]
    · rw [wfIn_inner_iff]
      refine ⟨?_, by simp [kNodeCap], ?_⟩
      · rw [wfEntries_cons_iff, wfEntries_nil_iff]
        exact ⟨hw2, hn2, hw3, hn3⟩
      · intro sc hsc
        simp only [List.mem_singleton] at hsc; subst hsc
        show height c3 = height c2; rw [e3, e2]
    · simp [liveList_inner_eq, liveListL_cons_eq, liveListL_nil_eq, List.append_assoc]
  · rw [insEntrySorted, if_neg h1] at hwf hh ⊢
    by_cases h2 : s < s2
    · -- the new entry lands second: [(s1,c1),(s,r),(s2,c2),(s3,c3)]
      have hins : insEntrySorted [(s2, c2), (s3, c3)] s r =
          [(s, r), (s2, c2), (s3, c3)] := by
        rw [insEntrySorted, if_pos h2]
      rw [hins] at hwf hh ⊢
      rw [wfEntries_cons_iff, wfEntries_cons_iff, wfEntries_cons_iff,
        wfEntries_cons_iff, wfEntries_nil_iff] at hwf
      obtain ⟨hw0, hn0, hw1, hn1, hwr, hnr, hw2, hn2, hw3, hn3⟩ := hwf
      have e1 : height c1 = h0 := hh (s1, c1) (by simp)
      have er : height r = h0 := hh (s, r) (by simp)
      have e2 : height c2 = h0 := hh (s2, c2) (by simp)
      have e3 : height c3 = h0 := hh (s3, c3) (by simp)
      rw [if_pos h2]
      have hins1 : insEntrySorted [(s1, c1)] s r = [(s1, c1), (s, r)] := by
        rw [insEntrySorted, if_neg h1, insEntrySorted]
      rw [hins1]
      refine ⟨?_, ?_, by simp [slotCount], by simp [slotCount], by rw [height, hh0],
        by rw [height, e2], ?_⟩
      · rw [wfIn_inner_iff]
        refine ⟨?_, by simp [kNodeCap], ?_⟩
        · rw [wfEntries_cons_iff, wfEntries_cons_iff, wfEntries_nil_iff]
          exact ⟨hw0, hn0, hw1, hn1, hwr, hnr⟩
        · intro sc hsc
          rcases List.mem_cons.1 hsc with h | h
          · subst h; show height c1 = height c0; rw [e1, hh0]
          · simp only [List.mem_singleton] at h; subst h
            show height r = height c0; rw [er, hh0]
      · rw [wfIn_inner_iff]
        refine ⟨?_, by simp [kNodeCap], ?_⟩
        · rw [wfEntries_cons_iff, wfEntries_nil_iff]
          exact ⟨hw2, hn2, hw3, hn3⟩
        · intro sc hsc
          simp only [List.mem_singleton] at hsc; subst hsc
          show height c3 = height c2; rw [e3, e2]
      · simp [liveList_inner_eq, liveListL_cons_eq, liveListL_nil_eq, List.append_assoc]
    · rw [insEntrySorted, if_neg h2] at hwf hh ⊢
      rw [if_neg h2]
      by_cases h3 : s < s3
      · -- the new entry lands third: [(s1,c1),(s2,c2),(s,r),(s3,c3)]
        have hins : insEntrySorted [(s3, c3)] s r = [(s, r), (s3, c3)] := by
          rw [insEntrySorted, if_pos h3]
        rw [hins] at hwf hh ⊢
        rw [wfEntries_cons_iff, wfEntries_cons_iff, wfEntries_cons_iff,
          wfEntries_cons_iff, wfEntries_nil_iff] at hwf
        obtain ⟨hw0, hn0, hw1, hn1, hw2, hn2, hwr, hnr, hw3, hn3⟩ := hwf
        have e1 : height c1 = h0 := hh (s1, c1) (by simp)
        have e2 : height c2 = h0 := hh (s2, c2) (by simp)
        have er : height r = h0 := hh (s, r) (by simp)
        have e3 : height c3 = h0 := hh (s3, c3) (by simp)
        refine ⟨?_, ?_, by simp [slotCount], by simp [slotCount], by rw [height, hh0],
          by rw [height, e2], ?_⟩
        · rw [wfIn_inner_iff]
          refine ⟨?_, by simp [kNodeCap], ?_⟩
          · rw [wfEntries_cons_iff, wfEntries_nil_iff]
            exact ⟨hw0, hn0, hw1, hn1⟩
          · intro sc hsc
            simp only [List.mem_singleton] at hsc; subst hsc
            show height c1 = height c0; rw [e1, hh0]
        · rw [wfIn_inner_iff]
          refine ⟨?_, by simp [kNodeCap], ?_⟩
          · rw [wfEntries_cons_iff, wfEntries_cons_iff, wfEntries_nil_iff]
            exact ⟨hw2, hn2, hwr, hnr, hw3, hn3⟩
          · intro sc hsc
            rcases List.mem_cons.1 hsc with h | h
            · subst h; show height r = height c2; rw [er, e2]
            · simp only [List.mem_singleton] at h; subst h
              show height c3 = height c2; rw [e3, e2]
        · simp [liveList_inner_eq, liveListL_cons_eq, liveListL_nil_eq, List.append_assoc]
      · -- the new entry lands last: [(s1,c1),(s2,c2),(s3,c3),(s,r)]
        rw [insEntrySorted, if_neg h3, insEntrySorted] at hwf hh ⊢
        rw [wfEntries_cons_iff, wfEntries_cons_iff, wfEntries_cons_iff,
          wfEntries_cons_iff, wfEntries_nil_iff] at hwf
        obtain ⟨hw0, hn0, hw1, hn1, hw2, hn2, hw3, hn3, hwr, hnr⟩ := hwf
        have e1 : height c1 = h0 := hh (s1, c1) (by simp)
        have e2 : height c2 = h0 := hh (s2, c2) (by simp)
        have e3 : height c3 = h0 := hh (s3, c3) (by simp)
        have er : height r = h0 := hh (s, r) (by simp)
        refine ⟨?_, ?_, by simp [slotCount], by simp [slotCount], by rw [height, hh0],
          by rw [height, e2], ?_⟩
        · rw [wfIn_inner_iff]
          refine ⟨?_, by simp [kNodeCap], ?_⟩
          · rw [wfEntries_cons_iff, wfEntries_nil_iff]
            exact ⟨hw0, hn0, hw1, hn1⟩
          · intro sc hsc
            simp only [List.mem_singleton] at hsc; subst hsc
            show height c1 = height c0; rw [e1, hh0]
        · rw [wfIn_inner_iff]
          refine ⟨?_, by simp [kNodeCap], ?_⟩
          · rw [wfEntries_cons_iff, wfEntries_cons_iff, wfEntries_nil_iff]
            exact ⟨hw2, hn2, hw3, hn3, hwr, hnr⟩
          · intro sc hsc
            rcases List.mem_cons.1 hsc with h | h
            · subst h; show height c3 = height c2; rw [e3, e2]
            · simp only [List.mem_singleton] at h; subst h
              show height r = height c2; rw [er, e2]
        · simp [liveList_inner_eq, liveListL_cons_eq, liveListL_nil_eq, List.append_assoc]

theorem insEntrySorted_length (es : List (Nat × Node)) (s : Nat) (r : Node) :
    (insEntrySorted es s r).length = es.length + 1 := by
  induction es with
  | nil => rfl
  | cons e rest ih =>
      obtain ⟨s1, c1⟩ := e
      rw [insEntrySorted]
      by_cases h : s < s1
      · rw [if_pos h]; simp
      · rw [if_neg h]; simp [ih]

theorem insertChild_ok (c0 : Node) (es : List (Nat × Node)) (s : Nat) (r : Node)
    (lo hi : Option Nat) (h0 : Nat)
    (hcap : 1 + es.length ≤ kNodeCap)
    (hwf : wfEntries c0 (insEntrySorted es s r) lo hi = true)
    (hh : ∀ sc ∈ insEntrySorted es s r, height sc.2 = h0)
    (hh0 : height c0 = h0) :
    GoodUp lo hi (h0 + 1) (liveList c0 ++ liveListL (insEntrySorted es s r))
      (insertChild c0 es s r) := by
  rw [insertChild]
  by_cases hlt : 1 + es.length < kNodeCap
  · rw [if_pos hlt]
    refine ⟨?_, by simp [slotCount], by rw [height, hh0], liveList_inner_eq _ _⟩
    rw [wfIn_inner_iff]
    refine ⟨hwf, ?_, ?_⟩
    · rw [insEntrySorted_length]; simp only [kNodeCap] at hlt ⊢; omega
    · intro sc hsc
      rw [hh sc hsc, hh0]
  · rw [if_neg hlt]
    have hlen : es.length = 3 := by simp only [kNodeCap] at hlt hcap; omega
    exact splitInner_ok c0 es s r lo hi h0 hlen hwf hh hh0

theorem loLE_of_wf_left (l : Node) (lo : Option Nat) (s : Nat)
    (hw : wfIn l lo (some s) = true) (hn : 1 ≤ slotCount l) : loLE lo s = true := by
  obtain ⟨κ, hκ⟩ := exists_key_inB l lo (some s) hw hn
  rw [inB_split] at hκ
  exact loLE_trans lo κ s hκ.1 (le_of_lt (by simpa using hκ.2))

/-- The contract of `writeDescend`/`insDescend` on one inner node's routing
level: the level is rebuilt well-formed, with any pending split entry
`(s, r)` placed at its sorted position. -/
def DescendOK (lo hi : Option Nat) (h0 n : Nat) (base : List (Nat × Nat)) :
    Node × List (Nat × Node) × Option (Nat × Node) → Prop
  | (c0', es', none) => wfEntries c0' es' lo hi = true ∧ es'.length = n ∧
      height c0' = h0 ∧ (∀ sc ∈ es', height sc.2 = h0) ∧
      liveList c0' ++ liveListL es' = base
  | (c0', es', some (s, r)) =>
      wfEntries c0' (insEntrySorted es' s r) lo hi = true ∧ es'.length = n ∧
      loLE lo s = true ∧ height c0' = h0 ∧
      (∀ sc ∈ insEntrySorted es' s r, height sc.2 = h0) ∧
      liveList c0' ++ liveListL (insEntrySorted es' s r) = base

theorem writeDescend_ok (k v : Nat) :
    ∀ (es : List (Nat × Node)) (c : Node) (lo hi : Option Nat) (h0 : Nat),
      (∀ x, (x = c ∨ ∃ s, (s, x) ∈ es) → ∀ lo' hi',
        wfIn x lo' hi' = true → inB lo' hi' k = true →
        GoodUp lo' hi' (height x) (upsertA (liveList x) k v) (writeAux x k v)) →
      wfEntries c es lo hi = true → inB lo hi k = true →
      height c = h0 → (∀ sc ∈ es, height sc.2 = h0) →
      DescendOK lo hi h0 es.length (upsertA (liveList c ++ liveListL es) k v)
        (writeDescend c es k v) := by
  intro es
  induction es with
  | nil =>
      intro c lo hi h0 IH hwf hk hh0 _
      rw [wfEntries_nil_iff] at hwf
      have hg := IH c (Or.inl rfl) lo hi hwf.1 hk
      rw [writeDescend]
      cases hW : writeAux c k v with
      | one c' =>
          rw [hW] at hg
          obtain ⟨hw', hn', hht', hl'⟩ := hg
          refine ⟨by rw [wfEntries_nil_iff]; exact ⟨hw', hn'⟩, rfl, by rw [hht', hh0], by simp, ?_⟩
          simp only [liveListL_nil_eq, List.append_nil]
          exact hl'
      | split l s r =>
          rw [hW] at hg
          obtain ⟨hwl, hwr, hnl, hnr, hhl, hhr, hlv⟩ := hg
          refine ⟨?_, rfl, loLE_of_wf_left l lo s hwl hnl, by rw [hhl, hh0], ?_, ?_⟩
          · rw [show insEntrySorted [] s r = [(s, r)] from rfl,
              wfEntries_cons_iff, wfEntries_nil_iff]
            exact ⟨hwl, hnl, hwr, hnr⟩
          · intro sc hsc
            rw [show insEntrySorted [] s r = [(s, r)] from rfl] at hsc
            simp only [List.mem_singleton] at hsc
            rw [hsc]
            show height r = h0
            rw [hhr, hh0]
          · simp only [show insEntrySorted [] s r = [(s, r)] from rfl, liveListL_cons_eq,
              liveListL_nil_eq, List.append_nil]
            exact hlv
  | cons e rest ih =>
      obtain ⟨s1, c1⟩ := e
      intro c lo hi h0 IH hwf hk hh0 hhes
      rw [wfEntries_cons_iff] at hwf
      obtain ⟨hwc, hnc, hrest⟩ := hwf
      have hh1 : height c1 = h0 := hhes (s1, c1) (by simp)
      have hhrest : ∀ sc ∈ rest, height sc.2 = h0 := fun sc hsc => hhes sc (by simp [hsc])
      rw [inB_split] at hk
      rw [writeDescend]
      by_cases hs1k : s1 ≤ k
      · rw [if_pos hs1k]
        have IHrest : ∀ x, (x = c1 ∨ ∃ s, (s, x) ∈ rest) → ∀ lo' hi',
            wfIn x lo' hi' = true → inB lo' hi' k = true →
            GoodUp lo' hi' (height x) (upsertA (liveList x) k v) (writeAux x k v) := by
          intro x hx
          refine IH x ?_
          rcases hx with h | ⟨s', h⟩
          · exact Or.inr ⟨s1, by simp [h]⟩
          · exact Or.inr ⟨s', by simp [h]⟩
        have hkd : inB (some s1) hi k = true := by
          rw [inB_split]
          exact ⟨by simpa using hs1k, hk.2⟩
        have hrec := ih c1 (some s1) hi h0 IHrest hrest hkd hh1 hhrest
        have hlt : ∀ p ∈ liveList c, p.1 < k := by
          intro p hp
          have := liveList_bounded c lo (some s1) hwc p hp
          rw [inB_split] at this
          have h1 : p.1 < s1 := by simpa using this.2
          omega
        have hbase : upsertA (liveList c ++ (liveList c1 ++ liveListL rest)) k v =
            liveList c ++ upsertA (liveList c1 ++ liveListL rest) k v :=
          upsertA_append_right _ _ k v hlt
        cases hW : writeDescend c1 rest k v with
        | mk c1' pr =>
        obtain ⟨es', pend⟩ := pr
        rw [hW] at hrec
        cases pend with
        | none =>
            obtain ⟨hw', hlen', hh', hhes', hl'⟩ := hrec
            refine ⟨?_, by simp [hlen'], hh0, ?_, ?_⟩
            · rw [wfEntries_cons_iff]
              exact ⟨hwc, hnc, hw'⟩
            · intro sc hsc
              rcases List.mem_cons.1 hsc with h | h
              · rw [h]; exact hh'
              · exact hhes' sc h
            · simp only [liveListL_cons_eq]
              rw [hbase, ← hl']
        | some sr =>
            obtain ⟨s, r⟩ := sr
            obtain ⟨hw', hlen', hlos, hh', hhes', hl'⟩ := hrec
            have hns : ¬ s < s1 := by
              simp only [loLE_some, decide_eq_true_eq] at hlos
              omega
            have hinseq : insEntrySorted ((s1, c1') :: es') s r =
                (s1, c1') :: insEntrySorted es' s r := by
              rw [insEntrySorted, if_neg hns]
            refine ⟨?_, by simp [hlen'], ?_, hh0, ?_, ?_⟩
            · rw [hinseq, wfEntries_cons_iff]
              exact ⟨hwc, hnc, hw'⟩
            · refine loLE_trans lo s1 s (loLE_of_wf_left c lo s1 hwc hnc) ?_
              simp only [loLE_some, decide_eq_true_eq] at hlos
              omega
            · intro sc hsc
              rw [hinseq] at hsc
              rcases List.mem_cons.1 hsc with h | h
              · rw [h]; exact hh'
              · exact hhes' sc h
            · rw [hinseq]
              simp only [liveListL_cons_eq]
              rw [hbase, ← hl']
      · rw [if_neg hs1k]
        have hkc : inB lo (some s1) k = true := by
          rw [inB_split]
          exact ⟨hk.1, by simp; omega⟩
        have hg := IH c (Or.inl rfl) lo (some s1) hwc hkc
        have hgt : ∀ p ∈ liveList c1 ++ liveListL rest, k < p.1 := by
          intro p hp
          have := liveListL_bounded c1 rest (some s1) hi hrest p hp
          rw [inB_split] at this
          have h1 : s1 ≤ p.1 := by simpa using this.1
          omega
        have hbase : upsertA (liveList c ++ (liveList c1 ++ liveListL rest)) k v =
            upsertA (liveList c) k v ++ (liveList c1 ++ liveListL rest) :=
          upsertA_append_left _ _ k v hgt
        cases hW : writeAux c k v with
        | one c' =>
            rw [hW] at hg
            obtain ⟨hw', hn', hht', hl'⟩ := hg
            refine ⟨?_, rfl, by rw [hht', hh0], ?_, ?_⟩
            · rw [wfEntries_cons_iff]
              exact ⟨hw', hn', hrest⟩
            · intro sc hsc
              rcases List.mem_cons.1 hsc with h | h
              · rw [h]; exact hh1
              · exact hhrest sc h
            · simp only [liveListL_cons_eq]
              rw [hbase, hl']
        | split l s r =>
            rw [hW] at hg
            obtain ⟨hwl, hwr, hnl, hnr, hhl, hhr, hlv⟩ := hg
            have hss1 : s < s1 := lt_of_exists_key r s s1 hwr hnr
            have hinseq : insEntrySorted ((s1, c1) :: rest) s r =
                (s, r) :: (s1, c1) :: rest := by
              rw [insEntrySorted, if_pos hss1]
            refine ⟨?_, rfl, loLE_of_wf_left l lo s hwl hnl, by rw [hhl, hh0], ?_, ?_⟩
            · rw [hinseq, wfEntries_cons_iff, wfEntries_cons_iff]
              exact ⟨hwl, hnl, hwr, hnr, hrest⟩
            · intro sc hsc
              rw [hinseq] at hsc
              rcases List.mem_cons.1 hsc with h | h
              · rw [h]; show height r = h0; rw [hhr, hh0]
              · rcases List.mem_cons.1 h with h' | h'
                · rw [h']; exact hh1
                · exact hhrest sc h'
            · rw [hinseq]
              simp only [liveListL_cons_eq]
              rw [hbase, ← hlv, List.append_assoc]

theorem writeAux_ok :
    ∀ t (lo hi : Option Nat) (k v : Nat), wfIn t lo hi = true → inB lo hi k = true →
      GoodUp lo hi (height t) (upsertA (liveList t) k v) (writeAux t k v) := by
  intro t
  induction t using Node.induct with
  | hleaf v0 rs =>
      intro lo hi k v hwf hk
      rw [writeAux, liveList_leaf_eq]
      exact writeLeaf_ok v0 rs k v lo hi hwf hk
  | hinner c0 es ih0 ihes =>
      intro lo hi k v hwf hk
      rw [wfIn_inner_iff] at hwf
      obtain ⟨hent, hcap, hh⟩ := hwf
      have hdesc := writeDescend_ok k v es c0 lo hi (height c0)
        (fun x hx => by
          rcases hx with h | ⟨s, h⟩
          · subst h; exact fun lo' hi' => ih0 lo' hi' k v
          · exact fun lo' hi' => ihes s x h lo' hi' k v)
        hent hk rfl (fun sc hsc => hh sc hsc)
      rw [writeAux]
      cases hW : writeDescend c0 es k v with
      | mk c0' pr =>
      obtain ⟨es', pend⟩ := pr
      rw [hW] at hdesc
      cases pend with
      | none =>
          obtain ⟨hw', hlen', hh0', hhes', hl'⟩ := hdesc
          refine ⟨?_, by simp [slotCount], ?_, ?_⟩
          · rw [wfIn_inner_iff]
            exact ⟨hw', by rw [hlen']; exact hcap, fun sc hsc => by rw [hhes' sc hsc, hh0']⟩
          · show height c0' + 1 = height c0 + 1
            rw [hh0']
          · rw [liveList_inner_eq, liveList_inner_eq, hl']
      | some sr =>
          obtain ⟨s, r⟩ := sr
          obtain ⟨hw', hlen', hlos, hh0', hhes', hl'⟩ := hdesc
          have hca := insertChild_ok c0' es' s r lo hi (height c0)
            (by rw [hlen']; exact hcap) hw' hhes' hh0'
          rw [hl'] at hca
          rw [liveList_inner_eq]
          exact hca

/-- `Write` always returns `kSuccess`: the blind upsert has no failure
path (splits are completed internally). -/
theorem writeT_rc (t : Node) (k v : Nat) : (writeT t k v).1 = kSuccess := by
  rw [writeT]
  cases writeAux t k v <;> rfl

/-- The tree produced by `Write`. -/
theorem writeT_ok (t : Node) (k v : Nat) (h : wf t = true) :
    wf (writeT t k v).2 = true ∧
      liveList (writeT t k v).2 = upsertA (liveList t) k v := by
  have hg := writeAux_ok t none none k v h rfl
  rw [writeT]
  cases hW : writeAux t k v with
  | one t' =>
      rw [hW] at hg
      obtain ⟨hw, _, _, hl⟩ := hg
      exact ⟨hw, hl⟩
  | split l s r =>
      rw [hW] at hg
      obtain ⟨hwl, hwr, hnl, hnr, hhl, hhr, hlv⟩ := hg
      constructor
      · show wf (.inner l [(s, r)]) = true
        rw [wf, wfIn_inner_iff]
        refine ⟨?_, by simp [kNodeCap], ?_⟩
        · rw [wfEntries_cons_iff, wfEntries_nil_iff]
          exact ⟨hwl, hnl, hwr, hnr⟩
        · intro sc hsc
          simp only [List.mem_singleton] at hsc
          subst hsc
          show height r = height l
          rw [hhr, hhl]
      · show liveList (.inner l [(s, r)]) = _
        rw [liveList_inner_eq, liveListL_cons_eq, liveListL_nil_eq, List.append_nil, hlv]

/-! ## Insert: search routing through splits, then the preservation lemma -/

theorem searchLeafL_append_lt (es1 : List (Nat × Node)) (c : Node) (s2 : Nat) (cm : Node)
    (es2 : List (Nat × Node)) (k : Nat) (h : k < s2) :
    searchLeafL c (es1 ++ (s2, cm) :: es2) k = searchLeafL c es1 k := by
  induction es1 generalizing c with
  | nil =>
      rw [List.nil_append]
      conv_rhs => rw [searchLeafL]
      rw [searchLeafL, if_neg (by omega)]
  | cons e rest ih =>
      obtain ⟨s1, c1⟩ := e
      rw [List.cons_append, searchLeafL]
      conv_rhs => rw [searchLeafL]
      by_cases h1 : s1 ≤ k
      · rw [if_pos h1, if_pos h1, ih]
      · rw [if_neg h1, if_neg h1]

theorem searchLeafL_append_ge (es1 : List (Nat × Node)) (c : Node) (s2 : Nat) (cm : Node)
    (es2 : List (Nat × Node)) (k : Nat) (h : s2 ≤ k) (hall : ∀ e ∈ es1, e.1 ≤ k) :
    searchLeafL c (es1 ++ (s2, cm) :: es2) k = searchLeafL cm es2 k := by
  induction es1 generalizing c with
  | nil => rw [List.nil_append, searchLeafL, if_pos h]
  | cons e rest ih =>
      obtain ⟨s1, c1⟩ := e
      rw [List.cons_append, searchLeafL, if_pos (hall (s1, c1) (by simp))]
      exact ih c1 (fun e he => hall e (by simp [he]))

theorem splitInner_search (c0 : Node) (es : List (Nat × Node)) (s : Nat) (r : Node)
    (lo hi : Option Nat) (hlen : es.length = 3)
    (hwf : wfEntries c0 (insEntrySorted es s r) lo hi = true) (k : Nat) :
    ∀ l s' r', splitInner c0 es s r = .split l s' r' →
      searchLeafL c0 (insEntrySorted es s r) k =
        if k < s' then searchLeaf l k else searchLeaf r' k := by
  match es, hlen with
  | [(s1, c1), (s2, c2), (s3, c3)], _ =>
  intro l s' r' hsp
  rw [show splitInner c0 [(s1, c1), (s2, c2), (s3, c3)] s r =
      (if s < s2 then
        UpRes.split (.inner c0 (insEntrySorted [(s1, c1)] s r)) s2 (.inner c2 [(s3, c3)])
      else
        UpRes.split (.inner c0 [(s1, c1)]) s2 (.inner c2 (insEntrySorted [(s3, c3)] s r)))
      from by rw [splitInner]; norm_num] at hsp
  by_cases h1 : s < s1
  · have hins : insEntrySorted [(s1, c1), (s2, c2), (s3, c3)] s r =
        [(s, r), (s1, c1)] ++ (s2, c2) :: [(s3, c3)] := by
      rw [insEntrySorted, if_pos h1]; rfl
    rw [hins] at hwf ⊢
    simp only [List.cons_append, List.nil_append] at hwf
    rw [wfEntries_cons_iff, wfEntries_cons_iff, wfEntries_cons_iff,
      wfEntries_cons_iff, wfEntries_nil_iff] at hwf
    obtain ⟨hw0, hn0, hwr, hnr, hw1, hn1, hw2, hn2, hw3, hn3⟩ := hwf
    have hss1 : s < s1 := h1
    have h12 : s1 < s2 := lt_of_exists_key c1 s1 s2 hw1 hn1
    rw [if_pos (lt_trans hss1 h12)] at hsp
    injection hsp with e1 e2 e3
    subst e1; subst e2; subst e3
    rw [show insEntrySorted [(s1, c1)] s r = [(s, r), (s1, c1)] from by
      rw [insEntrySorted, if_pos h1]]
    by_cases hk : k < s2
    · rw [if_pos hk, searchLeafL_append_lt _ _ _ _ _ _ hk, searchLeaf]
    · rw [if_neg hk, searchLeafL_append_ge _ _ _ _ _ _ (by omega) ?_, searchLeaf]
      intro e he
      rcases List.mem_cons.1 he with h | h
      · rw [h]; show s ≤ k; omega
      · simp only [List.mem_singleton] at h; rw [h]; show s1 ≤ k; omega
  · rw [insEntrySorted, if_neg h1] at hwf ⊢
    by_cases h2 : s < s2
    · have hins : insEntrySorted [(s2, c2), (s3, c3)] s r =
          [(s, r)] ++ (s2, c2) :: [(s3, c3)] := by
        rw [insEntrySorted, if_pos h2]; rfl
      rw [hins] at hwf ⊢
      rw [show ((s1, c1) :: ([(s, r)] ++ (s2, c2) :: [(s3, c3)])) =
        ([(s1, c1), (s, r)] ++ (s2, c2) :: [(s3, c3)]) from rfl] at hwf ⊢
      simp only [List.cons_append, List.nil_append] at hwf
      rw [wfEntries_cons_iff, wfEntries_cons_iff, wfEntries_cons_iff,
        wfEntries_cons_iff, wfEntries_nil_iff] at hwf
      obtain ⟨hw0, hn0, hw1, hn1, hwr, hnr, hw2, hn2, hw3, hn3⟩ := hwf
      have h1s : s1 < s := lt_of_exists_key c1 s1 s hw1 hn1
      rw [if_pos h2] at hsp
      injection hsp with e1 e2 e3
      subst e1; subst e2; subst e3
      rw [show insEntrySorted [(s1, c1)] s r = [(s1, c1), (s, r)] from by
        rw [insEntrySorted, if_neg h1, insEntrySorted]]
      by_cases hk : k < s2
      · rw [if_pos hk, searchLeafL_append_lt _ _ _ _ _ _ hk, searchLeaf]
      · rw [if_neg hk, searchLeafL_append_ge _ _ _ _ _ _ (by omega) ?_, searchLeaf]
        intro e he
        rcases List.mem_cons.1 he with h | h
        · rw [h]; show s1 ≤ k; omega
        · simp only [List.mem_singleton] at h; rw [h]; show s ≤ k; omega
    · rw [insEntrySorted, if_neg h2] at hwf ⊢
      rw [if_neg h2] at hsp
      injection hsp with e1 e2 e3
      subst e1; subst e2; subst e3
      by_cases h3 : s < s3
      · have hins : insEntrySorted [(s3, c3)] s r = [(s, r), (s3, c3)] := by
          rw [insEntrySorted, if_pos h3]
        rw [hins] at hwf ⊢
        rw [show ((s1, c1) :: (s2, c2) :: [(s, r), (s3, c3)]) =
          ([(s1, c1)] ++ (s2, c2) :: [(s, r), (s3, c3)]) from rfl] at hwf ⊢
        simp only [List.cons_append, List.nil_append] at hwf
        rw [wfEntries_cons_iff, wfEntries_cons_iff, wfEntries_cons_iff,
          wfEntries_cons_iff, wfEntries_nil_iff] at hwf
        obtain ⟨hw0, hn0, hw1, hn1, hw2, hn2, hwr, hnr, hw3, hn3⟩ := hwf
        have h12 : s1 < s2 := lt_of_exists_key c1 s1 s2 hw1 hn1
        by_cases hk : k < s2
        · rw [if_pos hk, searchLeafL_append_lt _ _ _ _ _ _ hk, searchLeaf]
        · rw [if_neg hk, searchLeafL_append_ge _ _ _ _ _ _ (by omega)
            (by intro e he; simp only [List.mem_singleton] at he; rw [he]; show s1 ≤ k; omega),
            searchLeaf]
      · have hins : insEntrySorted [(s3, c3)] s r = [(s3, c3), (s, r)] := by
          rw [insEntrySorted, if_neg h3, insEntrySorted]
        rw [hins] at hwf ⊢
        rw [show ((s1, c1) :: (s2, c2) :: [(s3, c3), (s, r)]) =
          ([(s1, c1)] ++ (s2, c2) :: [(s3, c3), (s, r)]) from rfl] at hwf ⊢
        simp only [List.cons_append, List.nil_append] at hwf
        rw [wfEntries_cons_iff, wfEntries_cons_iff, wfEntries_cons_iff,
          wfEntries_cons_iff, wfEntries_nil_iff] at hwf
        obtain ⟨hw0, hn0, hw1, hn1, hw2, hn2, hw3, hn3, hwr, hnr⟩ := hwf
        have h12 : s1 < s2 := lt_of_exists_key c1 s1 s2 hw1 hn1
        by_cases hk : k < s2
        · rw [if_pos hk, searchLeafL_append_lt _ _ _ _ _ _ hk, searchLeaf]
        · rw [if_neg hk, searchLeafL_append_ge _ _ _ _ _ _ (by omega)
            (by intro e he; simp only [List.mem_singleton] at he; rw [he]; show s1 ≤ k; omega),
            searchLeaf]

theorem insertChild_search (c0 : Node) (es : List (Nat × Node)) (s : Nat) (r : Node)
    (lo hi : Option Nat) (hcap : 1 + es.length ≤ kNodeCap)
    (hwf : wfEntries c0 (insEntrySorted es s r) lo hi = true) (k : Nat) :
    (∀ t', insertChild c0 es s r = .one t' →
      searchLeafL c0 (insEntrySorted es s r) k = searchLeaf t' k) ∧
    (∀ l s' r', insertChild c0 es s r = .split l s' r' →
      searchLeafL c0 (insEntrySorted es s r) k =
        if k < s' then searchLeaf l k else searchLeaf r' k) := by
  rw [insertChild]
  by_cases hlt : 1 + es.length < kNodeCap
  · rw [if_pos hlt]
    constructor
    · intro t' ht'
      injection ht' with h
      rw [← h, searchLeaf]
    · intro l s' r' h
      exact absurd h (by intro h; cases h)
  · rw [if_neg hlt]
    have hlen : es.length = 3 := by simp only [kNodeCap] at hlt hcap; omega
    constructor
    · intro t' ht'
      exact absurd ht' (by
        match es, hlen with
        | [(s1, c1), (s2, c2), (s3, c3)], _ =>
          rw [show splitInner c0 [(s1, c1), (s2, c2), (s3, c3)] s r =
              (if s < s2 then
                UpRes.split (.inner c0 (insEntrySorted [(s1, c1)] s r)) s2
                  (.inner c2 [(s3, c3)])
              else
                UpRes.split (.inner c0 [(s1, c1)]) s2
                  (.inner c2 (insEntrySorted [(s3, c3)] s r)))
              from by rw [splitInner]; norm_num]
          by_cases h2 : s < s2
          · rw [if_pos h2]; intro h; cases h
          · rw [if_neg h2]; intro h; cases h)
    · intro l s' r' h
      exact splitInner_search c0 es s r lo hi hlen hwf k l s' r' h

theorem lookupA_livePairs_absent (rs : List Record) (k : Nat)
    (habs : ∀ r ∈ rs, r.key ≠ k) : lookupA (livePairs rs) k = none := by
  rw [lookupA_eq_none]
  intro p hp
  obtain ⟨r, hr, hrk, _⟩ := livePairs_keys_mem rs p hp
  rw [← hrk]
  exact habs r hr

theorem list_len_four (l : List Record) (h : l.length = 4) :
    ∃ a b c d, l = [a, b, c, d] := by
  match l, h with
  | [a, b, c, d], _ => exact ⟨a, b, c, d, rfl⟩

/-- The contract of `Insert`'s recursive core on a subtree with key range
`[lo, hi)`: a duplicate short-circuits with the stored payload and the
version of the leaf the search reaches, leaving the tree untouched;
otherwise the key is absent and the subtree is rebuilt as by `Write`, with
the reported version that of the leaf now holding `k`. -/
def GoodIns (t : Node) (lo hi : Option Nat) (k v : Nat) : InsRes → Prop
  | .dup p ver => lookupA (liveList t) k = some p ∧ ver = (searchLeaf t k).1
  | .one t' ver => lookupA (liveList t) k = none ∧ wfIn t' lo hi = true ∧
      1 ≤ slotCount t' ∧ height t' = height t ∧
      liveList t' = upsertA (liveList t) k v ∧ ver = (searchLeaf t' k).1
  | .split l s r ver => lookupA (liveList t) k = none ∧
      wfIn l lo (some s) = true ∧ wfIn r (some s) hi = true ∧
      1 ≤ slotCount l ∧ 1 ≤ slotCount r ∧ height l = height t ∧ height r = height t ∧
      liveList l ++ liveList r = upsertA (liveList t) k v ∧
      ver = (searchLeaf (if k < s then l else r) k).1

theorem insLeaf_ok (ver : Nat) (rs : List Record) (k v : Nat) (lo hi : Option Nat)
    (hwf : wfIn (.leaf ver rs) lo hi = true) (hk : inB lo hi k = true) :
    GoodIns (.leaf ver rs) lo hi k v (insLeaf ver rs k v) := by
  have hwf' := hwf
  rw [wfIn_leaf_iff] at hwf'
  obtain ⟨hs, hb, hcap⟩ := hwf'
  have hsort : sortedRecs rs = true := (sortedRecs_iff rs).2 hs
  have hlrd : lookupA (livePairs rs) k = leafRead rs k := by
    rw [livePairs]
    exact (leafRead_eq_lookupA rs k hsort).symm
  rw [insLeaf]
  cases hfind : rs.find? (fun r => r.key == k) with
  | some r =>
      have hrk : r.key = k := by
        have := List.find?_some hfind
        simpa using this
      have hrmem : r ∈ rs := List.mem_of_find?_eq_some hfind
      simp only []
      by_cases hd : r.isDeleted
      · rw [if_pos hd]
        refine ⟨?_, ?_, ?_, rfl, ?_, ?_⟩
        · rw [liveList_leaf_eq, hlrd]
          simp only [leafRead, hfind, hd, if_true]
        · rw [wfIn_leaf_iff]
          refine ⟨?_, ?_, by simpa using hcap⟩
          · rw [pairwise_key_iff, replace_keys_eq, ← pairwise_key_iff]
            exact hs
          · intro r' hr'
            obtain ⟨r0, hr0, hfr⟩ := List.mem_map.1 hr'
            by_cases h : r0.key = k
            · rw [← hfr, if_pos (by simpa using h)]
              exact hk
            · rw [← hfr, if_neg (by simpa using h)]
              exact hb r0 hr0
        · simp only [slotCount, List.length_map]
          exact List.length_pos_of_mem hrmem
        · rw [liveList_leaf_eq, liveList_leaf_eq]
          exact livePairs_replace rs k v hs ⟨r, hrmem, hrk⟩
        · rw [searchLeaf]
      · rw [if_neg hd]
        refine ⟨?_, ?_⟩
        · rw [liveList_leaf_eq, hlrd]
          simp only [leafRead, hfind, hd, Bool.false_eq_true, if_false]
        · rw [searchLeaf]
  | none =>
      have habs : ∀ r ∈ rs, r.key ≠ k := by
        intro r hr h
        have := List.find?_eq_none.1 hfind r hr
        simp [h] at this
      have hlknone : lookupA (liveList (.leaf ver rs)) k = none := by
        rw [liveList_leaf_eq]
        exact lookupA_livePairs_absent rs k habs
      simp only []
      by_cases hlen : rs.length < kNodeCap
      · rw [if_pos hlen]
        refine ⟨hlknone, ?_, ?_, rfl, ?_, by rw [searchLeaf]⟩
        · rw [wfIn_leaf_iff]
          refine ⟨insRecSorted_pairwise rs _ hs habs, ?_, by rw [insRecSorted_length]; omega⟩
          intro r hr
          rcases insRecSorted_mem rs _ r hr with h | h
          · exact hb r h
          · rw [h]; exact hk
        · simp only [slotCount, insRecSorted_length]; omega
        · rw [liveList_leaf_eq, liveList_leaf_eq]
          exact livePairs_insRecSorted rs k v hs habs
      · rw [if_neg hlen]
        have hsub : (liveRecs rs).Sublist rs := List.filter_sublist rs
        have hs' : (liveRecs rs).Pairwise (fun a b => a.key < b.key) := hs.sublist hsub
        have hb' : ∀ r ∈ liveRecs rs, inB lo hi r.key = true :=
          fun r hr => hb r (hsub.mem hr)
        have habs' : ∀ r ∈ liveRecs rs, r.key ≠ k := fun r hr => habs r (hsub.mem hr)
        have hlive' : ∀ r ∈ liveRecs rs, r.isDeleted = false := by
          intro r hr
          have := List.mem_filter.1 hr
          simpa using this.2
        by_cases hll : (liveRecs rs).length < kNodeCap
        · rw [if_pos hll]
          refine ⟨hlknone, ?_, ?_, rfl, ?_, by rw [searchLeaf]⟩
          · rw [wfIn_leaf_iff]
            refine ⟨insRecSorted_pairwise _ _ hs' habs', ?_,
              by rw [insRecSorted_length]; omega⟩
            intro r hr
            rcases insRecSorted_mem _ _ r hr with h | h
            · exact hb' r h
            · rw [h]; exact hk
          · simp only [slotCount, insRecSorted_length]; omega
          · rw [liveList_leaf_eq, liveList_leaf_eq,
              livePairs_insRecSorted _ k v hs' habs', livePairs_liveRecs]
        · rw [if_neg hll]
          have hlen4 : (liveRecs rs).length = kNodeCap := by
            have h1 : (liveRecs rs).length ≤ rs.length := hsub.length_le
            omega
          have hGU := splitLeaf_ok ver (liveRecs rs) k v lo hi hlen4 hs' hb' hlive' habs' hk
          rw [livePairs_liveRecs] at hGU
          obtain ⟨r1, r2, r3, r4, hrs⟩ :=
            list_len_four (liveRecs rs) (by simpa [kNodeCap] using hlen4)
          rw [hrs] at hGU ⊢
          rw [show splitLeaf ver [r1, r2, r3, r4] k v =
              (if k < r3.key then
                UpRes.split (.leaf (ver + 2) (insRecSorted [r1, r2] ⟨k, v, false⟩)) r3.key
                  (.leaf 1 [r3, r4])
              else
                UpRes.split (.leaf (ver + 1) [r1, r2]) r3.key
                  (.leaf 2 (insRecSorted [r3, r4] ⟨k, v, false⟩))) from by
            rw [splitLeaf]
            norm_num] at hGU ⊢
          by_cases hc : k < r3.key
          · rw [if_pos hc] at hGU ⊢
            obtain ⟨hwl, hwr, hnl, hnr, -, -, hlv⟩ := hGU
            refine ⟨hlknone, hwl, hwr, hnl, hnr, rfl, rfl, ?_, ?_⟩
            · simp only [liveList_leaf_eq] at hlv ⊢
              exact hlv
            · rw [if_pos hc, if_pos hc, searchLeaf]
          · rw [if_neg hc] at hGU ⊢
            obtain ⟨hwl, hwr, hnl, hnr, -, -, hlv⟩ := hGU
            refine ⟨hlknone, hwl, hwr, hnl, hnr, rfl, rfl, ?_, ?_⟩
            · simp only [liveList_leaf_eq] at hlv ⊢
              exact hlv
            · rw [if_neg hc, if_neg hc, searchLeaf]

/-- The contract of `insDescend` on one inner node's routing level: the
duplicate case reports the binding visible in the level's live contents and
the version of the leaf the search reaches; the rebuild cases mirror
`DescendOK` plus the absence of the key and the version of the leaf now
holding it. -/
def InsDescendOK (c : Node) (es : List (Nat × Node)) (lo hi : Option Nat) (h0 : Nat)
    (k v : Nat) : DescRes → Prop
  | .dup p ver => lookupA (liveList c ++ liveListL es) k = some p ∧
      ver = (searchLeafL c es k).1
  | .desc c0' es' none ver =>
      lookupA (liveList c ++ liveListL es) k = none ∧
      wfEntries c0' es' lo hi = true ∧ es'.length = es.length ∧
      height c0' = h0 ∧ (∀ sc ∈ es', height sc.2 = h0) ∧
      liveList c0' ++ liveListL es' = upsertA (liveList c ++ liveListL es) k v ∧
      ver = (searchLeafL c0' es' k).1
  | .desc c0' es' (some (s, r)) ver =>
      lookupA (liveList c ++ liveListL es) k = none ∧
      wfEntries c0' (insEntrySorted es' s r) lo hi = true ∧ es'.length = es.length ∧
      loLE lo s = true ∧ height c0' = h0 ∧
      (∀ sc ∈ insEntrySorted es' s r, height sc.2 = h0) ∧
      liveList c0' ++ liveListL (insEntrySorted es' s r) =
        upsertA (liveList c ++ liveListL es) k v ∧
      ver = (searchLeafL c0' (insEntrySorted es' s r) k).1

theorem insDescend_ok (k v : Nat) :
    ∀ (es : List (Nat × Node)) (c : Node) (lo hi : Option Nat) (h0 : Nat),
      (∀ x, (x = c ∨ ∃ s, (s, x) ∈ es) → ∀ lo' hi',
        wfIn x lo' hi' = true → inB lo' hi' k = true →
        GoodIns x lo' hi' k v (insAux x k v)) →
      wfEntries c es lo hi = true → inB lo hi k = true →
      height c = h0 → (∀ sc ∈ es, height sc.2 = h0) →
      InsDescendOK c es lo hi h0 k v (insDescend c es k v) := by
  intro es
  induction es with
  | nil =>
      intro c lo hi h0 IH hwf hk hh0 _
      rw [wfEntries_nil_iff] at hwf
      have hg := IH c (Or.inl rfl) lo hi hwf.1 hk
      rw [insDescend]
      cases hW : insAux c k v with
      | dup p ver =>
          rw [hW] at hg
          obtain ⟨hlk, hver⟩ := hg
          refine ⟨?_, ?_⟩
          · simp only [liveListL_nil_eq, List.append_nil]
            exact hlk
          · rw [searchLeafL]
            exact hver
      | one c' ver =>
          rw [hW] at hg
          obtain ⟨hlk, hw', hn', hht', hl', hver⟩ := hg
          refine ⟨?_, by rw [wfEntries_nil_iff]; exact ⟨hw', hn'⟩, rfl,
            by rw [hht', hh0], by simp, ?_, ?_⟩
          · simp only [liveListL_nil_eq, List.append_nil]
            exact hlk
          · simp only [liveListL_nil_eq, List.append_nil]
            exact hl'
          · rw [searchLeafL]
            exact hver
      | split l s r ver =>
          rw [hW] at hg
          obtain ⟨hlk, hwl, hwr, hnl, hnr, hhl, hhr, hlv, hver⟩ := hg
          refine ⟨?_, ?_, rfl, loLE_of_wf_left l lo s hwl hnl, by rw [hhl, hh0], ?_, ?_, ?_⟩
          · simp only [liveListL_nil_eq, List.append_nil]
            exact hlk
          · rw [show insEntrySorted [] s r = [(s, r)] from rfl,
              wfEntries_cons_iff, wfEntries_nil_iff]
            exact ⟨hwl, hnl, hwr, hnr⟩
          · intro sc hsc
            rw [show insEntrySorted [] s r = [(s, r)] from rfl] at hsc
            simp only [List.mem_singleton] at hsc
            rw [hsc]
            show height r = h0
            rw [hhr, hh0]
          · simp only [show insEntrySorted [] s r = [(s, r)] from rfl, liveListL_cons_eq,
              liveListL_nil_eq, List.append_nil]
            exact hlv
          · rw [show insEntrySorted [] s r = [(s, r)] from rfl, searchLeafL]
            by_cases hks : s ≤ k
            · rw [if_pos hks, searchLeafL]
              rw [if_neg (by omega)] at hver
              exact hver
            · rw [if_neg hks]
              rw [if_pos (by omega)] at hver
              exact hver
  | cons e rest ih =>
      obtain ⟨s1, c1⟩ := e
      intro c lo hi h0 IH hwf hk hh0 hhes
      rw [wfEntries_cons_iff] at hwf
      obtain ⟨hwc, hnc, hrest⟩ := hwf
      have hh1 : height c1 = h0 := hhes (s1, c1) (by simp)
      have hhrest : ∀ sc ∈ rest, height sc.2 = h0 := fun sc hsc => hhes sc (by simp [hsc])
      rw [inB_split] at hk
      rw [insDescend]
      by_cases hs1k : s1 ≤ k
      · rw [if_pos hs1k]
        have IHrest : ∀ x, (x = c1 ∨ ∃ s, (s, x) ∈ rest) → ∀ lo' hi',
            wfIn x lo' hi' = true → inB lo' hi' k = true →
            GoodIns x lo' hi' k v (insAux x k v) := by
          intro x hx
          refine IH x ?_
          rcases hx with h | ⟨s', h⟩
          · exact Or.inr ⟨s1, by simp [h]⟩
          · exact Or.inr ⟨s', by simp [h]⟩
        have hkd : inB (some s1) hi k = true := by
          rw [inB_split]
          exact ⟨by simpa using hs1k, hk.2⟩
        have hrec := ih c1 (some s1) hi h0 IHrest hrest hkd hh1 hhrest
        have hlt : ∀ p ∈ liveList c, p.1 < k := by
          intro p hp
          have := liveList_bounded c lo (some s1) hwc p hp
          rw [inB_split] at this
          have h1 : p.1 < s1 := by simpa using this.2
          omega
        have hlknc : lookupA (liveList c) k = none := by
          rw [lookupA_eq_none]
          intro p hp
          have := hlt p hp
          omega
        have hbase : upsertA (liveList c ++ (liveList c1 ++ liveListL rest)) k v =
            liveList c ++ upsertA (liveList c1 ++ liveListL rest) k v :=
          upsertA_append_right _ _ k v hlt
        cases hW : insDescend c1 rest k v with
        | dup p ver =>
            rw [hW] at hrec
            obtain ⟨hlk, hver⟩ := hrec
            refine ⟨?_, ?_⟩
            · rw [liveListL_cons_eq, lookupA_append, hlknc, hlk]
              rfl
            · rw [searchLeafL, if_pos hs1k]
              exact hver
        | desc c1' rest' pend ver =>
            rw [hW] at hrec
            cases pend with
            | none =>
                obtain ⟨hlkr, hw', hlen', hh', hhes', hl', hver⟩ := hrec
                refine ⟨?_, ?_, by simp [hlen'], hh0, ?_, ?_, ?_⟩
                · rw [liveListL_cons_eq, lookupA_append, hlknc, hlkr]
                  rfl
                · rw [wfEntries_cons_iff]
                  exact ⟨hwc, hnc, hw'⟩
                · intro sc hsc
                  rcases List.mem_cons.1 hsc with h | h
                  · rw [h]; exact hh'
                  · exact hhes' sc h
                · simp only [liveListL_cons_eq]
                  rw [hbase, ← hl']
                · rw [searchLeafL, if_pos hs1k]
                  exact hver
            | some sr =>
                obtain ⟨s, r⟩ := sr
                obtain ⟨hlkr, hw', hlen', hlos, hh', hhes', hl', hver⟩ := hrec
                have hns : ¬ s < s1 := by
                  simp only [loLE_some, decide_eq_true_eq] at hlos
                  omega
                have hinseq : insEntrySorted ((s1, c1') :: rest') s r =
                    (s1, c1') :: insEntrySorted rest' s r := by
                  rw [insEntrySorted, if_neg hns]
                refine ⟨?_, ?_, by simp [hlen'], ?_, hh0, ?_, ?_, ?_⟩
                · rw [liveListL_cons_eq, lookupA_append, hlknc, hlkr]
                  rfl
                · rw [hinseq, wfEntries_cons_iff]
                  exact ⟨hwc, hnc, hw'⟩
                · refine loLE_trans lo s1 s (loLE_of_wf_left c lo s1 hwc hnc) ?_
                  simp only [loLE_some, decide_eq_true_eq] at hlos
                  omega
                · intro sc hsc
                  rw [hinseq] at hsc
                  rcases List.mem_cons.1 hsc with h | h
                  · rw [h]; exact hh'
                  · exact hhes' sc h
                · rw [hinseq]
                  simp only [liveListL_cons_eq]
                  rw [hbase, ← hl']
                · rw [hinseq, searchLeafL, if_pos hs1k]
                  exact hver
      · rw [if_neg hs1k]
        have hkc : inB lo (some s1) k = true := by
          rw [inB_split]
          exact ⟨hk.1, by simp; omega⟩
        have hg := IH c (Or.inl rfl) lo (some s1) hwc hkc
        have hgt : ∀ p ∈ liveList c1 ++ liveListL rest, k < p.1 := by
          intro p hp
          have := liveListL_bounded c1 rest (some s1) hi hrest p hp
          rw [inB_split] at this
          have h1 : s1 ≤ p.1 := by simpa using this.1
          omega
        have hlkrest : lookupA (liveList c1 ++ liveListL rest) k = none := by
          rw [lookupA_eq_none]
          intro p hp
          have := hgt p hp
          omega
        have hbase : upsertA (liveList c ++ (liveList c1 ++ liveListL rest)) k v =
            upsertA (liveList c) k v ++ (liveList c1 ++ liveListL rest) :=
          upsertA_append_left _ _ k v hgt
        cases hW : insAux c k v with
        | dup p ver =>
            rw [hW] at hg
            obtain ⟨hlk, hver⟩ := hg
            refine ⟨?_, ?_⟩
            · rw [liveListL_cons_eq, lookupA_append, hlk]
              rfl
            · rw [searchLeafL, if_neg hs1k]
              exact hver
        | one c' ver =>
            rw [hW] at hg
            obtain ⟨hlkc, hw', hn', hht', hl', hver⟩ := hg
            refine ⟨?_, ?_, rfl, by rw [hht', hh0], ?_, ?_, ?_⟩
            · rw [liveListL_cons_eq, lookupA_append, hlkc, hlkrest]
              rfl
            · rw [wfEntries_cons_iff]
              exact ⟨hw', hn', hrest⟩
            · intro sc hsc
              rcases List.mem_cons.1 hsc with h | h
              · rw [h]; exact hh1
              · exact hhrest sc h
            · simp only [liveListL_cons_eq]
              rw [hbase, hl']
            · rw [searchLeafL, if_neg hs1k]
              exact hver
        | split l s r ver =>
            rw [hW] at hg
            obtain ⟨hlkc, hwl, hwr, hnl, hnr, hhl, hhr, hlv, hver⟩ := hg
            have hss1 : s < s1 := lt_of_exists_key r s s1 hwr hnr
            have hinseq : insEntrySorted ((s1, c1) :: rest) s r =
                (s, r) :: (s1, c1) :: rest := by
              rw [insEntrySorted, if_pos hss1]
            refine ⟨?_, ?_, rfl, loLE_of_wf_left l lo s hwl hnl, by rw [hhl, hh0], ?_, ?_, ?_⟩
            · rw [liveListL_cons_eq, lookupA_append, hlkc, hlkrest]
              rfl
            · rw [hinseq, wfEntries_cons_iff, wfEntries_cons_iff]
              exact ⟨hwl, hnl, hwr, hnr, hrest⟩
            · intro sc hsc
              rw [hinseq] at hsc
              rcases List.mem_cons.1 hsc with h | h
              · rw [h]; show height r = h0; rw [hhr, hh0]
              · rcases List.mem_cons.1 h with h' | h'
                · rw [h']; exact hh1
                · exact hhrest sc h'
            · rw [hinseq]
              simp only [liveListL_cons_eq]
              rw [hbase, ← hlv, List.append_assoc]
            · rw [hinseq, searchLeafL]
              by_cases hks : s ≤ k
              · rw [if_pos hks, searchLeafL, if_neg hs1k]
                rw [if_neg (by omega)] at hver
                exact hver
              · rw [if_neg hks]
                rw [if_pos (by omega)] at hver
                exact hver

theorem insAux_ok :
    ∀ t (lo hi : Option Nat) (k v : Nat), wfIn t lo hi = true → inB lo hi k = true →
      GoodIns t lo hi k v (insAux t k v) := by
  intro t
  induction t using Node.induct with
  | hleaf v0 rs =>
      intro lo hi k v hwf hk
      rw [insAux]
      exact insLeaf_ok v0 rs k v lo hi hwf hk
  | hinner c0 es ih0 ihes =>
      intro lo hi k v hwf hk
      rw [wfIn_inner_iff] at hwf
      obtain ⟨hent, hcap, hh⟩ := hwf
      have hdesc := insDescend_ok k v es c0 lo hi (height c0)
        (fun x hx => by
          rcases hx with h | ⟨s, h⟩
          · subst h; exact fun lo' hi' => ih0 lo' hi' k v
          · exact fun lo' hi' => ihes s x h lo' hi' k v)
        hent hk rfl (fun sc hsc => hh sc hsc)
      rw [insAux]
      cases hW : insDescend c0 es k v with
      | dup p ver =>
          rw [hW] at hdesc
          obtain ⟨hlk, hver⟩ := hdesc
          refine ⟨?_, ?_⟩
          · rw [liveList_inner_eq]
            exact hlk
          · rw [searchLeaf]
            exact hver
      | desc c0' es' pend ver =>
          rw [hW] at hdesc
          cases pend with
          | none =>
              obtain ⟨hlk, hw', hlen', hh0', hhes', hl', hver⟩ := hdesc
              refine ⟨by rw [liveList_inner_eq]; exact hlk, ?_, by simp [slotCount],
                ?_, ?_, ?_⟩
              · rw [wfIn_inner_iff]
                exact ⟨hw', by rw [hlen']; exact hcap,
                  fun sc hsc => by rw [hhes' sc hsc, hh0']⟩
              · show height c0' + 1 = height c0 + 1
                rw [hh0']
              · rw [liveList_inner_eq, liveList_inner_eq, hl']
              · rw [searchLeaf]
                exact hver
          | some sr =>
              obtain ⟨s, r⟩ := sr
              obtain ⟨hlk, hw', hlen', hlos, hh0', hhes', hl', hver⟩ := hdesc
              simp only []
              have hca := insertChild_ok c0' es' s r lo hi (height c0)
                (by rw [hlen']; exact hcap) hw' hhes' hh0'
              have hse := insertChild_search c0' es' s r lo hi
                (by rw [hlen']; exact hcap) hw' k
              cases hIC : insertChild c0' es' s r with
              | one t' =>
                  rw [hIC] at hca
                  obtain ⟨hwt, hnt, hht, hlt'⟩ := hca
                  refine ⟨by rw [liveList_inner_eq]; exact hlk, hwt, hnt, ?_, ?_, ?_⟩
                  · rw [hht, height]
                  · rw [liveList_inner_eq]
                    exact hlt'.trans hl'
                  · rw [hse.1 t' hIC] at hver
                    exact hver
              | split l s' r' =>
                  rw [hIC] at hca
                  obtain ⟨hwl, hwr, hnl, hnr, hhl, hhr, hlv⟩ := hca
                  refine ⟨by rw [liveList_inner_eq]; exact hlk, hwl, hwr, hnl, hnr,
                    by rw [hhl, height], by rw [hhr, height], ?_, ?_⟩
                  · rw [liveList_inner_eq]
                    exact hlv.trans hl'
                  · rw [hse.2 l s' r' hIC] at hver
                    by_cases hks : k < s'
                    · rw [if_pos hks] at hver ⊢
                      exact hver
                    · rw [if_neg hks] at hver ⊢
                      exact hver

/-- `Insert`'s full contract: a live key short-circuits with `kKeyExist`,
the stored payload, the current version of the leaf holding it and the
unchanged tree; a missing key is inserted with `kSuccess`, no out-payload,
and the version of the leaf that now holds it. -/
theorem insertT_ok (t : Node) (k v : Nat) (h : wf t = true) :
    (∀ p, lookupA (liveList t) k = some p →
      insertT t k v = (kKeyExist, some p, (searchLeaf t k).1, t)) ∧
    (lookupA (liveList t) k = none →
      (insertT t k v).1 = kSuccess ∧ (insertT t k v).2.1 = none ∧
      wf (insertT t k v).2.2.2 = true ∧
      liveList (insertT t k v).2.2.2 = upsertA (liveList t) k v ∧
      (insertT t k v).2.2.1 = (searchLeaf (insertT t k v).2.2.2 k).1) := by
  have hg := insAux_ok t none none k v h rfl
  rw [insertT]
  cases hW : insAux t k v with
  | dup p0 ver =>
      rw [hW] at hg
      obtain ⟨hlk, hver⟩ := hg
      constructor
      · intro p hp
        rw [hlk] at hp
        injection hp with hp
        rw [← hp, hver]
      · intro hp
        rw [hlk] at hp
        cases hp
  | one t' ver =>
      rw [hW] at hg
      obtain ⟨hlk, hw', hn', hht', hl', hver⟩ := hg
      constructor
      · intro p hp
        rw [hlk] at hp
        cases hp
      · intro _
        exact ⟨rfl, rfl, hw', hl', hver⟩
  | split l s r ver =>
      rw [hW] at hg
      obtain ⟨hlk, hwl, hwr, hnl, hnr, hhl, hhr, hlv, hver⟩ := hg
      constructor
      · intro p hp
        rw [hlk] at hp
        cases hp
      · intro _
        refine ⟨rfl, rfl, ?_, ?_, ?_⟩
        · show wf (.inner l [(s, r)]) = true
          rw [wf, wfIn_inner_iff]
          refine ⟨?_, by simp [kNodeCap], ?_⟩
          · rw [wfEntries_cons_iff, wfEntries_nil_iff]
            exact ⟨hwl, hnl, hwr, hnr⟩
          · intro sc hsc
            simp only [List.mem_singleton] at hsc
            rw [hsc]
            show height r = height l
            rw [hhl, hhr]
        · show liveList (.inner l [(s, r)]) = upsertA (liveList t) k v
          rw [liveList_inner_eq, liveListL_cons_eq, liveListL_nil_eq, List.append_nil, hlv]
        · show ver = (searchLeaf (.inner l [(s, r)]) k).1
          rw [searchLeaf, searchLeafL]
          by_cases hks : s ≤ k
          · rw [if_pos hks, searchLeafL]
            rw [if_neg (by omega)] at hver
            exact hver
          · rw [if_neg hks]
            rw [if_pos (by omega)] at hver
            exact hver

/-- `Insert` returns only the public codes `kSuccess` / `kKeyExist`. -/
theorem insertT_rc (t : Node) (k v : Nat) :
    (insertT t k v).1 = kSuccess ∨ (insertT t k v).1 = kKeyExist := by
  rw [insertT]
  cases insAux t k v with
  | dup p ver => exact Or.inr rfl
  | one t' ver => exact Or.inl rfl
  | split l s r ver => exact Or.inl rfl

/-! ## Update preservation -/

/-- The contract of `Update`'s recursive core: `none` exactly when the key
has no live binding, otherwise the subtree with the payload overwritten in
place. -/
def GoodUpd (t : Node) (lo hi : Option Nat) (k v : Nat) : Option Node → Prop
  | none => lookupA (liveList t) k = none
  | some t' => (∃ p, lookupA (liveList t) k = some p) ∧ wfIn t' lo hi = true ∧
      1 ≤ slotCount t' ∧ height t' = height t ∧
      liveList t' = upsertA (liveList t) k v

/-- The contract of `updDescend` on one inner node's routing level. -/
def UpdDescendOK (c : Node) (es : List (Nat × Node)) (lo hi : Option Nat) (h0 : Nat)
    (k v : Nat) : Option (Node × List (Nat × Node)) → Prop
  | none => lookupA (liveList c ++ liveListL es) k = none
  | some (c0', es') => (∃ p, lookupA (liveList c ++ liveListL es) k = some p) ∧
      wfEntries c0' es' lo hi = true ∧ es'.length = es.length ∧
      height c0' = h0 ∧ (∀ sc ∈ es', height sc.2 = h0) ∧
      liveList c0' ++ liveListL es' = upsertA (liveList c ++ liveListL es) k v

theorem updLeaf_ok (ver : Nat) (rs : List Record) (k v : Nat) (lo hi : Option Nat)
    (hwf : wfIn (.leaf ver rs) lo hi = true) (hk : inB lo hi k = true) :
    GoodUpd (.leaf ver rs) lo hi k v (updAux (.leaf ver rs) k v) := by
  rw [wfIn_leaf_iff] at hwf
  obtain ⟨hs, hb, hcap⟩ := hwf
  have hsort : sortedRecs rs = true := (sortedRecs_iff rs).2 hs
  have hlrd : lookupA (livePairs rs) k = leafRead rs k := by
    rw [livePairs]
    exact (leafRead_eq_lookupA rs k hsort).symm
  rw [updAux]
  cases hfind : rs.find? (fun r => r.key == k) with
  | some r =>
      have hrk : r.key = k := by
        have := List.find?_some hfind
        simpa using this
      have hrmem : r ∈ rs := List.mem_of_find?_eq_some hfind
      simp only []
      by_cases hd : r.isDeleted
      · rw [if_pos hd]
        show lookupA (liveList (.leaf ver rs)) k = none
        rw [liveList_leaf_eq, hlrd]
        simp only [leafRead, hfind, hd, if_true]
      · rw [if_neg hd]
        refine ⟨⟨r.payload, ?_⟩, ?_, ?_, rfl, ?_⟩
        · rw [liveList_leaf_eq, hlrd]
          simp only [leafRead, hfind, hd, Bool.false_eq_true, if_false]
        · rw [wfIn_leaf_iff]
          refine ⟨?_, ?_, by simpa using hcap⟩
          · rw [pairwise_key_iff, replace_keys_eq, ← pairwise_key_iff]
            exact hs
          · intro r' hr'
            obtain ⟨r0, hr0, hfr⟩ := List.mem_map.1 hr'
            by_cases h : r0.key = k
            · rw [← hfr, if_pos (by simpa using h)]
              exact hk
            · rw [← hfr, if_neg (by simpa using h)]
              exact hb r0 hr0
        · simp only [slotCount, List.length_map]
          exact List.length_pos_of_mem hrmem
        · rw [liveList_leaf_eq, liveList_leaf_eq]
          exact livePairs_replace rs k v hs ⟨r, hrmem, hrk⟩
  | none =>
      have habs : ∀ r ∈ rs, r.key ≠ k := by
        intro r hr h
        have := List.find?_eq_none.1 hfind r hr
        simp [h] at this
      show lookupA (liveList (.leaf ver rs)) k = none
      rw [liveList_leaf_eq]
      exact lookupA_livePairs_absent rs k habs

theorem updDescend_ok (k v : Nat) :
    ∀ (es : List (Nat × Node)) (c : Node) (lo hi : Option Nat) (h0 : Nat),
      (∀ x, (x = c ∨ ∃ s, (s, x) ∈ es) → ∀ lo' hi',
        wfIn x lo' hi' = true → inB lo' hi' k = true →
        GoodUpd x lo' hi' k v (updAux x k v)) →
      wfEntries c es lo hi = true → inB lo hi k = true →
      height c = h0 → (∀ sc ∈ es, height sc.2 = h0) →
      UpdDescendOK c es lo hi h0 k v (updDescend c es k v) := by
  intro es
  induction es with
  | nil =>
      intro c lo hi h0 IH hwf hk hh0 _
      rw [wfEntries_nil_iff] at hwf
      have hg := IH c (Or.inl rfl) lo hi hwf.1 hk
      rw [updDescend]
      cases hW : updAux c k v with
      | none =>
          rw [hW] at hg
          show lookupA (liveList c ++ liveListL []) k = none
          simp only [liveListL_nil_eq, List.append_nil]
          exact hg
      | some c' =>
          rw [hW] at hg
          obtain ⟨hp, hw', hn', hht', hl'⟩ := hg
          refine ⟨?_, by rw [wfEntries_nil_iff]; exact ⟨hw', hn'⟩, rfl,
            by rw [hht', hh0], by simp, ?_⟩
          · simp only [liveListL_nil_eq, List.append_nil]
            exact hp
          · simp only [liveListL_nil_eq, List.append_nil]
            exact hl'
  | cons e rest ih =>
      obtain ⟨s1, c1⟩ := e
      intro c lo hi h0 IH hwf hk hh0 hhes
      rw [wfEntries_cons_iff] at hwf
      obtain ⟨hwc, hnc, hrest⟩ := hwf
      have hh1 : height c1 = h0 := hhes (s1, c1) (by simp)
      have hhrest : ∀ sc ∈ rest, height sc.2 = h0 := fun sc hsc => hhes sc (by simp [hsc])
      rw [inB_split] at hk
      rw [updDescend]
      by_cases hs1k : s1 ≤ k
      · rw [if_pos hs1k]
        have IHrest : ∀ x, (x = c1 ∨ ∃ s, (s, x) ∈ rest) → ∀ lo' hi',
            wfIn x lo' hi' = true → inB lo' hi' k = true →
            GoodUpd x lo' hi' k v (updAux x k v) := by
          intro x hx
          refine IH x ?_
          rcases hx with h | ⟨s', h⟩
          · exact Or.inr ⟨s1, by simp [h]⟩
          · exact Or.inr ⟨s', by simp [h]⟩
        have hkd : inB (some s1) hi k = true := by
          rw [inB_split]
          exact ⟨by simpa using hs1k, hk.2⟩
        have hrec := ih c1 (some s1) hi h0 IHrest hrest hkd hh1 hhrest
        have hlt : ∀ p ∈ liveList c, p.1 < k := by
          intro p hp
          have := liveList_bounded c lo (some s1) hwc p hp
          rw [inB_split] at this
          have h1 : p.1 < s1 := by simpa using this.2
          omega
        have hlknc : lookupA (liveList c) k = none := by
          rw [lookupA_eq_none]
          intro p hp
          have := hlt p hp
          omega
        have hbase : upsertA (liveList c ++ (liveList c1 ++ liveListL rest)) k v =
            liveList c ++ upsertA (liveList c1 ++ liveListL rest) k v :=
          upsertA_append_right _ _ k v hlt
        cases hW : updDescend c1 rest k v with
        | none =>
            rw [hW] at hrec
            show lookupA (liveList c ++ liveListL ((s1, c1) :: rest)) k = none
            rw [liveListL_cons_eq, lookupA_append, hlknc, hrec]
            rfl
        | some pr =>
            obtain ⟨c1', rest'⟩ := pr
            rw [hW] at hrec
            obtain ⟨⟨p, hp⟩, hw', hlen', hh', hhes', hl'⟩ := hrec
            refine ⟨⟨p, ?_⟩, ?_, by simp [hlen'], hh0, ?_, ?_⟩
            · rw [liveListL_cons_eq, lookupA_append, hlknc, hp]
              rfl
            · rw [wfEntries_cons_iff]
              exact ⟨hwc, hnc, hw'⟩
            · intro sc hsc
              rcases List.mem_cons.1 hsc with h | h
              · rw [h]; exact hh'
              · exact hhes' sc h
            · simp only [liveListL_cons_eq]
              rw [hbase, ← hl']
      · rw [if_neg hs1k]
        have hkc : inB lo (some s1) k = true := by
          rw [inB_split]
          exact ⟨hk.1, by simp; omega⟩
        have hg := IH c (Or.inl rfl) lo (some s1) hwc hkc
        have hgt : ∀ p ∈ liveList c1 ++ liveListL rest, k < p.1 := by
          intro p hp
          have := liveListL_bounded c1 rest (some s1) hi hrest p hp
          rw [inB_split] at this
          have h1 : s1 ≤ p.1 := by simpa using this.1
          omega
        have hlkrest : lookupA (liveList c1 ++ liveListL rest) k = none := by
          rw [lookupA_eq_none]
          intro p hp
          have := hgt p hp
          omega
        have hbase : upsertA (liveList c ++ (liveList c1 ++ liveListL rest)) k v =
            upsertA (liveList c) k v ++ (liveList c1 ++ liveListL rest) :=
          upsertA_append_left _ _ k v hgt
        cases hW : updAux c k v with
        | none =>
            rw [hW] at hg
            show lookupA (liveList c ++ liveListL ((s1, c1) :: rest)) k = none
            rw [liveListL_cons_eq, lookupA_append, hg, hlkrest]
            rfl
        | some c' =>
            rw [hW] at hg
            obtain ⟨⟨p, hp⟩, hw', hn', hht', hl'⟩ := hg
            refine ⟨⟨p, ?_⟩, ?_, rfl, by rw [hht', hh0], ?_, ?_⟩
            · rw [liveListL_cons_eq, lookupA_append, hp]
              rfl
            · rw [wfEntries_cons_iff]
              exact ⟨hw', hn', hrest⟩
            · intro sc hsc
              rcases List.mem_cons.1 hsc with h | h
              · rw [h]; exact hh1
              · exact hhrest sc h
            · simp only [liveListL_cons_eq]
              rw [hbase, hl']

theorem updAux_ok :
    ∀ t (lo hi : Option Nat) (k v : Nat), wfIn t lo hi = true → inB lo hi k = true →
      GoodUpd t lo hi k v (updAux t k v) := by
  intro t
  induction t using Node.induct with
  | hleaf v0 rs =>
      intro lo hi k v hwf hk
      exact updLeaf_ok v0 rs k v lo hi hwf hk
  | hinner c0 es ih0 ihes =>
      intro lo hi k v hwf hk
      rw [wfIn_inner_iff] at hwf
      obtain ⟨hent, hcap, hh⟩ := hwf
      have hdesc := updDescend_ok k v es c0 lo hi (height c0)
        (fun x hx => by
          rcases hx with h | ⟨s, h⟩
          · subst h; exact fun lo' hi' => ih0 lo' hi' k v
          · exact fun lo' hi' => ihes s x h lo' hi' k v)
        hent hk rfl (fun sc hsc => hh sc hsc)
      rw [updAux]
      cases hW : updDescend c0 es k v with
      | none =>
          rw [hW] at hdesc
          show lookupA (liveList (.inner c0 es)) k = none
          rw [liveList_inner_eq]
          exact hdesc
      | some pr =>
          obtain ⟨c0', es'⟩ := pr
          rw [hW] at hdesc
          obtain ⟨⟨p, hp⟩, hw', hlen', hh0', hhes', hl'⟩ := hdesc
          refine ⟨⟨p, by rw [liveList_inner_eq]; exact hp⟩, ?_, by simp [slotCount], ?_, ?_⟩
          · rw [wfIn_inner_iff]
            exact ⟨hw', by rw [hlen']; exact hcap,
              fun sc hsc => by rw [hhes' sc hsc, hh0']⟩
          · show height c0' + 1 = height c0 + 1
            rw [hh0']
          · rw [liveList_inner_eq, liveList_inner_eq, hl']

/-- `Update`'s full contract: `kKeyNotExist` and no change when the key has
no live binding, otherwise `kSuccess` with the payload overwritten in
place. -/
theorem updateT_ok (t : Node) (k v : Nat) (h : wf t = true) :
    (lookupA (liveList t) k = none → updateT t k v = (kKeyNotExist, t)) ∧
    (∀ p, lookupA (liveList t) k = some p →
      (updateT t k v).1 = kSuccess ∧ wf (updateT t k v).2 = true ∧
      liveList (updateT t k v).2 = upsertA (liveList t) k v) := by
  have hg := updAux_ok t none none k v h rfl
  rw [updateT]
  cases hW : updAux t k v with
  | none =>
      rw [hW] at hg
      refine ⟨fun _ => rfl, fun p hp => ?_⟩
      rw [hg] at hp
      cases hp
  | some t' =>
      rw [hW] at hg
      obtain ⟨⟨p0, hp0⟩, hw', _, _, hl'⟩ := hg
      refine ⟨fun hn => ?_, fun p hp => ⟨rfl, hw', hl'⟩⟩
      rw [hp0] at hn
      cases hn

/-! ## Delete preservation -/

theorem eraseA_cons (p : Nat × Nat) (l : List (Nat × Nat)) (k : Nat) :
    eraseA (p :: l) k = if p.1 = k then eraseA l k else p :: eraseA l k := by
  by_cases h : p.1 = k <;> simp [eraseA, List.filter_cons, h]

/-- Delete-marking every slot keyed `k` erases its binding from the live
pairs. -/
theorem livePairs_mark (rs : List Record) (k : Nat) :
    livePairs (rs.map fun r' =>
      if r'.key == k then ⟨r'.key, r'.payload, true⟩ else r') =
      eraseA (livePairs rs) k := by
  induction rs with
  | nil => rfl
  | cons r rest ih =>
      rw [List.map_cons]
      by_cases hk : r.key = k
      · rw [if_pos (by simpa using hk)]
        by_cases hd : r.isDeleted
        · have h1 : livePairs (r :: rest) = livePairs rest := by
            simp [livePairs, List.filterMap_cons, hd]
          have h2 : ∀ rs', livePairs (⟨r.key, r.payload, true⟩ :: rs') = livePairs rs' := by
            intro rs'; simp [livePairs, List.filterMap_cons]
          rw [h2, h1, ih]
        · have h1 : livePairs (r :: rest) = (r.key, r.payload) :: livePairs rest := by
            simp [livePairs, List.filterMap_cons, hd]
          have h2 : ∀ rs', livePairs (⟨r.key, r.payload, true⟩ :: rs') = livePairs rs' := by
            intro rs'; simp [livePairs, List.filterMap_cons]
          rw [h2, h1, ih, eraseA_cons, if_pos hk]
      · rw [if_neg (by simpa using hk)]
        by_cases hd : r.isDeleted
        · have h1 : ∀ rs', livePairs (r :: rs') = livePairs rs' := by
            intro rs'; simp [livePairs, List.filterMap_cons, hd]
          rw [h1, h1, ih]
        · have h1 : ∀ rs', livePairs (r :: rs') = (r.key, r.payload) :: livePairs rs' := by
            intro rs'; simp [livePairs, List.filterMap_cons, hd]
          rw [h1, h1, ih, eraseA_cons, if_neg hk]

theorem mark_keys_eq (rs : List Record) (k : Nat) :
    ((rs.map fun r' => if r'.key == k then ⟨r'.key, r'.payload, true⟩ else r').map
      (·.key)) = rs.map (·.key) := by
  rw [List.map_map]
  apply List.map_congr_left
  intro r _
  by_cases h : r.key = k
  · simp [h]
  · simp [h]

/-- The contract of `Delete`'s recursive core on a subtree with key range
`[lo, hi)`: `notFound` exactly when the key has no live binding; otherwise
the subtree with the record delete-marked, `needMerge` flagging that its
live occupancy fell below the merge threshold. -/
def GoodDel (t : Node) (lo hi : Option Nat) (k : Nat) : DelRes → Prop
  | .notFound => lookupA (liveList t) k = none
  | .ok t' => (∃ p, lookupA (liveList t) k = some p) ∧ wfIn t' lo hi = true ∧
      1 ≤ slotCount t' ∧ height t' = height t ∧ liveList t' = eraseA (liveList t) k
  | .needMerge t' => (∃ p, lookupA (liveList t) k = some p) ∧ wfIn t' lo hi = true ∧
      1 ≤ slotCount t' ∧ height t' = height t ∧ liveList t' = eraseA (liveList t) k

theorem deleteLeaf_ok (ver : Nat) (rs : List Record) (k : Nat) (lo hi : Option Nat)
    (hwf : wfIn (.leaf ver rs) lo hi = true) :
    GoodDel (.leaf ver rs) lo hi k (deleteLeaf ver rs k) := by
  rw [wfIn_leaf_iff] at hwf
  obtain ⟨hs, hb, hcap⟩ := hwf
  have hsort : sortedRecs rs = true := (sortedRecs_iff rs).2 hs
  have hlrd : lookupA (livePairs rs) k = leafRead rs k := by
    rw [livePairs]
    exact (leafRead_eq_lookupA rs k hsort).symm
  rw [deleteLeaf]
  cases hfind : rs.find? (fun r => r.key == k) with
  | some r =>
      have hrmem : r ∈ rs := List.mem_of_find?_eq_some hfind
      simp only []
      by_cases hd : r.isDeleted
      · rw [if_pos hd]
        show lookupA (liveList (.leaf ver rs)) k = none
        rw [liveList_leaf_eq, hlrd]
        simp only [leafRead, hfind, hd, if_true]
      · rw [if_neg hd]
        have hcore : (∃ p, lookupA (liveList (.leaf ver rs)) k = some p) ∧
            wfIn (.leaf (ver + 1) (rs.map fun r' =>
              if r'.key == k then ⟨r'.key, r'.payload, true⟩ else r')) lo hi = true ∧
            1 ≤ slotCount (.leaf (ver + 1) (rs.map fun r' =>
              if r'.key == k then ⟨r'.key, r'.payload, true⟩ else r')) ∧
            height (.leaf (ver + 1) (rs.map fun r' =>
              if r'.key == k then ⟨r'.key, r'.payload, true⟩ else r')) =
              height (.leaf ver rs) ∧
            liveList (.leaf (ver + 1) (rs.map fun r' =>
              if r'.key == k then ⟨r'.key, r'.payload, true⟩ else r')) =
              eraseA (liveList (.leaf ver rs)) k := by
          refine ⟨⟨r.payload, ?_⟩, ?_, ?_, rfl, ?_⟩
          · rw [liveList_leaf_eq, hlrd]
            simp only [leafRead, hfind, hd, Bool.false_eq_true, if_false]
          · rw [wfIn_leaf_iff]
            refine ⟨?_, ?_, by simpa using hcap⟩
            · rw [pairwise_key_iff, mark_keys_eq, ← pairwise_key_iff]
              exact hs
            · intro r' hr'
              obtain ⟨r0, hr0, hfr⟩ := List.mem_map.1 hr'
              have hkey : r'.key = r0.key := by
                rw [← hfr]
                by_cases h : r0.key = k
                · simp [h]
                · simp [h]
              rw [hkey]
              exact hb r0 hr0
          · simp only [slotCount, List.length_map]
            exact List.length_pos_of_mem hrmem
          · rw [liveList_leaf_eq, liveList_leaf_eq]
            exact livePairs_mark rs k
        by_cases hm : (liveRecs (rs.map fun r' =>
            if r'.key == k then ⟨r'.key, r'.payload, true⟩ else r')).length <
            kMergeThreshold
        · rw [if_pos hm]
          exact hcore
        · rw [if_neg hm]
          exact hcore
  | none =>
      have habs : ∀ r ∈ rs, r.key ≠ k := by
        intro r hr h
        have := List.find?_eq_none.1 hfind r hr
        simp [h] at this
      show lookupA (liveList (.leaf ver rs)) k = none
      rw [liveList_leaf_eq]
      exact lookupA_livePairs_absent rs k habs

/-- The key range of the head node of a routing-level suffix: up to the
next separator, or the level's upper bound for the last node. -/
def headHi (rest : List (Nat × Node)) (hi : Option Nat) : Option Nat :=
  match rest with
  | [] => hi
  | (s2, _) :: _ => some s2

theorem wfEntries_head (c : Node) (rest : List (Nat × Node)) (lo hi : Option Nat)
    (h : wfEntries c rest lo hi = true) :
    wfIn c lo (headHi rest hi) = true ∧ 1 ≤ slotCount c := by
  cases rest with
  | nil =>
      rw [wfEntries_nil_iff] at h
      exact ⟨h.1, h.2⟩
  | cons e r2 =>
      obtain ⟨s2, c2⟩ := e
      rw [wfEntries_cons_iff] at h
      exact ⟨h.1, h.2.1⟩

theorem wfEntries_replace_head (c m : Node) (rest : List (Nat × Node))
    (lo lo' hi : Option Nat) (h : wfEntries c rest lo hi = true)
    (hm : wfIn m lo' (headHi rest hi) = true) (hn : 1 ≤ slotCount m) :
    wfEntries m rest lo' hi = true := by
  cases rest with
  | nil =>
      rw [wfEntries_nil_iff]
      exact ⟨hm, hn⟩
  | cons e r2 =>
      obtain ⟨s2, c2⟩ := e
      rw [wfEntries_cons_iff] at h ⊢
      exact ⟨hm, hn, h.2.2⟩

theorem liveListL_append (l1 l2 : List (Nat × Node)) :
    liveListL (l1 ++ l2) = liveListL l1 ++ liveListL l2 := by
  induction l1 with
  | nil => rw [List.nil_append, liveListL_nil_eq, List.nil_append]
  | cons e r ih =>
      obtain ⟨s, c⟩ := e
      rw [List.cons_append, liveListL_cons_eq, liveListL_cons_eq, ih, List.append_assoc]

/-- `Merge` of two adjacent siblings under separator `sep` yields one
well-formed node over the union range carrying both live contents. -/
theorem mergeNodes_wf (l r : Node) (sep : Nat) (lo hi : Option Nat)
    (hl : wfIn l lo (some sep) = true) (hr : wfIn r (some sep) hi = true)
    (hh : height l = height r)
    (hcap : slotCount l + liveSlots r ≤ kNodeCap)
    (hnl : 1 ≤ slotCount l) (hnr : 1 ≤ slotCount r) :
    wfIn (mergeNodes l r sep) lo hi = true ∧
    height (mergeNodes l r sep) = height l ∧
    1 ≤ slotCount (mergeNodes l r sep) ∧
    liveList (mergeNodes l r sep) = liveList l ++ liveList r := by
  have hlos : loLE lo sep = true := loLE_of_wf_left l lo sep hl hnl
  cases l with
  | leaf v rs =>
      cases r with
      | leaf w rs' =>
          rw [wfIn_leaf_iff] at hl hr
          obtain ⟨hsl, hbl, hcl⟩ := hl
          obtain ⟨hsr, hbr, hcr⟩ := hr
          have hsub : (liveRecs rs').Sublist rs' := List.filter_sublist rs'
          have hsr' : (liveRecs rs').Pairwise (fun a b => a.key < b.key) := hsr.sublist hsub
          have hbr' : ∀ b ∈ liveRecs rs', inB (some sep) hi b.key = true :=
            fun b hb => hbr b (hsub.mem hb)
          have hsephi : hiGT hi sep = true := by
            obtain ⟨κ, hκ⟩ := exists_key_inB (.leaf w rs') (some sep) hi
              (by rw [wfIn_leaf_iff]; exact ⟨hsr, hbr, hcr⟩) hnr
            rw [inB_split] at hκ
            cases hi with
            | none => rfl
            | some h =>
                simp only [loLE_some, hiGT_some, decide_eq_true_eq] at hκ ⊢
                omega
          rw [show mergeNodes (.leaf v rs) (.leaf w rs') sep =
            (.leaf (v + 1) (rs ++ liveRecs rs')) from rfl]
          refine ⟨?_, rfl, ?_, ?_⟩
          · rw [wfIn_leaf_iff]
            refine ⟨?_, ?_, ?_⟩
            · rw [List.pairwise_append]
              refine ⟨hsl, hsr', ?_⟩
              intro a ha b hb
              have h1 := hbl a ha
              have h2 := hbr' b hb
              rw [inB_split] at h1 h2
              have h3 : a.key < sep := by simpa using h1.2
              have h4 : sep ≤ b.key := by simpa using h2.1
              omega
            · intro x hx
              rcases List.mem_append.1 hx with h | h
              · have h1 := hbl x h
                rw [inB_split] at h1 ⊢
                refine ⟨h1.1, ?_⟩
                have h3 : x.key < sep := by simpa using h1.2
                cases hi with
                | none => rfl
                | some hv =>
                    simp only [hiGT_some, decide_eq_true_eq] at hsephi ⊢
                    omega
              · have h1 := hbr' x h
                rw [inB_split] at h1 ⊢
                refine ⟨?_, h1.2⟩
                have h3 : sep ≤ x.key := by simpa using h1.1
                exact loLE_trans lo sep x.key hlos h3
            · rw [List.length_append]
              simp only [slotCount, liveSlots] at hcap
              exact hcap
          · simp only [slotCount, List.length_append]
            simp only [slotCount] at hnl
            omega
          · rw [liveList_leaf_eq, liveList_leaf_eq, liveList_leaf_eq, livePairs,
              List.filterMap_append]
            have : livePairs (liveRecs rs') = livePairs rs' := livePairs_liveRecs rs'
            rw [livePairs] at this
            rw [this]
            rfl
      | inner c0' es' => simp [height] at hh
  | inner c0 es =>
      cases r with
      | leaf w rs' => simp [height] at hh
      | inner c0' es' =>
          rw [wfIn_inner_iff] at hl hr
          obtain ⟨hel, hcl, hhl⟩ := hl
          obtain ⟨her, hcr, hhr⟩ := hr
          simp only [height] at hh
          have hh0 : height c0 = height c0' := by omega
          rw [show mergeNodes (.inner c0 es) (.inner c0' es') sep =
            (.inner c0 (es ++ (sep, c0') :: es')) from rfl]
          refine ⟨?_, by simp [height], by simp [slotCount], ?_⟩
          · rw [wfIn_inner_iff]
            refine ⟨?_, ?_, ?_⟩
            · rw [wfEntries_append]
              simp only [Bool.and_eq_true]
              exact ⟨hel, her⟩
            · simp only [slotCount, liveSlots] at hcap
              simp only [List.length_append, List.length_cons, kNodeCap] at hcap ⊢
              omega
            · intro sc hsc
              rcases List.mem_append.1 hsc with h | h
              · exact hhl sc h
              · rcases List.mem_cons.1 h with h' | h'
                · rw [h']
                  show height c0' = height c0
                  omega
                · rw [hhr sc h', hh0]
          · rw [liveList_inner_eq, liveList_inner_eq, liveList_inner_eq,
              liveListL_append, liveListL_cons_eq, List.append_assoc]

/-- The contract of `delDescend` on one inner node's routing level:
`merged` rebuilds the level one routing entry shorter after `DeleteChild`
plus `Merge` of two adjacent children. -/
def DelDescendOK (c : Node) (es : List (Nat × Node)) (lo hi : Option Nat) (h0 : Nat)
    (k : Nat) : DelDescRes → Prop
  | .notFound => lookupA (liveList c ++ liveListL es) k = none
  | .done c0' es' => (∃ p, lookupA (liveList c ++ liveListL es) k = some p) ∧
      wfEntries c0' es' lo hi = true ∧ es'.length = es.length ∧
      height c0' = h0 ∧ (∀ sc ∈ es', height sc.2 = h0) ∧
      liveList c0' ++ liveListL es' = eraseA (liveList c ++ liveListL es) k
  | .merged c0' es' => (∃ p, lookupA (liveList c ++ liveListL es) k = some p) ∧
      wfEntries c0' es' lo hi = true ∧ es'.length + 1 = es.length ∧
      height c0' = h0 ∧ (∀ sc ∈ es', height sc.2 = h0) ∧
      liveList c0' ++ liveListL es' = eraseA (liveList c ++ liveListL es) k

theorem delDescend_ok (k : Nat) :
    ∀ (es : List (Nat × Node)) (c : Node) (lo hi : Option Nat) (h0 : Nat),
      (∀ x, (x = c ∨ ∃ s, (s, x) ∈ es) → ∀ lo' hi',
        wfIn x lo' hi' = true → inB lo' hi' k = true →
        GoodDel x lo' hi' k (delAux x k)) →
      wfEntries c es lo hi = true → inB lo hi k = true →
      height c = h0 → (∀ sc ∈ es, height sc.2 = h0) →
      DelDescendOK c es lo hi h0 k (delDescend c es k) := by
  intro es
  induction es with
  | nil =>
      intro c lo hi h0 IH hwf hk hh0 _
      rw [wfEntries_nil_iff] at hwf
      have hg := IH c (Or.inl rfl) lo hi hwf.1 hk
      rw [delDescend]
      cases hW : delAux c k with
      | notFound =>
          rw [hW] at hg
          show lookupA (liveList c ++ liveListL []) k = none
          simp only [liveListL_nil_eq, List.append_nil]
          exact hg
      | ok c' =>
          rw [hW] at hg
          obtain ⟨hp, hw', hn', hht', hl'⟩ := hg
          refine ⟨?_, by rw [wfEntries_nil_iff]; exact ⟨hw', hn'⟩, rfl,
            by rw [hht', hh0], by simp, ?_⟩
          · simp only [liveListL_nil_eq, List.append_nil]
            exact hp
          · simp only [liveListL_nil_eq, List.append_nil]
            exact hl'
      | needMerge c' =>
          rw [hW] at hg
          obtain ⟨hp, hw', hn', hht', hl'⟩ := hg
          refine ⟨?_, by rw [wfEntries_nil_iff]; exact ⟨hw', hn'⟩, rfl,
            by rw [hht', hh0], by simp, ?_⟩
          · simp only [liveListL_nil_eq, List.append_nil]
            exact hp
          · simp only [liveListL_nil_eq, List.append_nil]
            exact hl'
  | cons e rest ih =>
      obtain ⟨s1, c1⟩ := e
      intro c lo hi h0 IH hwf hk hh0 hhes
      rw [wfEntries_cons_iff] at hwf
      obtain ⟨hwc, hnc, hrest⟩ := hwf
      have hh1 : height c1 = h0 := hhes (s1, c1) (by simp)
      have hhrest : ∀ sc ∈ rest, height sc.2 = h0 := fun sc hsc => hhes sc (by simp [hsc])
      rw [inB_split] at hk
      rw [delDescend]
      by_cases hs1k : s1 ≤ k
      · rw [if_pos hs1k]
        have IHrest : ∀ x, (x = c1 ∨ ∃ s, (s, x) ∈ rest) → ∀ lo' hi',
            wfIn x lo' hi' = true → inB lo' hi' k = true →
            GoodDel x lo' hi' k (delAux x k) := by
          intro x hx
          refine IH x ?_
          rcases hx with h | ⟨s', h⟩
          · exact Or.inr ⟨s1, by simp [h]⟩
          · exact Or.inr ⟨s', by simp [h]⟩
        have hkd : inB (some s1) hi k = true := by
          rw [inB_split]
          exact ⟨by simpa using hs1k, hk.2⟩
        have hrec := ih c1 (some s1) hi h0 IHrest hrest hkd hh1 hhrest
        have hlt : ∀ p ∈ liveList c, p.1 < k := by
          intro p hp
          have := liveList_bounded c lo (some s1) hwc p hp
          rw [inB_split] at this
          have h1 : p.1 < s1 := by simpa using this.2
          omega
        have hlknc : lookupA (liveList c) k = none := by
          rw [lookupA_eq_none]
          intro p hp
          have := hlt p hp
          omega
        have huntouched : eraseA (liveList c) k = liveList c :=
          eraseA_of_not_mem _ k (fun p hp => by have := hlt p hp; omega)
        cases hW : delDescend c1 rest k with
        | notFound =>
            rw [hW] at hrec
            show lookupA (liveList c ++ liveListL ((s1, c1) :: rest)) k = none
            rw [liveListL_cons_eq, lookupA_append, hlknc, hrec]
            rfl
        | done c1' rest' =>
            rw [hW] at hrec
            obtain ⟨⟨p, hp⟩, hw', hlen', hh', hhes', hl'⟩ := hrec
            refine ⟨⟨p, ?_⟩, ?_, by simp [hlen'], hh0, ?_, ?_⟩
            · rw [liveListL_cons_eq, lookupA_append, hlknc, hp]
              rfl
            · rw [wfEntries_cons_iff]
              exact ⟨hwc, hnc, hw'⟩
            · intro sc hsc
              rcases List.mem_cons.1 hsc with h | h
              · rw [h]; exact hh'
              · exact hhes' sc h
            · simp only [liveListL_cons_eq]
              rw [eraseA_append, huntouched, ← hl']
        | merged c1' rest' =>
            rw [hW] at hrec
            obtain ⟨⟨p, hp⟩, hw', hlen', hh', hhes', hl'⟩ := hrec
            refine ⟨⟨p, ?_⟩, ?_, by simp only [List.length_cons]; omega, hh0, ?_, ?_⟩
            · rw [liveListL_cons_eq, lookupA_append, hlknc, hp]
              rfl
            · rw [wfEntries_cons_iff]
              exact ⟨hwc, hnc, hw'⟩
            · intro sc hsc
              rcases List.mem_cons.1 hsc with h | h
              · rw [h]; exact hh'
              · exact hhes' sc h
            · simp only [liveListL_cons_eq]
              rw [eraseA_append, huntouched, ← hl']
      · rw [if_neg hs1k]
        have hkc : inB lo (some s1) k = true := by
          rw [inB_split]
          exact ⟨hk.1, by simp; omega⟩
        have hg := IH c (Or.inl rfl) lo (some s1) hwc hkc
        have hgt : ∀ p ∈ liveList c1 ++ liveListL rest, k < p.1 := by
          intro p hp
          have := liveListL_bounded c1 rest (some s1) hi hrest p hp
          rw [inB_split] at this
          have h1 : s1 ≤ p.1 := by simpa using this.1
          omega
        have hlkrest : lookupA (liveList c1 ++ liveListL rest) k = none := by
          rw [lookupA_eq_none]
          intro p hp
          have := hgt p hp
          omega
        have heraser : eraseA (liveList c1 ++ liveListL rest) k =
            liveList c1 ++ liveListL rest :=
          eraseA_of_not_mem _ k (fun p hp => by have := hgt p hp; omega)
        cases hW : delAux c k with
        | notFound =>
            rw [hW] at hg
            show lookupA (liveList c ++ liveListL ((s1, c1) :: rest)) k = none
            rw [liveListL_cons_eq, lookupA_append, hg, hlkrest]
            rfl
        | ok c' =>
            rw [hW] at hg
            obtain ⟨⟨p, hp⟩, hw', hn', hht', hl'⟩ := hg
            refine ⟨⟨p, ?_⟩, ?_, rfl, by rw [hht', hh0], ?_, ?_⟩
            · rw [liveListL_cons_eq, lookupA_append, hp]
              rfl
            · rw [wfEntries_cons_iff]
              exact ⟨hw', hn', hrest⟩
            · intro sc hsc
              rcases List.mem_cons.1 hsc with h | h
              · rw [h]; exact hh1
              · exact hhrest sc h
            · simp only [liveListL_cons_eq]
              rw [eraseA_append, heraser, hl']
        | needMerge c' =>
            rw [hW] at hg
            obtain ⟨⟨p, hp⟩, hw', hn', hht', hl'⟩ := hg
            simp only []
            have hhead := wfEntries_head c1 rest (some s1) hi hrest
            by_cases hm : slotCount c' + liveSlots c1 ≤ kNodeCap
            · rw [if_pos hm]
              have hmrg := mergeNodes_wf c' c1 s1 lo (headHi rest hi) hw' hhead.1
                (by rw [hht', hh0, hh1]) hm hn' hhead.2
              obtain ⟨hwm, hhm, hnm, hlm⟩ := hmrg
              refine ⟨⟨p, ?_⟩, ?_, by simp, ?_, hhrest, ?_⟩
              · rw [liveListL_cons_eq, lookupA_append, hp]
                rfl
              · exact wfEntries_replace_head c1 (mergeNodes c' c1 s1) rest
                  (some s1) lo hi hrest hwm hnm
              · rw [hhm, hht', hh0]
              · rw [hlm, hl']
                simp only [liveListL_cons_eq]
                rw [eraseA_append, eraseA_append] at *
                rw [eraseA_of_not_mem (liveList c1) k
                  (fun p hp => by
                    have := hgt p (List.mem_append_left _ hp); omega),
                  eraseA_of_not_mem (liveListL rest) k
                  (fun p hp => by
                    have := hgt p (List.mem_append_right _ hp); omega),
                  List.append_assoc]
            · rw [if_neg hm]
              refine ⟨⟨p, ?_⟩, ?_, rfl, by rw [hht', hh0], ?_, ?_⟩
              · rw [liveListL_cons_eq, lookupA_append, hp]
                rfl
              · rw [wfEntries_cons_iff]
                exact ⟨hw', hn', hrest⟩
              · intro sc hsc
                rcases List.mem_cons.1 hsc with h | h
                · rw [h]; exact hh1
                · exact hhrest sc h
              · simp only [liveListL_cons_eq]
                rw [eraseA_append, heraser, hl']

theorem delAux_ok :
    ∀ t (lo hi : Option Nat) (k : Nat), wfIn t lo hi = true → inB lo hi k = true →
      GoodDel t lo hi k (delAux t k) := by
  intro t
  induction t using Node.induct with
  | hleaf v0 rs =>
      intro lo hi k hwf _
      rw [delAux]
      exact deleteLeaf_ok v0 rs k lo hi hwf
  | hinner c0 es ih0 ihes =>
      intro lo hi k hwf hk
      rw [wfIn_inner_iff] at hwf
      obtain ⟨hent, hcap, hh⟩ := hwf
      have hdesc := delDescend_ok k es c0 lo hi (height c0)
        (fun x hx => by
          rcases hx with h | ⟨s, h⟩
          · subst h; exact fun lo' hi' => ih0 lo' hi' k
          · exact fun lo' hi' => ihes s x h lo' hi' k)
        hent hk rfl (fun sc hsc => hh sc hsc)
      rw [delAux]
      cases hW : delDescend c0 es k with
      | notFound =>
          rw [hW] at hdesc
          show lookupA (liveList (.inner c0 es)) k = none
          rw [liveList_inner_eq]
          exact hdesc
      | done c0' es' =>
          rw [hW] at hdesc
          obtain ⟨⟨p, hp⟩, hw', hlen', hh0', hhes', hl'⟩ := hdesc
          refine ⟨⟨p, by rw [liveList_inner_eq]; exact hp⟩, ?_, by simp [slotCount],
            ?_, ?_⟩
          · rw [wfIn_inner_iff]
            exact ⟨hw', by rw [hlen']; exact hcap,
              fun sc hsc => by rw [hhes' sc hsc, hh0']⟩
          · show height c0' + 1 = height c0 + 1
            rw [hh0']
          · rw [liveList_inner_eq, liveList_inner_eq, hl']
      | merged c0' es' =>
          rw [hW] at hdesc
          obtain ⟨⟨p, hp⟩, hw', hlen', hh0', hhes', hl'⟩ := hdesc
          simp only []
          have hcore : (∃ p, lookupA (liveList (.inner c0 es)) k = some p) ∧
              wfIn (.inner c0' es') lo hi = true ∧
              1 ≤ slotCount (.inner c0' es') ∧
              height (.inner c0' es') = height (.inner c0 es) ∧
              liveList (.inner c0' es') = eraseA (liveList (.inner c0 es)) k := by
            refine ⟨⟨p, by rw [liveList_inner_eq]; exact hp⟩, ?_, by simp [slotCount],
              ?_, ?_⟩
            · rw [wfIn_inner_iff]
              refine ⟨hw', ?_, fun sc hsc => by rw [hhes' sc hsc, hh0']⟩
              simp only [kNodeCap] at hcap ⊢
              omega
            · show height c0' + 1 = height c0 + 1
              rw [hh0']
            · rw [liveList_inner_eq, liveList_inner_eq, hl']
          by_cases hth : 1 + es'.length < kMergeThreshold
          · rw [if_pos hth]
            exact hcore
          · rw [if_neg hth]
            exact hcore

/-- The `TryShrinkTree` loop preserves well-formedness and the live
contents: each round replaces a single-child inner root by its child. -/
theorem shrinkLoop_ok :
    ∀ t, wf t = true → wf (shrinkLoop t) = true ∧ liveList (shrinkLoop t) = liveList t := by
  intro t
  induction t using Node.induct with
  | hleaf v rs =>
      intro h
      rw [shrinkLoop]
      · exact ⟨h, rfl⟩
      · intro c0' hc
        cases hc
  | hinner c0 es ih0 ihes =>
      intro h
      cases es with
      | nil =>
          rw [shrinkLoop]
          rw [wf, wfIn_inner_iff, wfEntries_nil_iff] at h
          have hc0 : wf c0 = true := h.1.1
          obtain ⟨hw, hl⟩ := ih0 hc0
          refine ⟨hw, ?_⟩
          rw [hl, liveList_inner_eq, liveListL_nil_eq, List.append_nil]
      | cons e rest =>
          rw [shrinkLoop]
          · exact ⟨h, rfl⟩
          · intro c0' hc
            injection hc with h1 h2
            cases h2

/-- `Delete`'s full contract: `kKeyNotExist` and no change when the key has
no live binding; otherwise `kSuccess`, with the binding erased and merge
completion / root shrink preserving well-formedness. -/
theorem deleteT_ok (t : Node) (k : Nat) (h : wf t = true) :
    (lookupA (liveList t) k = none → deleteT t k = (kKeyNotExist, t)) ∧
    (∀ p, lookupA (liveList t) k = some p →
      (deleteT t k).1 = kSuccess ∧ wf (deleteT t k).2 = true ∧
      liveList (deleteT t k).2 = eraseA (liveList t) k) := by
  have hg := delAux_ok t none none k h rfl
  rw [deleteT]
  cases hW : delAux t k with
  | notFound =>
      rw [hW] at hg
      refine ⟨fun _ => rfl, fun p hp => ?_⟩
      rw [hg] at hp
      cases hp
  | ok t' =>
      rw [hW] at hg
      obtain ⟨⟨p0, hp0⟩, hw', _, _, hl'⟩ := hg
      refine ⟨fun hn => ?_, fun p hp => ⟨rfl, hw', hl'⟩⟩
      rw [hp0] at hn
      cases hn
  | needMerge t' =>
      rw [hW] at hg
      obtain ⟨⟨p0, hp0⟩, hw', hn', _, hl'⟩ := hg
      refine ⟨fun hn => ?_, fun p hp => ?_⟩
      · rw [hp0] at hn
        cases hn
      · cases t' with
        | leaf v rs => exact ⟨rfl, hw', hl'⟩
        | inner c0 es =>
            cases es with
            | nil =>
                rw [wfIn_inner_iff, wfEntries_nil_iff] at hw'
                obtain ⟨hsl, hll⟩ := shrinkLoop_ok c0 hw'.1.1
                refine ⟨rfl, hsl, ?_⟩
                rw [hll, ← hl', liveList_inner_eq, liveListL_nil_eq, List.append_nil]
            | cons e rest => exact ⟨rfl, hw', hl'⟩

theorem upsertA_idem (l : List (Nat × Nat)) (k v : Nat) :
    upsertA (upsertA l k v) k v = upsertA l k v := by
  induction l with
  | nil =>
      show upsertA [(k, v)] k v = [(k, v)]
      rw [upsertA, if_neg (by omega), if_pos rfl]
  | cons p rest ih =>
      obtain ⟨k', v'⟩ := p
      by_cases h1 : k < k'
      · rw [upsertA, if_pos h1, upsertA, if_neg (by omega), if_pos rfl]
      · by_cases h2 : k = k'
        · rw [upsertA, if_neg h1, if_pos h2, upsertA, if_neg (by omega), if_pos rfl]
        · rw [upsertA, if_neg h1, if_neg h2, upsertA, if_neg h1, if_neg h2, ih]

/-! ## The claims -/

/-- C1: round-trip at the public interface: in the quiescent tree, `Write`
followed by `Read` of the same key returns the written payload, and
`Delete` followed by `Read` reports the key absent. -/
theorem C1_round_trip (t : Node) (k v : Nat) (h : wf t = true) :
    readT (writeT t k v).2 k = some v ∧ readT (deleteT t k).2 k = none := by
  obtain ⟨hw, hl⟩ := writeT_ok t k v h
  refine ⟨?_, ?_⟩
  · rw [readT_lookup _ k hw, hl, lookupA_upsert_self]
  · obtain ⟨hnone, hsome⟩ := deleteT_ok t k h
    cases hlk : lookupA (liveList t) k with
    | none =>
        rw [hnone hlk]
        rw [readT_lookup t k h]
        exact hlk
    | some p =>
        obtain ⟨_, hw2, hl2⟩ := hsome p hlk
        rw [readT_lookup _ k hw2, hl2, lookupA_erase_self]

theorem C1_round_trip_witness :
    wf emptyTree = true ∧
      (readT (writeT emptyTree 1 2).2 1 = some 2 ∧
        readT (deleteT emptyTree 1).2 1 = none) :=
  ⟨by rw [wf, emptyTree, wfIn]; decide,
    C1_round_trip emptyTree 1 2 (by rw [wf, emptyTree, wfIn]; decide)⟩

/-- C2: `Write` is a blind upsert that always returns `kSuccess`: the key's
binding is overwritten if present and inserted otherwise (splitting
internally), other keys are untouched. -/
theorem C2_write_upsert (t : Node) (k v : Nat) (h : wf t = true) :
    (writeT t k v).1 = kSuccess ∧ wf (writeT t k v).2 = true ∧
    liveList (writeT t k v).2 = upsertA (liveList t) k v ∧
    readT (writeT t k v).2 k = some v ∧
    (∀ k', k' ≠ k → readT (writeT t k v).2 k' = readT t k') := by
  obtain ⟨hw, hl⟩ := writeT_ok t k v h
  refine ⟨writeT_rc t k v, hw, hl, ?_, ?_⟩
  · rw [readT_lookup _ k hw, hl, lookupA_upsert_self]
  · intro k' hk'
    rw [readT_lookup _ k' hw, hl, lookupA_upsert_ne _ _ _ _ hk', readT_lookup t k' h]

theorem C2_write_upsert_witness :
    wf emptyTree = true ∧
      ((writeT emptyTree 1 2).1 = kSuccess ∧ wf (writeT emptyTree 1 2).2 = true ∧
      liveList (writeT emptyTree 1 2).2 = upsertA (liveList emptyTree) 1 2 ∧
      readT (writeT emptyTree 1 2).2 1 = some 2 ∧
      (∀ k', k' ≠ 1 → readT (writeT emptyTree 1 2).2 k' = readT emptyTree k')) :=
  ⟨by rw [wf, emptyTree, wfIn]; decide,
    C2_write_upsert emptyTree 1 2 (by rw [wf, emptyTree, wfIn]; decide)⟩

/-- C3: `Insert` of a live key is a no-op on the tree and returns
`kKeyExist` with the existing payload in `out_payload` and the current
version of its leaf; `Insert` of an absent key returns `kSuccess`, no
out-payload, and the version of the leaf that now holds the key. -/
theorem C3_insert (t : Node) (k v : Nat) (h : wf t = true) :
    (∀ p, readT t k = some p →
      insertT t k v = (kKeyExist, some p, (searchLeaf t k).1, t)) ∧
    (readT t k = none →
      (insertT t k v).1 = kSuccess ∧ (insertT t k v).2.1 = none ∧
      (insertT t k v).2.2.1 = (searchLeaf (insertT t k v).2.2.2 k).1 ∧
      readT (insertT t k v).2.2.2 k = some v) := by
  obtain ⟨hdup, habs⟩ := insertT_ok t k v h
  rw [readT_lookup t k h]
  refine ⟨hdup, ?_⟩
  intro hn
  obtain ⟨hrc, hout, hwf, hlive, hver⟩ := habs hn
  exact ⟨hrc, hout, hver, by rw [readT_lookup _ k hwf, hlive, lookupA_upsert_self]⟩

theorem C3_insert_witness :
    wf (Node.leaf 1 [⟨5, 7, false⟩]) = true ∧
      ((∀ p, readT (Node.leaf 1 [⟨5, 7, false⟩]) 5 = some p →
        insertT (Node.leaf 1 [⟨5, 7, false⟩]) 5 9 =
          (kKeyExist, some p, (searchLeaf (Node.leaf 1 [⟨5, 7, false⟩]) 5).1,
            Node.leaf 1 [⟨5, 7, false⟩])) ∧
      (readT (Node.leaf 1 [⟨5, 7, false⟩]) 5 = none →
        (insertT (Node.leaf 1 [⟨5, 7, false⟩]) 5 9).1 = kSuccess ∧
        (insertT (Node.leaf 1 [⟨5, 7, false⟩]) 5 9).2.1 = none ∧
        (insertT (Node.leaf 1 [⟨5, 7, false⟩]) 5 9).2.2.1 =
          (searchLeaf (insertT (Node.leaf 1 [⟨5, 7, false⟩]) 5 9).2.2.2 5).1 ∧
        readT (insertT (Node.leaf 1 [⟨5, 7, false⟩]) 5 9).2.2.2 5 = some 9)) :=
  ⟨by rw [wf, wfIn]; decide,
    C3_insert (Node.leaf 1 [⟨5, 7, false⟩]) 5 9 (by rw [wf, wfIn]; decide)⟩

/-- C4: idempotence: for a key present in the tree, `Delete` twice returns
`kSuccess` then `kKeyNotExist` (the second call changing nothing), and
`Update` is idempotent in value: a second identical `Update` returns
`kSuccess` again and leaves the same live key→payload state (the value
state; each call advances the modified leaf's version counter, which the
spec's "in value" scopes out). -/
theorem C4_idempotence (t : Node) (k v p : Nat) (h : wf t = true)
    (hp : readT t k = some p) :
    (deleteT t k).1 = kSuccess ∧
    deleteT (deleteT t k).2 k = (kKeyNotExist, (deleteT t k).2) ∧
    (updateT t k v).1 = kSuccess ∧
    (updateT (updateT t k v).2 k v).1 = kSuccess ∧
    liveList (updateT (updateT t k v).2 k v).2 = liveList (updateT t k v).2 := by
  rw [readT_lookup t k h] at hp
  obtain ⟨hrc1, hw1, hl1⟩ := (deleteT_ok t k h).2 p hp
  obtain ⟨hrcu, hwu, hlu⟩ := (updateT_ok t k v h).2 p hp
  refine ⟨hrc1, ?_, hrcu, ?_, ?_⟩
  · refine (deleteT_ok (deleteT t k).2 k hw1).1 ?_
    rw [hl1, lookupA_erase_self]
  · refine ((updateT_ok (updateT t k v).2 k v hwu).2 v ?_).1
    rw [hlu, lookupA_upsert_self]
  · have h2 := ((updateT_ok (updateT t k v).2 k v hwu).2 v
      (by rw [hlu, lookupA_upsert_self])).2.2
    rw [h2, hlu, upsertA_idem]

theorem C4_idempotence_witness :
    (wf (Node.leaf 1 [⟨5, 7, false⟩]) = true ∧
      readT (Node.leaf 1 [⟨5, 7, false⟩]) 5 = some 7) ∧
    ((deleteT (Node.leaf 1 [⟨5, 7, false⟩]) 5).1 = kSuccess ∧
    deleteT (deleteT (Node.leaf 1 [⟨5, 7, false⟩]) 5).2 5 =
      (kKeyNotExist, (deleteT (Node.leaf 1 [⟨5, 7, false⟩]) 5).2) ∧
    (updateT (Node.leaf 1 [⟨5, 7, false⟩]) 5 9).1 = kSuccess ∧
    (updateT (updateT (Node.leaf 1 [⟨5, 7, false⟩]) 5 9).2 5 9).1 = kSuccess ∧
    liveList (updateT (updateT (Node.leaf 1 [⟨5, 7, false⟩]) 5 9).2 5 9).2 =
      liveList (updateT (Node.leaf 1 [⟨5, 7, false⟩]) 5 9).2) :=
  ⟨⟨by rw [wf, wfIn]; decide, by rw [readT, searchLeaf]; decide⟩,
    C4_idempotence (Node.leaf 1 [⟨5, 7, false⟩]) 5 9 7 (by rw [wf, wfIn]; decide)
      (by rw [readT, searchLeaf]; decide)⟩

/-- C7: every public operation returns only the public codes: `Write` and
`Bulkload` always `kSuccess`, `Insert` `kSuccess` or `kKeyExist` (the
key-present report), `Update` and `Delete` `kSuccess` or `kKeyNotExist`
(the key-absent report); the internal `NodeRC` signals (`kNeedSplit`,
`kNeedMerge`, `kNeedRetry`, `kAbortMerge`, `kCompleted`) are consumed by
split completion, merge completion and the retry loops on every path. -/
theorem C7_public_codes (t : Node) (k v : Nat) (entries : List (Nat × Nat)) (tn : Nat) :
    (writeT t k v).1 = kSuccess ∧
    ((insertT t k v).1 = kSuccess ∨ (insertT t k v).1 = kKeyExist) ∧
    ((updateT t k v).1 = kSuccess ∨ (updateT t k v).1 = kKeyNotExist) ∧
    ((deleteT t k).1 = kSuccess ∨ (deleteT t k).1 = kKeyNotExist) ∧
    (bulkloadT t entries tn).1 = kSuccess := by
  refine ⟨writeT_rc t k v, insertT_rc t k v, ?_, ?_, ?_⟩
  · rw [updateT]
    cases updAux t k v with
    | none => exact Or.inr rfl
    | some t' => exact Or.inl rfl
  · rw [deleteT]
    cases delAux t k with
    | notFound => exact Or.inr rfl
    | ok t' => exact Or.inl rfl
    | needMerge t' =>
        cases t' with
        | leaf ver rs => exact Or.inl rfl
        | inner c0 es =>
            cases es with
            | nil => exact Or.inl rfl
            | cons e rest => exact Or.inl rfl
  · rw [bulkloadT]
    by_cases he : entries.isEmpty
    · rw [if_pos he]
    · rw [if_neg he]
      simp only []
      cases hr : bulkRootLoop (if tn ≤ 1 ∨ entries.length < tn then
          (bulkSingle entries).2 else bulkMulti entries tn) with
      | nil => rfl
      | cons e rest =>
          obtain ⟨s, root⟩ := e
          rfl

/-- C9: root publication.  Functionally as claimed: `TryRootSplit`
compare-and-publishes a new root over the two split halves only if the
root still equals the split-left child (losers re-descend), and
`TryShrinkTree` publishes the sole remaining child, repeating while the
candidate is an inner node with a single record.  The orderings differ
from the claim: only the descent reads of `root_` are acquire and only
`TryRootSplit`'s store is release; `TryRootSplit`'s and `TryShrinkTree`'s
own loads, and `TryShrinkTree`'s store, are relaxed. -/
theorem C9_root_publication :
    (∀ cur l sep r, nodeEq cur l = true →
      tryRootSplit cur l sep r = some (.inner l [(sep, r)])) ∧
    (∀ cur l sep r, nodeEq cur l = false →
      tryRootSplit cur l sep r = none) ∧
    (∀ cur node, nodeEq node cur = true → slotCount node = 1 →
      tryShrinkTree cur node = shrinkLoop (removeRoot node)) ∧
    (∀ cur node, nodeEq node cur = false → tryShrinkTree cur node = cur) ∧
    descentRootLoadOrder = .acquire ∧
    tryRootSplitLoadOrder = .relaxed ∧ tryRootSplitStoreOrder = .release ∧
    tryShrinkTreeLoadOrder = .relaxed ∧ tryShrinkTreeStoreOrder = .relaxed := by
  refine ⟨?_, ?_, ?_, ?_, rfl, rfl, rfl, rfl, rfl⟩
  · intro cur l sep r hEq
    rw [tryRootSplit, if_pos hEq]
  · intro cur l sep r hEq
    rw [tryRootSplit, if_neg (by rw [hEq]; exact Bool.false_ne_true)]
  · intro cur node hEq hOne
    rw [tryShrinkTree, if_pos (by rw [hEq, hOne]; simp)]
  · intro cur node hEq
    rw [tryShrinkTree, if_neg (by rw [hEq]; simp)]

theorem C9_counterexample :
    tryShrinkTreeStoreOrder ≠ MemOrder.release ∧
    tryShrinkTreeLoadOrder ≠ MemOrder.acquire ∧
    tryRootSplitLoadOrder ≠ MemOrder.acquire :=
  ⟨fun h => MemOrder.noConfusion h, fun h => MemOrder.noConfusion h,
    fun h => MemOrder.noConfusion h⟩

/-- C10: `Bulkload` of an empty entry vector returns `kSuccess` at once
and leaves the tree exactly as it was: the early return precedes any node
construction or `root_` assignment. -/
theorem C10_bulkload_empty (t : Node) (tn : Nat) :
    bulkloadT t [] tn = (kSuccess, t) := rfl

/-- C8: the `HasNext` cursor protocol as the source implements it: skip
delete-marked slots and report `true` while an undeleted slot remains
below the end position; on the last node of the scan range release the
node's shared lock and report `false`; otherwise follow the right-sibling
pointer, reset the position to 0, recompute the end position and last-node
flag against the end key, and loop.  The claim's "releases … the epoch
guard" does not hold: the iterator holds no epoch guard, and `HasNext`
leaves the caller's guard untouched on every path (last conjunct). -/
theorem C8_iterator_protocol :
    (∀ it r, it.pos < it.endPos → it.node[it.pos]? = some r → r.isDeleted = false →
      hasNext it = (true, it)) ∧
    (∀ it r, it.pos < it.endPos → it.node[it.pos]? = some r → r.isDeleted = true →
      hasNext it = hasNext { it with pos := it.pos + 1 }) ∧
    (∀ it, it.endPos ≤ it.pos → it.isEnd = true →
      hasNext it = (false, { it with sLock := false })) ∧
    (∀ it rs rest, it.endPos ≤ it.pos → it.isEnd = false → it.chain = rs :: rest →
      hasNext it = hasNext { it with
        node := rs, chain := rest, pos := 0,
        endPos := (searchEndPositionFor rs (rest.head?.bind firstKeyOf) it.endKey).2,
        isEnd := (searchEndPositionFor rs (rest.head?.bind firstKeyOf) it.endKey).1 }) ∧
    (∀ it, (hasNext it).2.guard = it.guard ∧ (hasNext it).2.endKey = it.endKey) := by
  refine ⟨?_, ?_, ?_, ?_, ?_⟩
  · intro it r h1 h2 h3
    rw [hasNext, if_pos h1, h2]
    simp only [h3, Bool.false_eq_true, if_false]
  · intro it r h1 h2 h3
    rw [hasNext, if_pos h1, h2]
    simp only [h3, if_true]
  · intro it h1 h2
    rw [hasNext, if_neg (by omega), if_pos h2]
  · intro it rs rest h1 h2 h3
    rw [hasNext, if_neg (by omega), if_neg (by simp [h2])]
    split
    · rename_i heq
      rw [h3] at heq
      cases heq
    · rename_i rs' rest' heq
      rw [h3] at heq
      injection heq with e1 e2
      subst e1
      subst e2
      rfl
  · intro it
    induction it using hasNext.induct with
    | case1 x hlt r hfind hdel ih =>
        rw [hasNext, if_pos hlt, hfind]
        simp only [hdel, if_true]
        exact ih
    | case2 x hlt r hfind hdel =>
        rw [Bool.not_eq_true] at hdel
        rw [hasNext, if_pos hlt, hfind]
        simp only [hdel, Bool.false_eq_true, if_false]
        exact ⟨by trivial, by trivial⟩
    | case3 x hlt hfind =>
        rw [hasNext, if_pos hlt, hfind]
        exact ⟨rfl, rfl⟩
    | case4 x hlt hend =>
        rw [hasNext, if_neg hlt, if_pos hend]
        exact ⟨rfl, rfl⟩
    | case5 x hlt hend hc =>
        rw [hasNext, if_neg hlt, if_neg hend]
        split
        · exact ⟨rfl, rfl⟩
        · rename_i rs' rest' heq
          rw [hc] at heq
          cases heq
    | case6 x hlt hend rs rest hc ep ih =>
        rw [hasNext, if_neg hlt, if_neg hend]
        split
        · rename_i heq
          rw [hc] at heq
          cases heq
        · rename_i rs' rest' heq
          rw [hc] at heq
          injection heq with e1 e2
          subst e1
          subst e2
          exact ih

theorem C8_counterexample :
    (hasNext ⟨[], [], 0, 0, none, true, true, true⟩).1 = false ∧
    (hasNext ⟨[], [], 0, 0, none, true, true, true⟩).2.sLock = false ∧
    (hasNext ⟨[], [], 0, 0, none, true, true, true⟩).2.guard = true := by
  have h : hasNext ⟨[], [], 0, 0, none, true, true, true⟩ =
      (false, ⟨[], [], 0, 0, none, true, false, true⟩) := by
    rw [hasNext]
    rfl
  rw [h]
  exact ⟨rfl, rfl, rfl⟩

/-! ## Scan: the collected records are the range filter of the live contents -/

/-- Membership of a key on the scan range's begin side (§4.4: the begin
key with its closed flag). -/
def bkPred (bk : Option (Nat × Bool)) (κ : Nat) : Bool :=
  match bk with
  | none => true
  | some (a, closed) => if closed then decide (a ≤ κ) else decide (a < κ)

/-- Membership of a key on the scan range's end side. -/
def ekPred (ek : Option (Nat × Bool)) (κ : Nat) : Bool :=
  match ek with
  | none => true
  | some (e, closed) => if closed then decide (κ ≤ e) else decide (κ < e)

/-- The shape of the leaf chain a scan walks: every leaf is sorted, and
each non-head leaf is nonempty, with its first key strictly above every
key before it and at or below every key from it on (high-key/sibling
invariant, spec §3 invariant 2). -/
def chain2 : List (List Record) → Prop
  | [] => True
  | rs :: rest =>
      sortedRecs rs = true ∧
      (match rest with
       | [] => True
       | rs' :: _ => ∃ fk, firstKeyOf rs' = some fk ∧ (∀ r ∈ rs, r.key < fk) ∧
           (∀ rs2 ∈ rest, ∀ r ∈ rs2, fk ≤ r.key)) ∧
      chain2 rest

theorem chain2_first_le (rs : List Record) (rest : List (List Record))
    (h : chain2 (rs :: rest)) (hne : rs ≠ []) :
    ∃ fk, firstKeyOf rs = some fk ∧ ∀ rs2 ∈ rs :: rest, ∀ r ∈ rs2, fk ≤ r.key := by
  obtain ⟨hs, hmid, _⟩ := h
  match rs, hne with
  | r0 :: rs0, _ =>
  refine ⟨r0.key, rfl, ?_⟩
  intro rs2 hrs2 r hr
  rcases List.mem_cons.1 hrs2 with h2 | h2
  · subst h2
    rcases List.mem_cons.1 hr with h3 | h3
    · rw [h3]
    · rw [sortedRecs_iff, List.pairwise_cons] at hs
      exact le_of_lt (hs.1 r h3)
  · cases rest with
    | nil => simp at h2
    | cons rs' rest' =>
        obtain ⟨fk, hfk, hlt, hge⟩ := hmid
        have h4 : r0.key < fk := hlt r0 (by simp)
        have h5 : fk ≤ r.key := hge rs2 h2 r hr
        omega

theorem chain2_append (A B : List (List Record)) (hA : chain2 A) (hB : chain2 B)
    (hcross : ∀ rsa ∈ A, ∀ ra ∈ rsa, ∀ rsb ∈ B, ∀ rb ∈ rsb, ra.key < rb.key)
    (hBhead : B = [] ∨ ∃ rs0 rest0, B = rs0 :: rest0 ∧ rs0 ≠ []) :
    chain2 (A ++ B) := by
  induction A with
  | nil => simpa using hB
  | cons rs A' ih =>
      obtain ⟨hs, hmid, hA'⟩ := hA
      rw [List.cons_append]
      refine ⟨hs, ?_, ih hA' (fun rsa ha => hcross rsa (by simp [ha]))⟩
      cases A' with
      | nil =>
          rw [List.nil_append]
          rcases hBhead with h | ⟨rs0, rest0, hB0, hne0⟩
          · rw [h]
            trivial
          · subst hB0
            obtain ⟨fk, hfk, hall⟩ := chain2_first_le rs0 rest0 hB hne0
            refine ⟨fk, hfk, ?_, hall⟩
            intro r hr
            match rs0, hne0, hfk with
            | r0 :: rs0', _, hfk =>
                have hfk0 : fk = r0.key := by
                  simp [firstKeyOf] at hfk
                  omega
                rw [hfk0]
                exact hcross rs (by simp) r hr (r0 :: rs0') (by simp) r0 (by simp)
      | cons rsA A'' =>
          rw [List.cons_append]
          obtain ⟨fk, hfk, hlt, hge⟩ := hmid
          refine ⟨fk, hfk, hlt, ?_⟩
          intro rs2 hrs2 r hr
          rcases List.mem_append.1 (show rs2 ∈ (rsA :: A'') ++ B by
            rw [List.cons_append]; exact hrs2) with h2 | h2
          · exact hge rs2 h2 r hr
          · match rsA, hfk with
            | rA :: rsA', hfk =>
                have hfkA : fk = rA.key := by
                  simp [firstKeyOf] at hfk
                  omega
                rw [hfkA]
                exact le_of_lt
                  (hcross (rA :: rsA') (by simp) rA (by simp) rs2 h2 r hr)

/-- Every leaf of a subtree with at least one slot is nonempty (the
`wfEntries` occupancy invariant pushed to the leaves). -/
theorem leaves_ne :
    ∀ t (lo hi : Option Nat), wfIn t lo hi = true → 1 ≤ slotCount t →
      ∀ rs ∈ leaves t, rs ≠ [] := by
  intro t
  induction t using Node.induct with
  | hleaf v rs0 =>
      intro lo hi _ hn rs hrs
      rw [leaves] at hrs
      simp only [List.mem_singleton] at hrs
      subst hrs
      simp only [slotCount] at hn
      exact List.ne_nil_of_length_pos (by omega)
  | hinner c0 es ih0 ihes =>
      intro lo hi hwf hsl rs hrs
      rw [wfIn_inner_iff] at hwf
      rw [leaves] at hrs
      revert hrs
      have main : ∀ (es' : List (Nat × Node)) (c : Node) (lo' hi' : Option Nat),
          (∀ x, (x = c ∨ ∃ s, (s, x) ∈ es') → ∀ lo'' hi'', wfIn x lo'' hi'' = true →
            1 ≤ slotCount x → ∀ rs' ∈ leaves x, rs' ≠ []) →
          wfEntries c es' lo' hi' = true →
          rs ∈ leaves c ++ leavesL es' → rs ≠ [] := by
        intro es'
        induction es' with
        | nil =>
            intro c lo' hi' IH hwf' hrs
            rw [wfEntries_nil_iff] at hwf'
            rw [leavesL, List.append_nil] at hrs
            exact IH c (Or.inl rfl) lo' hi' hwf'.1 hwf'.2 rs hrs
        | cons e rest ihL =>
            obtain ⟨s1, c1⟩ := e
            intro c lo' hi' IH hwf' hrs
            rw [wfEntries_cons_iff] at hwf'
            rw [leavesL] at hrs
            rcases List.mem_append.1 hrs with h | h
            · exact IH c (Or.inl rfl) lo' (some s1) hwf'.1 hwf'.2.1 rs h
            · refine ihL c1 (some s1) hi' ?_ hwf'.2.2 h
              intro x hx
              rcases hx with h' | ⟨s', h'⟩
              · exact IH x (Or.inr ⟨s1, by rw [h']; simp⟩)
              · exact IH x (Or.inr ⟨s', by simp [h']⟩)
      intro hrs
      refine main es c0 lo hi ?_ hwf.1 hrs
      intro x hx
      rcases hx with h' | ⟨s', h'⟩
      · subst h'; exact ih0
      · exact ihes s' x h'

/-- Every key in a leaf of a subtree is a slot key of the subtree. -/
theorem leaves_sub_slotKeys :
    ∀ t, ∀ rs ∈ leaves t, ∀ r ∈ rs, r.key ∈ slotKeys t := by
  intro t
  induction t using Node.induct with
  | hleaf v rs0 =>
      intro rs hrs r hr
      rw [leaves] at hrs
      simp only [List.mem_singleton] at hrs
      subst hrs
      rw [slotKeys]
      exact List.mem_map_of_mem (·.key) hr
  | hinner c0 es ih0 ihes =>
      intro rs hrs r hr
      rw [leaves] at hrs
      rw [slotKeys]
      have main : ∀ (es' : List (Nat × Node)),
          (∀ s c, (s, c) ∈ es' → ∀ rs' ∈ leaves c, ∀ r' ∈ rs', r'.key ∈ slotKeys c) →
          rs ∈ leavesL es' → r.key ∈ slotKeysL es' := by
        intro es'
        induction es' with
        | nil =>
            intro _ hrs'
            rw [leavesL] at hrs'
            simp at hrs'
        | cons e restE ihL =>
            obtain ⟨s1, c1⟩ := e
            intro IH hrs'
            rw [leavesL] at hrs'
            rw [slotKeysL]
            rcases List.mem_append.1 hrs' with h | h
            · exact List.mem_append_left _ (IH s1 c1 (by simp) rs h r hr)
            · exact List.mem_append_right _
                (ihL (fun s c hsc => IH s c (by simp [hsc])) h)
      rcases List.mem_append.1 hrs with h | h
      · exact List.mem_append_left _ (ih0 rs h r hr)
      · exact List.mem_append_right _ (main es ihes h)

/-- Every record in a leaf of a subtree is bounded by the subtree's key
range. -/
theorem leaves_keys_bounded (t : Node) (lo hi : Option Nat) (hwf : wfIn t lo hi = true) :
    ∀ rs ∈ leaves t, ∀ r ∈ rs, inB lo hi r.key = true :=
  fun rs hrs r hr =>
    slotKeys_bounded t lo hi hwf r.key (leaves_sub_slotKeys t rs hrs r hr)

/-- A subtree always has at least one leaf. -/
theorem leaves_ne_nil : ∀ t, leaves t ≠ [] := by
  intro t
  induction t using Node.induct with
  | hleaf v rs =>
      rw [leaves]
      simp
  | hinner c0 es ih0 _ =>
      rw [leaves]
      intro h
      exact ih0 (List.append_eq_nil.1 h).1

theorem leavesL_sub_slotKeysL :
    ∀ (es : List (Nat × Node)), ∀ rs ∈ leavesL es, ∀ r ∈ rs, r.key ∈ slotKeysL es := by
  intro es
  induction es with
  | nil =>
      intro rs hrs
      rw [leavesL] at hrs
      simp at hrs
  | cons e rest ih =>
      obtain ⟨s1, c1⟩ := e
      intro rs hrs r hr
      rw [leavesL] at hrs
      rw [slotKeysL]
      rcases List.mem_append.1 hrs with h | h
      · exact List.mem_append_left _ (leaves_sub_slotKeys c1 rs h r hr)
      · exact List.mem_append_right _ (ih rs h r hr)

theorem leavesL_keys_bounded (es : List (Nat × Node)) (c : Node) (lo hi : Option Nat)
    (hwf : wfEntries c es lo hi = true) :
    ∀ rs ∈ leaves c ++ leavesL es, ∀ r ∈ rs, inB lo hi r.key = true := by
  intro rs hrs r hr
  refine slotKeysL_bounded c es lo hi hwf r.key ?_
  rcases List.mem_append.1 hrs with h | h
  · exact List.mem_append_left _ (leaves_sub_slotKeys c rs h r hr)
  · exact List.mem_append_right _ (leavesL_sub_slotKeysL es rs h r hr)

/-- The leaves of a well-formed subtree form a scan chain. -/
theorem chain2_leaves :
    ∀ t (lo hi : Option Nat), wfIn t lo hi = true → chain2 (leaves t) := by
  intro t
  induction t using Node.induct with
  | hleaf v rs =>
      intro lo hi hwf
      rw [wfIn_leaf_iff] at hwf
      rw [leaves]
      exact ⟨(sortedRecs_iff rs).2 hwf.1, trivial, trivial⟩
  | hinner c0 es ih0 ihes =>
      intro lo hi hwf
      rw [wfIn_inner_iff] at hwf
      rw [leaves]
      have main : ∀ (es' : List (Nat × Node)) (c : Node) (lo' hi' : Option Nat),
          (∀ x, (x = c ∨ ∃ s, (s, x) ∈ es') → ∀ lo'' hi'',
            wfIn x lo'' hi'' = true → chain2 (leaves x)) →
          wfEntries c es' lo' hi' = true →
          chain2 (leaves c ++ leavesL es') := by
        intro es'
        induction es' with
        | nil =>
            intro c lo' hi' IH hwf'
            rw [wfEntries_nil_iff] at hwf'
            rw [leavesL, List.append_nil]
            exact IH c (Or.inl rfl) lo' hi' hwf'.1
        | cons e rest ihL =>
            obtain ⟨s1, c1⟩ := e
            intro c lo' hi' IH hwf'
            rw [wfEntries_cons_iff] at hwf'
            rw [leavesL]
            refine chain2_append _ _ (IH c (Or.inl rfl) lo' (some s1) hwf'.1) ?_ ?_ ?_
            · refine ihL c1 (some s1) hi' ?_ hwf'.2.2
              intro x hx
              rcases hx with h' | ⟨s', h'⟩
              · exact IH x (Or.inr ⟨s1, by rw [h']; simp⟩)
              · exact IH x (Or.inr ⟨s', by simp [h']⟩)
            · intro rsa ha ra hra rsb hb rb hrb
              have h1 := leaves_keys_bounded c lo' (some s1) hwf'.1 rsa ha ra hra
              rw [inB_split] at h1
              have h2 : ra.key < s1 := by simpa using h1.2
              have h3 := leavesL_keys_bounded rest c1 (some s1) hi' hwf'.2.2 rsb hb rb hrb
              rw [inB_split] at h3
              have h4 : s1 ≤ rb.key := by simpa using h3.1
              omega
            · right
              obtain ⟨l0, ls, hleq⟩ := List.exists_cons_of_ne_nil (leaves_ne_nil c1)
              refine ⟨l0, ls ++ leavesL rest, by rw [hleq, List.cons_append], ?_⟩
              refine leaves_ne c1 (some s1) (headHi rest hi') ?_ ?_ l0 (by rw [hleq]; simp)
              · exact (wfEntries_head c1 rest (some s1) hi' hwf'.2.2).1
              · exact (wfEntries_head c1 rest (some s1) hi' hwf'.2.2).2
      refine main es c0 lo hi ?_ hwf.1
      intro x hx
      rcases hx with h' | ⟨s', h'⟩
      · subst h'; exact ih0
      · exact ihes s' x h'

/-- The live contents of a subtree are the concatenated live pairs of its
leaves, in order. -/
theorem liveList_eq_leaves :
    ∀ t, liveList t = ((leaves t).map livePairs).flatten := by
  intro t
  induction t using Node.induct with
  | hleaf v rs =>
      rw [liveList, leaves]
      simp [livePairs]
  | hinner c0 es ih0 ihes =>
      rw [liveList, leaves]
      have main : ∀ (es' : List (Nat × Node)),
          (∀ s c, (s, c) ∈ es' → liveList c = ((leaves c).map livePairs).flatten) →
          liveListL es' = ((leavesL es').map livePairs).flatten := by
        intro es'
        induction es' with
        | nil =>
            intro _
            rw [leavesL, liveListL]
            rfl
        | cons e rest ihL =>
            obtain ⟨s1, c1⟩ := e
            intro IH
            rw [leavesL, liveListL, List.map_append, List.flatten_append,
              IH s1 c1 (by simp), ihL (fun s c hsc => IH s c (by simp [hsc]))]
      rw [List.map_append, List.flatten_append, ih0, main es ihes]

theorem livePairs_pairwise (rs : List Record)
    (hs : rs.Pairwise (fun a b => a.key < b.key)) :
    (livePairs rs).Pairwise (fun p q => p.1 < q.1) := by
  induction rs with
  | nil => exact List.Pairwise.nil
  | cons r rest ih =>
      rw [List.pairwise_cons] at hs
      by_cases hd : r.isDeleted
      · have h1 : livePairs (r :: rest) = livePairs rest := by
          simp [livePairs, List.filterMap_cons, hd]
        rw [h1]
        exact ih hs.2
      · have h1 : livePairs (r :: rest) = (r.key, r.payload) :: livePairs rest := by
          simp [livePairs, List.filterMap_cons, hd]
        rw [h1, List.pairwise_cons]
        refine ⟨?_, ih hs.2⟩
        intro p hp
        obtain ⟨r', hr', hrk, _⟩ := livePairs_keys_mem rest p hp
        have := hs.1 r' hr'
        show r.key < p.1
        omega

/-- The live contents of a well-formed subtree are in strictly ascending
key order. -/
theorem liveList_pairwise :
    ∀ t (lo hi : Option Nat), wfIn t lo hi = true →
      (liveList t).Pairwise (fun p q => p.1 < q.1) := by
  intro t
  induction t using Node.induct with
  | hleaf v rs =>
      intro lo hi hwf
      rw [wfIn_leaf_iff] at hwf
      rw [liveList_leaf_eq]
      exact livePairs_pairwise rs hwf.1
  | hinner c0 es ih0 ihes =>
      intro lo hi hwf
      rw [wfIn_inner_iff] at hwf
      rw [liveList_inner_eq]
      have main : ∀ (es' : List (Nat × Node)) (c : Node) (lo' hi' : Option Nat),
          (∀ x, (x = c ∨ ∃ s, (s, x) ∈ es') → ∀ lo'' hi'',
            wfIn x lo'' hi'' = true →
            (liveList x).Pairwise (fun p q => p.1 < q.1)) →
          wfEntries c es' lo' hi' = true →
          (liveList c ++ liveListL es').Pairwise (fun p q => p.1 < q.1) := by
        intro es'
        induction es' with
        | nil =>
            intro c lo' hi' IH hwf'
            rw [wfEntries_nil_iff] at hwf'
            rw [liveListL_nil_eq, List.append_nil]
            exact IH c (Or.inl rfl) lo' hi' hwf'.1
        | cons e rest ihL =>
            obtain ⟨s1, c1⟩ := e
            intro c lo' hi' IH hwf'
            rw [wfEntries_cons_iff] at hwf'
            rw [liveListL_cons_eq]
            rw [List.pairwise_append]
            refine ⟨IH c (Or.inl rfl) lo' (some s1) hwf'.1, ?_, ?_⟩
            · refine ihL c1 (some s1) hi' ?_ hwf'.2.2
              intro x hx
              rcases hx with h' | ⟨s', h'⟩
              · exact IH x (Or.inr ⟨s1, by rw [h']; simp⟩)
              · exact IH x (Or.inr ⟨s', by simp [h']⟩)
            · intro p hp q hq
              have h1 := liveList_bounded c lo' (some s1) hwf'.1 p hp
              rw [inB_split] at h1
              have h2 : p.1 < s1 := by simpa using h1.2
              have h3 := liveListL_bounded c1 rest (some s1) hi' hwf'.2.2 q hq
              rw [inB_split] at h3
              have h4 : s1 ≤ q.1 := by simpa using h3.1
              omega
      refine main es c0 lo hi ?_ hwf.1
      intro x hx
      rcases hx with h' | ⟨s', h'⟩
      · subst h'; exact ih0
      · exact ihes s' x h'

theorem ekPred_mono (ek : Option (Nat × Bool)) (κ κ' : Nat) (h : κ ≤ κ')
    (hq : ekPred ek κ' = true) : ekPred ek κ = true := by
  cases ek with
  | none => rfl
  | some ec =>
      obtain ⟨e, closed⟩ := ec
      cases closed <;> simp [ekPred] at hq ⊢ <;> omega

theorem sepf_p_eq (e : Nat) (closed : Bool) :
    (fun r : Record => if closed then decide (e < r.key) else decide (e ≤ r.key)) =
    (fun r : Record => !(ekPred (some (e, closed)) r.key)) := by
  funext r
  cases closed with
  | true =>
      show decide (e < r.key) = !(decide (r.key ≤ e))
      rw [← decide_not]
      exact decide_eq_decide.2 (by omega)
  | false =>
      show decide (e ≤ r.key) = !(decide (r.key < e))
      rw [← decide_not]
      exact decide_eq_decide.2 (by omega)

/-- In a sorted slot array, `findIdx` of the negation of a downward-closed
key predicate splits the slots: the predicate holds strictly below the
index and fails from it on. -/
theorem findIdx_sorted_boundary (rs : List Record) (q : Nat → Bool)
    (hs : rs.Pairwise (fun a b => a.key < b.key))
    (hmono : ∀ κ κ', κ ≤ κ' → q κ' = true → q κ = true) :
    (∀ i, ∀ h : i < rs.length, i < rs.findIdx (fun r => !(q r.key)) →
      q (rs.get ⟨i, h⟩).key = true) ∧
    (∀ i, ∀ h : i < rs.length, rs.findIdx (fun r => !(q r.key)) ≤ i →
      q (rs.get ⟨i, h⟩).key = false) := by
  constructor
  · intro i h hiE
    have hfi := List.not_of_lt_findIdx hiE
    simp only [List.get_eq_getElem]
    cases hq : q rs[i].key with
    | false => rw [hq] at hfi; cases hfi
    | true => rfl
  · intro i h hEi
    have hE : rs.findIdx (fun r => !(q r.key)) < rs.length := lt_of_le_of_lt hEi h
    have hfE := List.findIdx_getElem (w := hE)
    have hqE : q (rs[rs.findIdx (fun r => !(q r.key))]).key = false := by
      cases hq : q (rs[rs.findIdx (fun r => !(q r.key))]).key with
      | false => rfl
      | true => rw [hq] at hfE; cases hfE
    have hkey : (rs[rs.findIdx (fun r => !(q r.key))]).key ≤ (rs.get ⟨i, h⟩).key := by
      rcases Nat.lt_or_ge (rs.findIdx (fun r => !(q r.key))) i with hlt2 | hge2
      · have := (List.pairwise_iff_getElem.1 hs) _ i hE h hlt2
        simp only [List.get_eq_getElem]
        omega
      · have heq : i = rs.findIdx (fun r => !(q r.key)) := by omega
        subst heq
        simp only [List.get_eq_getElem]
        omega
    cases hqi : q (rs.get ⟨i, h⟩).key with
    | false => rfl
    | true =>
        have := hmono _ _ hkey hqi
        rw [this] at hqE
        cases hqE

/-- The cursor boundary `SearchEndPositionFor` computes (§4.4): every slot
below the end position satisfies the end-side predicate; when the node is
flagged last, every slot at or beyond it, and every key at or beyond the
next node's first key, fails it; when it is not flagged last, the end
position is the whole node and a right sibling key exists. -/
theorem sepf_facts (rs : List Record) (nk : Option Nat) (ek : Option (Nat × Bool))
    (hs : rs.Pairwise (fun a b => a.key < b.key))
    (hlt : ∀ fk, nk = some fk → ∀ r ∈ rs, r.key < fk) :
    (searchEndPositionFor rs nk ek).2 ≤ rs.length ∧
    (∀ i, ∀ h : i < rs.length, i < (searchEndPositionFor rs nk ek).2 →
      ekPred ek (rs.get ⟨i, h⟩).key = true) ∧
    ((searchEndPositionFor rs nk ek).1 = true →
      ∀ i, ∀ h : i < rs.length, (searchEndPositionFor rs nk ek).2 ≤ i →
        ekPred ek (rs.get ⟨i, h⟩).key = false) ∧
    ((searchEndPositionFor rs nk ek).1 = true →
      ∀ fk, nk = some fk → ∀ κ, fk ≤ κ → ekPred ek κ = false) ∧
    ((searchEndPositionFor rs nk ek).1 = false →
      (searchEndPositionFor rs nk ek).2 = rs.length ∧ ∃ fk, nk = some fk) := by
  cases ek with
  | none =>
      have hval : searchEndPositionFor rs nk none = (nk.isNone, rs.length) := by
        rw [searchEndPositionFor]
      rw [hval]
      refine ⟨le_refl _, fun i h _ => rfl, ?_, ?_, ?_⟩
      · intro _ i h hle
        omega
      · intro hI fk hfk
        rw [hfk] at hI
        cases hI
      · intro hI
        refine ⟨rfl, ?_⟩
        cases hnk : nk with
        | none => rw [hnk] at hI; cases hI
        | some fk => exact ⟨fk, rfl⟩
  | some ec =>
      obtain ⟨e, closed⟩ := ec
      have hbnd := findIdx_sorted_boundary rs (ekPred (some (e, closed))) hs
        (fun κ κ' h hq => ekPred_mono _ κ κ' h hq)
      have hfail : ∀ fk, (if closed then decide (e < fk) else decide (e ≤ fk)) = true →
          ∀ κ, fk ≤ κ → ekPred (some (e, closed)) κ = false := by
        intro fk hc κ hκ
        cases closed with
        | true =>
            simp only [if_true, decide_eq_true_eq] at hc
            show decide (κ ≤ e) = false
            simp only [decide_eq_false_iff_not, not_le]
            omega
        | false =>
            simp only [Bool.false_eq_true, if_false, decide_eq_true_eq] at hc
            show decide (κ < e) = false
            simp only [decide_eq_false_iff_not, not_lt]
            omega
      cases nk with
      | none =>
          have hval : searchEndPositionFor rs none (some (e, closed)) =
              (true, rs.findIdx (fun r => !(ekPred (some (e, closed)) r.key))) := by
            rw [searchEndPositionFor, ← sepf_p_eq]
            rfl
          rw [hval]
          refine ⟨List.findIdx_le_length _, hbnd.1, fun _ => hbnd.2, ?_, ?_⟩
          · intro _ fk hfk
            cases hfk
          · intro hI
            cases hI
      | some fk =>
          by_cases hcond : (if closed then decide (e < fk) else decide (e ≤ fk)) = true
          · have hval : searchEndPositionFor rs (some fk) (some (e, closed)) =
                (true, rs.findIdx (fun r => !(ekPred (some (e, closed)) r.key))) := by
              rw [searchEndPositionFor, ← sepf_p_eq]
              rw [if_pos hcond]
            rw [hval]
            refine ⟨List.findIdx_le_length _, hbnd.1, fun _ => hbnd.2, ?_, ?_⟩
            · intro _ fk' hfk' κ hκ
              injection hfk' with hfk'
              subst hfk'
              exact hfail fk hcond κ hκ
            · intro hI
              cases hI
          · have hval : searchEndPositionFor rs (some fk) (some (e, closed)) =
                (false, rs.length) := by
              rw [searchEndPositionFor]
              rw [if_neg hcond]
            rw [hval]
            refine ⟨le_refl _, ?_, ?_, ?_, fun _ => ⟨rfl, Exists.intro fk rfl⟩⟩
            · intro i h _
              have hklt : (rs.get ⟨i, h⟩).key < fk :=
                hlt fk rfl _ (List.get_mem rs i h)
              simp only [Bool.not_eq_true] at hcond
              cases closed with
              | true =>
                  simp only [if_true, decide_eq_false_iff_not, not_lt] at hcond
                  show decide ((rs.get ⟨i, h⟩).key ≤ e) = true
                  simp only [decide_eq_true_eq]
                  omega
              | false =>
                  simp only [Bool.false_eq_true, if_false, decide_eq_false_iff_not,
                    not_le] at hcond
                  show decide ((rs.get ⟨i, h⟩).key < e) = true
                  simp only [decide_eq_true_eq]
                  omega
            · intro hI
              cases hI
            · intro hI
              cases hI

theorem livePairs_cons (r : Record) (l : List Record) :
    livePairs (r :: l) =
      if r.isDeleted then livePairs l else (r.key, r.payload) :: livePairs l := by
  by_cases hd : r.isDeleted <;> simp [livePairs, List.filterMap_cons, hd]

/-- The iterator loop on a scan chain collects exactly the live records
from the cursor on that satisfy the end-side predicate. -/
theorem scanCollect_spec :
    ∀ (rest : List (List Record)) (rs : List Record) (ek : Option (Nat × Bool)),
      chain2 (rs :: rest) → ∀ pos,
      scanCollect (rs :: rest) pos
          (searchEndPositionFor rs (rest.head?.bind firstKeyOf) ek).2
          (searchEndPositionFor rs (rest.head?.bind firstKeyOf) ek).1 ek =
        (livePairs (rs.drop pos) ++ (rest.map livePairs).flatten).filter
          (fun p => ekPred ek p.1) := by
  intro rest
  induction rest with
  | nil =>
      intro rs ek hch pos
      obtain ⟨hs0, -, -⟩ := hch
      have hs := (sortedRecs_iff rs).1 hs0
      obtain ⟨hEle, hkeep, hdropf, hrestf, hlast⟩ :=
        sepf_facts rs (([] : List (List Record)).head?.bind firstKeyOf) ek hs
          (by intro fk hfk; cases hfk)
      have hIt : (searchEndPositionFor rs
          (([] : List (List Record)).head?.bind firstKeyOf) ek).1 = true := by
        cases hIv : (searchEndPositionFor rs
            (([] : List (List Record)).head?.bind firstKeyOf) ek).1 with
        | true => rfl
        | false =>
            obtain ⟨-, fk, hfk⟩ := hlast hIv
            cases hfk
      have terminal : ∀ p0, ¬ p0 < (searchEndPositionFor rs
          (([] : List (List Record)).head?.bind firstKeyOf) ek).2 →
          scanCollect [rs] p0
            (searchEndPositionFor rs (([] : List (List Record)).head?.bind firstKeyOf) ek).2
            (searchEndPositionFor rs (([] : List (List Record)).head?.bind firstKeyOf) ek).1
            ek =
          (livePairs (rs.drop p0)).filter (fun p => ekPred ek p.1) := by
        intro p0 hp0
        rw [scanCollect, if_neg hp0, if_pos hIt]
        symm
        rw [List.filter_eq_nil_iff]
        intro p hp
        obtain ⟨r, hr, hrk, -⟩ := livePairs_keys_mem _ p hp
        obtain ⟨j, hj, hjr⟩ := List.mem_iff_getElem.1 hr
        have hjlen : j < rs.length - p0 := by
          simpa using hj
        have hidx : p0 + j < rs.length := by omega
        have hkey : r.key = (rs.get ⟨p0 + j, hidx⟩).key := by
          rw [← hjr]
          simp [List.getElem_drop]
        have hfail := hdropf hIt (p0 + j) hidx (by omega)
        rw [← hrk, hkey]
        simp only [hfail]
        exact Bool.false_ne_true
      have main : ∀ fuel p0, rs.length - p0 ≤ fuel →
          scanCollect [rs] p0
            (searchEndPositionFor rs (([] : List (List Record)).head?.bind firstKeyOf) ek).2
            (searchEndPositionFor rs (([] : List (List Record)).head?.bind firstKeyOf) ek).1
            ek =
          (livePairs (rs.drop p0)).filter (fun p => ekPred ek p.1) := by
        intro fuel
        induction fuel with
        | zero =>
            intro p0 hf
            exact terminal p0 (by omega)
        | succ fuel ihF =>
            intro p0 hf
            by_cases hpos : p0 < (searchEndPositionFor rs
                (([] : List (List Record)).head?.bind firstKeyOf) ek).2
            · have hplen : p0 < rs.length := lt_of_lt_of_le hpos hEle
              rw [scanCollect, if_pos hpos, List.getElem?_eq_getElem hplen]
              simp only []
              have hk := hkeep p0 hplen hpos
              simp only [List.get_eq_getElem] at hk
              by_cases hdel : rs[p0].isDeleted
              · rw [if_pos hdel, ihF (p0 + 1) (by omega)]
                conv_rhs => rw [List.drop_eq_getElem_cons hplen]
                rw [livePairs_cons, if_pos hdel]
              · rw [if_neg hdel, ihF (p0 + 1) (by omega)]
                conv_rhs => rw [List.drop_eq_getElem_cons hplen]
                rw [livePairs_cons, if_neg hdel, List.filter_cons]
                simp only [hk, if_true]
            · exact terminal p0 hpos
      have hRHS : ((livePairs (rs.drop pos) ++
          (([] : List (List Record)).map livePairs).flatten).filter
            (fun p => ekPred ek p.1)) =
          (livePairs (rs.drop pos)).filter (fun p => ekPred ek p.1) := by
        simp
      rw [hRHS]
      exact main rs.length pos (by omega)
  | cons rs' rest' ihR =>
      intro rs ek hch pos
      obtain ⟨hs0, hmid, htail⟩ := hch
      obtain ⟨fk0, hfk0, hlt0, hge0⟩ := hmid
      have hs := (sortedRecs_iff rs).1 hs0
      have hnk : ((rs' :: rest').head?.bind firstKeyOf) = some fk0 := by
        simp only [List.head?_cons, Option.bind_some]
        exact hfk0
      obtain ⟨hEle, hkeep, hdropf, hrestf, hlast⟩ :=
        sepf_facts rs ((rs' :: rest').head?.bind firstKeyOf) ek hs
          (by
            intro fk hfk r hr
            rw [hnk] at hfk
            injection hfk with hfk
            subst hfk
            exact hlt0 r hr)
      have terminal : ∀ p0, ¬ p0 < (searchEndPositionFor rs
          ((rs' :: rest').head?.bind firstKeyOf) ek).2 →
          scanCollect (rs :: rs' :: rest') p0
            (searchEndPositionFor rs ((rs' :: rest').head?.bind firstKeyOf) ek).2
            (searchEndPositionFor rs ((rs' :: rest').head?.bind firstKeyOf) ek).1 ek =
          (livePairs (rs.drop p0) ++ ((rs' :: rest').map livePairs).flatten).filter
            (fun p => ekPred ek p.1) := by
        intro p0 hp0
        cases hIv : (searchEndPositionFor rs
            ((rs' :: rest').head?.bind firstKeyOf) ek).1 with
        | true =>
            rw [scanCollect, if_neg hp0, if_pos rfl]
            symm
            rw [List.filter_eq_nil_iff]
            intro p hp
            rcases List.mem_append.1 hp with hp1 | hp2
            · obtain ⟨r, hr, hrk, -⟩ := livePairs_keys_mem _ p hp1
              obtain ⟨j, hj, hjr⟩ := List.mem_iff_getElem.1 hr
              have hjlen : j < rs.length - p0 := by simpa using hj
              have hidx : p0 + j < rs.length := by omega
              have hkey : r.key = (rs.get ⟨p0 + j, hidx⟩).key := by
                rw [← hjr]
                simp [List.getElem_drop]
              have hfail := hdropf hIv (p0 + j) hidx (by omega)
              rw [← hrk, hkey]
              simp only [hfail]
              exact Bool.false_ne_true
            · obtain ⟨lp, hlp, hplp⟩ := List.mem_flatten.1 hp2
              obtain ⟨rs2, hrs2, hrs2e⟩ := List.mem_map.1 hlp
              rw [← hrs2e] at hplp
              obtain ⟨r, hr, hrk, -⟩ := livePairs_keys_mem _ p hplp
              have hge := hge0 rs2 hrs2 r hr
              have hfail := hrestf hIv fk0 hnk r.key hge
              rw [← hrk]
              simp only [hfail]
              exact Bool.false_ne_true
        | false =>
            obtain ⟨hElen, fk, hfk⟩ := hlast hIv
            rw [scanCollect, if_neg hp0, if_neg Bool.false_ne_true]
            simp only []
            rw [ihR rs' ek htail 0]
            have hnil : rs.drop p0 = [] := by
              refine List.drop_eq_nil_of_le ?_
              omega
            rw [hnil]
            simp [List.filter_append, livePairs]
      have main : ∀ fuel p0, rs.length - p0 ≤ fuel →
          scanCollect (rs :: rs' :: rest') p0
            (searchEndPositionFor rs ((rs' :: rest').head?.bind firstKeyOf) ek).2
            (searchEndPositionFor rs ((rs' :: rest').head?.bind firstKeyOf) ek).1 ek =
          (livePairs (rs.drop p0) ++ ((rs' :: rest').map livePairs).flatten).filter
            (fun p => ekPred ek p.1) := by
        intro fuel
        induction fuel with
        | zero =>
            intro p0 hf
            exact terminal p0 (by omega)
        | succ fuel ihF =>
            intro p0 hf
            by_cases hpos : p0 < (searchEndPositionFor rs
                ((rs' :: rest').head?.bind firstKeyOf) ek).2
            · have hplen : p0 < rs.length := lt_of_lt_of_le hpos hEle
              rw [scanCollect, if_pos hpos, List.getElem?_eq_getElem hplen]
              simp only []
              have hk := hkeep p0 hplen hpos
              simp only [List.get_eq_getElem] at hk
              by_cases hdel : rs[p0].isDeleted
              · rw [if_pos hdel, ihF (p0 + 1) (by omega)]
                conv_rhs => rw [List.drop_eq_getElem_cons hplen]
                rw [livePairs_cons, if_pos hdel]
              · rw [if_neg hdel, ihF (p0 + 1) (by omega)]
                conv_rhs => rw [List.drop_eq_getElem_cons hplen]
                rw [livePairs_cons, if_neg hdel, List.cons_append, List.filter_cons]
                simp only [hk, if_true]
            · exact terminal p0 hpos
      exact main rs.length pos (by omega)

theorem chain2_suffix :
    ∀ (A B : List (List Record)), chain2 (A ++ B) → chain2 B := by
  intro A
  induction A with
  | nil => intro B h; simpa using h
  | cons rs A' ih =>
      intro B h
      rw [List.cons_append] at h
      exact ih B h.2.2

theorem bkPred_mono (bk : Option (Nat × Bool)) (κ κ' : Nat) (hle : κ ≤ κ')
    (h : bkPred bk κ = true) : bkPred bk κ' = true := by
  match bk with
  | none => rfl
  | some (a, closed) =>
      simp only [bkPred] at h ⊢
      cases closed <;> simp_all <;> omega

theorem bkPred_of_lt (a : Nat) (closed : Bool) (κ : Nat) (h : a < κ) :
    bkPred (some (a, closed)) κ = true := by
  simp only [bkPred]
  cases closed <;> simp <;> omega

theorem bkPred_false_of_lt (a : Nat) (closed : Bool) (κ : Nat) (h : κ < a) :
    bkPred (some (a, closed)) κ = false := by
  simp only [bkPred]
  cases closed <;> simp <;> omega

theorem bkp_p_eq (a : Nat) (closed : Bool) :
    (fun r : Record => if closed then decide (a ≤ r.key) else decide (a < r.key)) =
      (fun r : Record => bkPred (some (a, closed)) r.key) := rfl

/-- The begin-key cursor `beginPos` splits a sorted leaf exactly at the
begin predicate's boundary: slots before it fail the begin-side test,
slots from it on satisfy it. -/
theorem beginPos_facts (rs : List Record) (bk : Option (Nat × Bool))
    (hs : rs.Pairwise (fun a b => a.key < b.key)) :
    beginPos rs bk ≤ rs.length ∧
    (∀ i, ∀ h : i < rs.length, i < beginPos rs bk →
      bkPred bk (rs.get ⟨i, h⟩).key = false) ∧
    (∀ i, ∀ h : i < rs.length, beginPos rs bk ≤ i →
      bkPred bk (rs.get ⟨i, h⟩).key = true) := by
  match bk with
  | none =>
      refine ⟨by simp [beginPos], ?_, ?_⟩
      · intro i h hi
        simp [beginPos] at hi
      · intro i h _
        rfl
  | some (a, closed) =>
      have hpos : beginPos rs (some (a, closed)) =
          rs.findIdx (fun r => bkPred (some (a, closed)) r.key) := by
        rw [beginPos, bkp_p_eq]
      refine ⟨?_, ?_, ?_⟩
      · rw [hpos]
        apply List.findIdx_le_length
      · intro i h hi
        rw [hpos] at hi
        have := List.not_of_lt_findIdx hi
        simpa using this
      · intro i h hi
        rw [hpos] at hi
        have hflt : rs.findIdx (fun r => bkPred (some (a, closed)) r.key) < rs.length := by
          omega
        have hstart := List.findIdx_getElem (w := hflt)
        have hmono : (rs.get ⟨rs.findIdx (fun r => bkPred (some (a, closed)) r.key),
            hflt⟩).key ≤ (rs.get ⟨i, h⟩).key := by
          rcases Nat.eq_or_lt_of_le hi with heq | hlt
          · simp [heq]
          · have := (List.pairwise_iff_getElem.1 hs) _ i hflt h hlt
            simp only [List.get_eq_getElem]
            omega
        refine bkPred_mono (some (a, closed)) _ _ hmono ?_
        simpa using hstart

/-- `SearchLeafNode(begin_key)` splits the leaf level: the leaves before
the found leaf hold only keys below the begin key, the found leaf heads
the remaining chain, and every later leaf holds only keys above it. -/
theorem leavesFrom_split :
    ∀ t (lo hi : Option Nat) (a : Nat), wfIn t lo hi = true →
      loLE lo a = true → hiGT hi a = true →
      ∃ pre, leaves t = pre ++ leavesFrom t a ∧
        (∀ rs ∈ pre, ∀ r ∈ rs, r.key < a) ∧
        leavesFrom t a ≠ [] ∧
        (∀ rs ∈ (leavesFrom t a).drop 1, ∀ r ∈ rs, a < r.key) := by
  intro t
  induction t using Node.induct with
  | hleaf v rs =>
      intro lo hi a _ _ _
      refine ⟨[], ?_, by simp, ?_, ?_⟩
      · rw [leaves, leavesFrom, List.nil_append]
      · rw [leavesFrom]
        simp
      · rw [leavesFrom]
        intro rs' hrs'
        simp at hrs'
  | hinner c0 es ih0 ihes =>
      intro lo hi a hwf hlo hhi
      rw [wfIn_inner_iff] at hwf
      rw [leaves, leavesFrom]
      have main : ∀ (es' : List (Nat × Node)) (c : Node) (lo' hi' : Option Nat),
          (∀ x, (x = c ∨ ∃ s, (s, x) ∈ es') → ∀ lo'' hi'' a',
            wfIn x lo'' hi'' = true → loLE lo'' a' = true → hiGT hi'' a' = true →
            ∃ pre, leaves x = pre ++ leavesFrom x a' ∧
              (∀ rs ∈ pre, ∀ r ∈ rs, r.key < a') ∧
              leavesFrom x a' ≠ [] ∧
              (∀ rs ∈ (leavesFrom x a').drop 1, ∀ r ∈ rs, a' < r.key)) →
          wfEntries c es' lo' hi' = true →
          loLE lo' a = true → hiGT hi' a = true →
          ∃ pre, leaves c ++ leavesL es' = pre ++ leavesFromL c es' a ∧
            (∀ rs ∈ pre, ∀ r ∈ rs, r.key < a) ∧
            leavesFromL c es' a ≠ [] ∧
            (∀ rs ∈ (leavesFromL c es' a).drop 1, ∀ r ∈ rs, a < r.key) := by
        intro es'
        induction es' with
        | nil =>
            intro c lo' hi' IH hwf' hlo' hhi'
            rw [wfEntries_nil_iff] at hwf'
            rw [leavesL, leavesFromL, List.append_nil]
            exact IH c (Or.inl rfl) lo' hi' a hwf'.1 hlo' hhi'
        | cons e rest ihL =>
            obtain ⟨s1, c1⟩ := e
            intro c lo' hi' IH hwf' hlo' hhi'
            rw [wfEntries_cons_iff] at hwf'
            rw [leavesL, leavesFromL]
            by_cases hsa : s1 ≤ a
            · rw [if_pos hsa]
              obtain ⟨pre', hsplit', hpre', hne', hsuf'⟩ :=
                ihL c1 (some s1) hi'
                  (fun x hx =>
                    match hx with
                    | Or.inl h' => IH x (Or.inr ⟨s1, by rw [h']; simp⟩)
                    | Or.inr ⟨s', h'⟩ => IH x (Or.inr ⟨s', by simp [h']⟩))
                  hwf'.2.2 (by simp only [loLE, decide_eq_true_eq]; omega) hhi'
              refine ⟨leaves c ++ pre', ?_, ?_, hne', hsuf'⟩
              · rw [List.append_assoc, hsplit']
              · intro rs hrs r hr
                rcases List.mem_append.1 hrs with h | h
                · have h1 := leaves_keys_bounded c lo' (some s1) hwf'.1 rs h r hr
                  rw [inB_split] at h1
                  have h2 : r.key < s1 := by simpa using h1.2
                  omega
                · exact hpre' rs h r hr
            · rw [if_neg hsa, leavesL]
              obtain ⟨pre0, hsplit0, hpre0, hne0, hsuf0⟩ :=
                IH c (Or.inl rfl) lo' (some s1) a hwf'.1 hlo'
                  (by simp only [hiGT, decide_eq_true_eq]; omega)
              refine ⟨pre0, ?_, hpre0, ?_, ?_⟩
              · rw [hsplit0, List.append_assoc]
              · intro h
                exact hne0 (List.append_eq_nil.1 h).1
              · intro rs hrs r hr
                obtain ⟨l0, ls, hl0⟩ := List.exists_cons_of_ne_nil hne0
                rw [hl0, List.cons_append, List.drop_one, List.tail_cons] at hrs
                rcases List.mem_append.1 hrs with h | h
                · refine hsuf0 rs ?_ r hr
                  rw [hl0, List.drop_one, List.tail_cons]
                  exact h
                · have h1 := leavesL_keys_bounded rest c1 (some s1) hi' hwf'.2.2 rs h r hr
                  rw [inB_split] at h1
                  have h2 : s1 ≤ r.key := by simpa using h1.1
                  omega
      refine main es c0 lo hi ?_ hwf.1 hlo hhi
      intro x hx
      rcases hx with h' | ⟨s', h'⟩
      · subst h'; exact ih0
      · exact ihes s' x h'

theorem livePairs_append (A B : List Record) :
    livePairs (A ++ B) = livePairs A ++ livePairs B :=
  List.filterMap_append A B _

/-- `Scan` in quiescence: the records the returned iterator yields are the
live contents of the tree filtered to the requested key range. -/
theorem scanT_spec (t : Node) (bk ek : Option (Nat × Bool)) (hwf : wf t = true) :
    scanT t bk ek =
      (liveList t).filter (fun p => bkPred bk p.1 && ekPred ek p.1) := by
  have hwfIn : wfIn t none none = true := hwf
  match bk with
  | none =>
      obtain ⟨rs, rest, hlv⟩ := List.exists_cons_of_ne_nil (leaves_ne_nil t)
      have hch : chain2 (rs :: rest) := by
        rw [← hlv]
        exact chain2_leaves t none none hwfIn
      have hLL : liveList t = livePairs rs ++ (rest.map livePairs).flatten := by
        rw [liveList_eq_leaves, hlv, List.map_cons, List.flatten_cons]
      unfold scanT
      simp only []
      rw [hlv]
      simp only []
      have hb0 : beginPos rs none = 0 := rfl
      rw [hb0, scanCollect_spec rest rs ek hch 0, List.drop_zero, hLL]
      exact List.filter_congr (fun p _ => rfl)
  | some (a, closed) =>
      obtain ⟨pre, hsplit, hpre, hne, hsuf⟩ :=
        leavesFrom_split t none none a hwfIn rfl rfl
      obtain ⟨rs, rest, hlv⟩ := List.exists_cons_of_ne_nil hne
      have hch : chain2 (rs :: rest) := by
        rw [← hlv]
        refine chain2_suffix pre _ ?_
        rw [← hsplit]
        exact chain2_leaves t none none hwfIn
      have hch' := hch
      obtain ⟨hs0, -, -⟩ := hch'
      have hsrs : rs.Pairwise (fun x y => x.key < y.key) :=
        (sortedRecs_iff rs).1 hs0
      obtain ⟨hble, hbfail, hbhold⟩ := beginPos_facts rs (some (a, closed)) hsrs
      rw [hlv] at hsuf
      simp only [List.drop_one, List.tail_cons] at hsuf
      unfold scanT
      simp only []
      rw [hlv]
      simp only []
      rw [scanCollect_spec rest rs ek hch (beginPos rs (some (a, closed)))]
      rw [liveList_eq_leaves, hsplit, hlv]
      rw [List.map_append, List.flatten_append, List.map_cons, List.flatten_cons]
      rw [List.filter_append, List.filter_append]
      have hApre : ((pre.map livePairs).flatten).filter
          (fun p => bkPred (some (a, closed)) p.1 && ekPred ek p.1) = [] := by
        rw [List.filter_eq_nil_iff]
        intro p hp
        obtain ⟨lp, hlp, hplp⟩ := List.mem_flatten.1 hp
        obtain ⟨rs2, hrs2, hrs2e⟩ := List.mem_map.1 hlp
        rw [← hrs2e] at hplp
        obtain ⟨r, hr, hrk, -⟩ := livePairs_keys_mem _ p hplp
        have hlt : p.1 < a := by
          have := hpre rs2 hrs2 r hr
          omega
        rw [bkPred_false_of_lt a closed p.1 hlt]
        simp
      have hTD : livePairs rs =
          livePairs (rs.take (beginPos rs (some (a, closed)))) ++
          livePairs (rs.drop (beginPos rs (some (a, closed)))) := by
        conv_lhs => rw [← List.take_append_drop (beginPos rs (some (a, closed))) rs]
        rw [livePairs_append]
      have hBtake : (livePairs (rs.take (beginPos rs (some (a, closed))))).filter
          (fun p => bkPred (some (a, closed)) p.1 && ekPred ek p.1) = [] := by
        rw [List.filter_eq_nil_iff]
        intro p hp
        obtain ⟨r, hr, hrk, -⟩ := livePairs_keys_mem _ p hp
        obtain ⟨j, hj, hjr⟩ := List.mem_iff_getElem.1 hr
        have hjlt : j < beginPos rs (some (a, closed)) := by
          simp [List.length_take] at hj
          omega
        have hjlen : j < rs.length := by
          simp [List.length_take] at hj
          omega
        have hkey : r.key = (rs.get ⟨j, hjlen⟩).key := by
          rw [← hjr]
          simp [List.getElem_take]
        have hfail := hbfail j hjlen hjlt
        rw [← hrk, hkey, hfail]
        simp
      have hBdrop : (livePairs (rs.drop (beginPos rs (some (a, closed))))).filter
          (fun p => bkPred (some (a, closed)) p.1 && ekPred ek p.1) =
          (livePairs (rs.drop (beginPos rs (some (a, closed))))).filter
            (fun p => ekPred ek p.1) := by
        refine List.filter_congr ?_
        intro p hp
        obtain ⟨r, hr, hrk, -⟩ := livePairs_keys_mem _ p hp
        obtain ⟨j, hj, hjr⟩ := List.mem_iff_getElem.1 hr
        have hjlen2 : beginPos rs (some (a, closed)) + j < rs.length := by
          simp [List.length_drop] at hj
          omega
        have hkey : r.key =
            (rs.get ⟨beginPos rs (some (a, closed)) + j, hjlen2⟩).key := by
          rw [← hjr]
          simp [List.getElem_drop]
        have hhold := hbhold _ hjlen2 (by omega)
        rw [← hrk, hkey, hhold, Bool.true_and]
      have hCrest : ((rest.map livePairs).flatten).filter
          (fun p => bkPred (some (a, closed)) p.1 && ekPred ek p.1) =
          ((rest.map livePairs).flatten).filter (fun p => ekPred ek p.1) := by
        refine List.filter_congr ?_
        intro p hp
        obtain ⟨lp, hlp, hplp⟩ := List.mem_flatten.1 hp
        obtain ⟨rs2, hrs2, hrs2e⟩ := List.mem_map.1 hlp
        rw [← hrs2e] at hplp
        obtain ⟨r, hr, hrk, -⟩ := livePairs_keys_mem _ p hplp
        have hgt : a < p.1 := by
          have := hsuf rs2 hrs2 r hr
          omega
        rw [bkPred_of_lt a closed p.1 hgt, Bool.true_and]
      rw [hApre, hTD, List.filter_append, List.filter_append, hBtake, hBdrop, hCrest]
      simp

/-- C5: in a quiescent tree, `Scan` over a range yields exactly the live
keys of the tree inside the range (respecting the begin/end inclusivity
flags), each with its payload, in ascending key order; records marked
deleted are skipped. -/
theorem C5_scan_range (t : Node) (bk ek : Option (Nat × Bool)) (hwf : wf t = true) :
    scanT t bk ek =
      (liveList t).filter (fun p => bkPred bk p.1 && ekPred ek p.1) ∧
    (scanT t bk ek).Pairwise (fun p q => p.1 < q.1) := by
  refine ⟨scanT_spec t bk ek hwf, ?_⟩
  rw [scanT_spec t bk ek hwf]
  exact (liveList_pairwise t none none hwf).filter _

theorem C5_scan_range_witness :
    wf (Node.leaf 1 [⟨2, 20, false⟩, ⟨4, 40, true⟩, ⟨6, 60, false⟩]) = true ∧
    (scanT (Node.leaf 1 [⟨2, 20, false⟩, ⟨4, 40, true⟩, ⟨6, 60, false⟩])
        (some (2, true)) (some (6, false)) =
      (liveList (Node.leaf 1 [⟨2, 20, false⟩, ⟨4, 40, true⟩, ⟨6, 60, false⟩])).filter
        (fun p => bkPred (some (2, true)) p.1 && ekPred (some (6, false)) p.1) ∧
    (scanT (Node.leaf 1 [⟨2, 20, false⟩, ⟨4, 40, true⟩, ⟨6, 60, false⟩])
        (some (2, true)) (some (6, false))).Pairwise (fun p q => p.1 < q.1)) :=
  ⟨by rw [wf, wfIn]; decide,
    C5_scan_range (Node.leaf 1 [⟨2, 20, false⟩, ⟨4, 40, true⟩, ⟨6, 60, false⟩])
      (some (2, true)) (some (6, false)) (by rw [wf, wfIn]; decide)⟩

/-! ## Bulkload: the constructed layers -/

/-- The shape of one layer of routing entries during bulk load: each entry
`(k, c)` carries a well-formed child of uniform height `h` covering
`[k, next entry's key)` (the last entry up to `hi`), with at least one
slot. -/
def layerB : List (Nat × Node) → Option Nat → Nat → Prop
  | [], _, _ => True
  | (k, c) :: rest, hi, h =>
      wfIn c (some k) (headHi rest hi) = true ∧ 1 ≤ slotCount c ∧ height c = h ∧
      layerB rest hi h

theorem headHi_append (A B : List (Nat × Node)) (hi : Option Nat) :
    headHi (A ++ B) hi = headHi A (headHi B hi) := by
  cases A with
  | nil => rfl
  | cons e A' =>
      obtain ⟨s, c⟩ := e
      rfl

theorem layerB_append (A B : List (Nat × Node)) (hi : Option Nat) (h : Nat) :
    layerB (A ++ B) hi h ↔ layerB A (headHi B hi) h ∧ layerB B hi h := by
  induction A with
  | nil =>
      rw [List.nil_append]
      simp [layerB]
  | cons e A' ih =>
      obtain ⟨k, c⟩ := e
      rw [List.cons_append]
      show (wfIn c (some k) (headHi (A' ++ B) hi) = true ∧ _ ∧ _ ∧ layerB (A' ++ B) hi h) ↔ _
      rw [headHi_append, ih]
      show _ ↔ ((wfIn c (some k) (headHi A' (headHi B hi)) = true ∧ _ ∧ _ ∧
        layerB A' (headHi B hi) h) ∧ layerB B hi h)
      constructor
      · rintro ⟨h1, h2, h3, h4, h5⟩
        exact ⟨⟨h1, h2, h3, h4⟩, h5⟩
      · rintro ⟨⟨h1, h2, h3, h4⟩, h5⟩
        exact ⟨h1, h2, h3, h4, h5⟩

/-- A layer headed by `(k, c)` is exactly a routing entry list for an inner
node with leftmost child `c` and bound `[k, hi)`. -/
theorem layerB_wfEntries :
    ∀ (rest : List (Nat × Node)) (k : Nat) (c : Node) (hi : Option Nat) (h : Nat),
      layerB ((k, c) :: rest) hi h → wfEntries c rest (some k) hi = true := by
  intro rest
  induction rest with
  | nil =>
      intro k c hi h hL
      obtain ⟨h1, h2, -, -⟩ := hL
      rw [wfEntries_nil_iff]
      exact ⟨h1, h2⟩
  | cons e rest' ih =>
      obtain ⟨s1, c1⟩ := e
      intro k c hi h hL
      obtain ⟨h1, h2, -, h4⟩ := hL
      rw [wfEntries_cons_iff]
      exact ⟨h1, h2, ih s1 c1 hi h h4⟩

theorem layerB_heights :
    ∀ (es : List (Nat × Node)) (hi : Option Nat) (h : Nat), layerB es hi h →
      ∀ sc ∈ es, height sc.2 = h := by
  intro es
  induction es with
  | nil =>
      intro hi h _ sc hsc
      simp at hsc
  | cons e rest ih =>
      obtain ⟨k, c⟩ := e
      intro hi h hL sc hsc
      obtain ⟨-, -, h3, h4⟩ := hL
      rcases List.mem_cons.1 hsc with h' | h'
      · rw [h']
        exact h3
      · exact ih hi h h4 sc h'

theorem chunkList_flatten (n : Nat) (l : List α) : (chunkList n l).flatten = l := by
  induction l using chunkList.induct n with
  | case1 =>
      rw [chunkList]
      rfl
  | case2 x xs ih =>
      rw [chunkList, List.flatten_cons, ih, List.take_append_drop]

theorem chunkList_ne_nil (n : Nat) (l : List α) : ∀ ch ∈ chunkList n l, ch ≠ [] := by
  induction l using chunkList.induct n with
  | case1 =>
      rw [chunkList]
      intro ch h
      simp at h
  | case2 x xs ih =>
      rw [chunkList]
      intro ch h
      rcases List.mem_cons.1 h with h' | h'
      · subst h'
        rw [show max n 1 = (max n 1 - 1) + 1 from by omega, List.take_succ_cons]
        simp
      · exact ih ch h'

theorem chunkList_len_le (n : Nat) (l : List α) :
    ∀ ch ∈ chunkList n l, ch.length ≤ max n 1 := by
  induction l using chunkList.induct n with
  | case1 =>
      rw [chunkList]
      intro ch h
      simp at h
  | case2 x xs ih =>
      rw [chunkList]
      intro ch h
      rcases List.mem_cons.1 h with h' | h'
      · subst h'
        simp only [List.length_take]
        omega
      · exact ih ch h'

/-- The leaf records bulk load writes are live copies of the entries. -/
theorem livePairs_entries (l : List (Nat × Nat)) :
    livePairs (l.map fun q => (⟨q.1, q.2, false⟩ : Record)) = l := by
  induction l with
  | nil => rfl
  | cons q rest ih =>
      rw [List.map_cons, livePairs_cons]
      simp only [Bool.false_eq_true, if_false]
      rw [ih]

/-- Dropping the lower bound of a subtree's key range preserves
well-formedness (only the leftmost spine carries the lower bound). -/
theorem wfIn_weaken :
    ∀ t (a : Nat) (hi : Option Nat), wfIn t (some a) hi = true →
      wfIn t none hi = true := by
  intro t
  induction t using Node.induct with
  | hleaf v rs =>
      intro a hi hwf
      rw [wfIn_leaf_iff] at hwf ⊢
      refine ⟨hwf.1, ?_, hwf.2.2⟩
      intro r hr
      have h1 := hwf.2.1 r hr
      rw [inB_split] at h1 ⊢
      exact ⟨rfl, h1.2⟩
  | hinner c0 es ih0 _ =>
      intro a hi hwf
      rw [wfIn_inner_iff] at hwf ⊢
      refine ⟨?_, hwf.2.1, hwf.2.2⟩
      cases es with
      | nil =>
          rw [wfEntries_nil_iff] at hwf ⊢
          exact ⟨ih0 a hi hwf.1.1, hwf.1.2⟩
      | cons e rest =>
          obtain ⟨s1, c1⟩ := e
          rw [wfEntries_cons_iff] at hwf ⊢
          exact ⟨ih0 a (some s1) hwf.1.1, hwf.1.2.1, hwf.1.2.2⟩

theorem headHi_eq_of_head (A B : List (Nat × Node)) (hi : Option Nat)
    (h : A.head?.map Prod.fst = B.head?.map Prod.fst) :
    headHi A hi = headHi B hi := by
  cases A with
  | nil =>
      cases B with
      | nil => rfl
      | cons b B' =>
          simp at h
  | cons a A' =>
      cases B with
      | nil => simp at h
      | cons b B' =>
          obtain ⟨ka, ca⟩ := a
          obtain ⟨kb, cb⟩ := b
          simp at h
          rw [headHi, headHi, h]

/-- Appending a binding above every key of a sorted association list is
what `upsertA` does there. -/
theorem upsertA_snoc (l : List (Nat × Nat)) (k v : Nat)
    (h : ∀ p ∈ l, p.1 < k) : upsertA l k v = l ++ [(k, v)] := by
  induction l with
  | nil => rfl
  | cons p rest ih =>
      obtain ⟨k', v'⟩ := p
      have hk : k' < k := h (k', v') (by simp)
      rw [upsertA, if_neg (by omega), if_neg (by omega), ih
        (fun q hq => h q (by simp [hq])), List.cons_append]

theorem sum_map_ones {β : Type} (l : List β) (f : β → Nat)
    (h : ∀ x ∈ l, f x = 1) : (l.map f).sum = l.length := by
  induction l with
  | nil => rfl
  | cons x rest ih =>
      rw [List.map_cons, List.sum_cons, h x (by simp),
        ih (fun y hy => h y (by simp [hy])), List.length_cons]
      omega

theorem sum_map_zeros {β : Type} (l : List β) (f : β → Nat)
    (h : ∀ x ∈ l, f x = 0) : (l.map f).sum = 0 := by
  induction l with
  | nil => rfl
  | cons x rest ih =>
      rw [List.map_cons, List.sum_cons, h x (by simp),
        ih (fun y hy => h y (by simp [hy]))]

theorem foldl_max_facts :
    ∀ (l : List (Nat × List (Nat × Node))) (init : Nat),
      init ≤ l.foldl (fun acc p => max acc p.1) init ∧
      ∀ p ∈ l, p.1 ≤ l.foldl (fun acc p => max acc p.1) init := by
  intro l
  induction l with
  | nil =>
      intro init
      exact ⟨le_refl _, by intro p hp; simp at hp⟩
  | cons q rest ih =>
      intro init
      rw [List.foldl_cons]
      refine ⟨le_trans (Nat.le_max_left init q.1) (ih (max init q.1)).1, ?_⟩
      intro p hp
      rcases List.mem_cons.1 hp with h' | h'
      · rw [h']
        exact le_trans (Nat.le_max_right init q.1) (ih (max init q.1)).1
      · exact (ih (max init q.1)).2 p h'

/-- The node `bulkload` (§4.2) fills from one greedy chunk of entries,
with its routing entry (the chunk's first key). -/
def leafChunk (ch : List (Nat × Nat)) : Option (Nat × Node) :=
  match ch with
  | [] => none
  | (k, _) :: _ => some (k, Node.leaf 0 (ch.map fun e => ⟨e.1, e.2, false⟩))

/-- One inner node of `ConstructSingleLayer` over one chunk of routing
entries, with its routing entry. -/
def innerChunk (ch : List (Nat × Node)) : Option (Nat × Node) :=
  match ch with
  | [] => none
  | (k, c) :: rest => some (k, Node.inner c rest)

theorem buildLeafLayer_eq (entries : List (Nat × Nat)) :
    buildLeafLayer entries = (chunkList kLeafNodeCap entries).filterMap leafChunk := rfl

theorem buildInnerLayer_eq (es : List (Nat × Node)) :
    buildInnerLayer es = (chunkList kInnerNodeCap es).filterMap innerChunk := rfl

theorem leafLayer_of_chunks :
    ∀ (chs : List (List (Nat × Nat))) (hi : Option Nat),
      (∀ ch ∈ chs, ch ≠ []) →
      (∀ ch ∈ chs, ch.length ≤ kNodeCap) →
      chs.flatten.Pairwise (fun p q => p.1 < q.1) →
      (∀ e ∈ chs.flatten, hiGT hi e.1 = true) →
      layerB (chs.filterMap leafChunk) hi 0 ∧
      liveListL (chs.filterMap leafChunk) = chs.flatten ∧
      (chs.filterMap leafChunk).head?.map Prod.fst = chs.flatten.head?.map Prod.fst := by
  intro chs
  induction chs with
  | nil =>
      intro hi _ _ _ _
      refine ⟨trivial, ?_, rfl⟩
      rw [List.filterMap_nil, liveListL_nil_eq]
      rfl
  | cons ch chs' ih =>
      intro hi hne hcap hs hhi
      obtain ⟨e0, ch', hch⟩ := List.exists_cons_of_ne_nil (hne ch (by simp))
      subst hch
      obtain ⟨k0, v0⟩ := e0
      rw [List.flatten_cons] at hs hhi
      have hs1 : ((k0, v0) :: ch').Pairwise (fun p q => p.1 < q.1) :=
        (List.pairwise_append.1 hs).1
      have hs2 := (List.pairwise_append.1 hs).2.1
      have hcross := (List.pairwise_append.1 hs).2.2
      obtain ⟨ihL, ihLive, ihHead⟩ := ih hi (fun c hc => hne c (by simp [hc]))
        (fun c hc => hcap c (by simp [hc])) hs2
        (fun e he => hhi e (List.mem_append_right _ he))
      rw [List.filterMap_cons]
      have hF : leafChunk ((k0, v0) :: ch') =
          some (k0, Node.leaf 0 (((k0, v0) :: ch').map
            fun e => (⟨e.1, e.2, false⟩ : Record))) := rfl
      rw [hF, List.flatten_cons]
      refine ⟨⟨?_, ?_, rfl, ihL⟩, ?_, ?_⟩
      · rw [wfIn_leaf_iff]
        refine ⟨?_, ?_, ?_⟩
        · rw [List.pairwise_map]
          exact hs1
        · intro r hr
          obtain ⟨e, he, her⟩ := List.mem_map.1 hr
          rw [← her]
          rw [inB_split]
          constructor
          · show loLE (some k0) e.1 = true
            simp only [loLE, decide_eq_true_eq]
            rcases List.mem_cons.1 he with h' | h'
            · rw [h']
            · exact le_of_lt ((List.pairwise_cons.1 hs1).1 e h')
          · cases hfm : chs'.filterMap leafChunk with
            | nil =>
                show hiGT (headHi [] hi) e.1 = true
                rw [headHi]
                exact hhi e (List.mem_append_left _ he)
            | cons q rest =>
                obtain ⟨kq, cq⟩ := q
                show hiGT (headHi ((kq, cq) :: rest) hi) e.1 = true
                rw [headHi]
                rw [hfm] at ihHead
                cases hfl : chs'.flatten with
                | nil =>
                    rw [hfl] at ihHead
                    simp at ihHead
                | cons f0 frest =>
                    rw [hfl] at ihHead
                    simp only [List.head?_cons, Option.map_some] at ihHead
                    injection ihHead with ihHead
                    have hcr := hcross e he f0 (by rw [hfl]; simp)
                    simp only [hiGT, decide_eq_true_eq]
                    omega
        · have := hcap ((k0, v0) :: ch') (by simp)
          simpa using this
      · show 1 ≤ slotCount (Node.leaf 0 _)
        simp [slotCount]
      · rw [liveListL_cons_eq, ihLive, liveList_leaf_eq, livePairs_entries]
      · simp

theorem innerLayer_of_chunks :
    ∀ (chs : List (List (Nat × Node))) (hi : Option Nat) (h : Nat),
      (∀ ch ∈ chs, ch ≠ []) →
      (∀ ch ∈ chs, ch.length ≤ kNodeCap) →
      layerB chs.flatten hi h →
      layerB (chs.filterMap innerChunk) hi (h + 1) ∧
      liveListL (chs.filterMap innerChunk) = liveListL chs.flatten ∧
      (chs.filterMap innerChunk).head?.map Prod.fst = chs.flatten.head?.map Prod.fst := by
  intro chs
  induction chs with
  | nil =>
      intro hi h _ _ _
      refine ⟨trivial, ?_, rfl⟩
      rw [List.filterMap_nil, liveListL_nil_eq, List.flatten_nil, liveListL_nil_eq]
  | cons ch chs' ih =>
      intro hi h hne hcap hL
      obtain ⟨e0, ch', hch⟩ := List.exists_cons_of_ne_nil (hne ch (by simp))
      subst hch
      obtain ⟨k0, c0⟩ := e0
      rw [List.flatten_cons] at hL
      rw [layerB_append] at hL
      obtain ⟨hA, hB⟩ := hL
      obtain ⟨hwf0, hslot0, hh0, hrest⟩ := hA
      obtain ⟨ihL, ihLive, ihHead⟩ := ih hi h (fun c hc => hne c (by simp [hc]))
        (fun c hc => hcap c (by simp [hc])) hB
      rw [List.filterMap_cons]
      have hF : innerChunk ((k0, c0) :: ch') = some (k0, Node.inner c0 ch') := rfl
      rw [hF, List.flatten_cons]
      refine ⟨⟨?_, ?_, ?_, ihL⟩, ?_, ?_⟩
      · rw [wfIn_inner_iff]
        refine ⟨?_, ?_, ?_⟩
        · have hXeq : headHi (chs'.filterMap innerChunk) hi =
              headHi chs'.flatten hi := headHi_eq_of_head _ _ hi ihHead
          rw [hXeq]
          exact layerB_wfEntries ch' k0 c0 (headHi chs'.flatten hi) h ⟨hwf0, hslot0, hh0, hrest⟩
        · have := hcap ((k0, c0) :: ch') (by simp)
          simp only [List.length_cons] at this
          omega
        · intro sc hsc
          rw [layerB_heights ch' (headHi chs'.flatten hi) h hrest sc hsc, hh0]
      · show 1 ≤ slotCount (Node.inner c0 ch')
        simp [slotCount]
      · show height (Node.inner c0 ch') = h + 1
        rw [height, hh0]
      · rw [liveListL_cons_eq, ihLive, liveListL_append, liveListL_cons_eq,
          liveList_inner_eq, List.append_assoc]
      · simp

theorem buildLeafLayer_ok (entries : List (Nat × Nat)) (hi : Option Nat)
    (hs : entries.Pairwise (fun p q => p.1 < q.1))
    (hhi : ∀ e ∈ entries, hiGT hi e.1 = true) :
    layerB (buildLeafLayer entries) hi 0 ∧
    liveListL (buildLeafLayer entries) = entries ∧
    (buildLeafLayer entries).head?.map Prod.fst = entries.head?.map Prod.fst := by
  rw [buildLeafLayer_eq]
  have h2 := leafLayer_of_chunks (chunkList kLeafNodeCap entries) hi
    (chunkList_ne_nil _ _)
    (fun ch hch => le_trans (chunkList_len_le _ _ ch hch) (by decide))
    (by rw [chunkList_flatten]; exact hs)
    (by rw [chunkList_flatten]; exact hhi)
  rw [chunkList_flatten] at h2
  exact h2

theorem buildInnerLayer_ok (es : List (Nat × Node)) (hi : Option Nat) (h : Nat)
    (hL : layerB es hi h) :
    layerB (buildInnerLayer es) hi (h + 1) ∧
    liveListL (buildInnerLayer es) = liveListL es ∧
    (buildInnerLayer es).head?.map Prod.fst = es.head?.map Prod.fst := by
  rw [buildInnerLayer_eq]
  have h2 := innerLayer_of_chunks (chunkList kInnerNodeCap es) hi h
    (chunkList_ne_nil _ _)
    (fun ch hch => le_trans (chunkList_len_le _ _ ch hch) (by decide))
    (by rw [chunkList_flatten]; exact hL)
  rw [chunkList_flatten] at h2
  exact h2

theorem bulkUpper_ok :
    ∀ (h0 : Nat) (nodes : List (Nat × Node)) (hi : Option Nat),
      layerB nodes hi (h0 - 1) → 1 ≤ h0 →
      layerB (bulkUpper h0 nodes).2 hi ((bulkUpper h0 nodes).1 - 1) ∧
      liveListL (bulkUpper h0 nodes).2 = liveListL nodes ∧
      (bulkUpper h0 nodes).2.head?.map Prod.fst = nodes.head?.map Prod.fst ∧
      1 ≤ (bulkUpper h0 nodes).1 := by
  intro h0 nodes
  induction h0, nodes using bulkUpper.induct with
  | case1 h nodes hcond ih =>
      intro hi hL h1
      rw [bulkUpper, if_pos hcond]
      obtain ⟨bL, bLive, bHead⟩ := buildInnerLayer_ok nodes hi (h - 1) hL
      have hL' : layerB (buildInnerLayer nodes) hi ((h + 1) - 1) := by
        rw [show (h + 1) - 1 = (h - 1) + 1 from by omega]
        exact bL
      obtain ⟨iL, iLive, iHead, ile⟩ := ih hi hL' (by omega)
      exact ⟨iL, by rw [iLive, bLive], by rw [iHead, bHead], ile⟩
  | case2 h nodes hcond =>
      intro hi hL h1
      rw [bulkUpper, if_neg hcond]
      exact ⟨hL, rfl, rfl, h1⟩

theorem alignHeight_ok :
    ∀ (target h : Nat) (nodes : List (Nat × Node)) (hi : Option Nat),
      layerB nodes hi (h - 1) → 1 ≤ h →
      layerB (alignHeight target h nodes) hi (max target h - 1) ∧
      liveListL (alignHeight target h nodes) = liveListL nodes ∧
      (alignHeight target h nodes).head?.map Prod.fst = nodes.head?.map Prod.fst := by
  intro target h nodes
  induction h, nodes using alignHeight.induct target with
  | case1 h nodes hcond ih =>
      intro hi hL h1
      rw [alignHeight, if_pos hcond]
      obtain ⟨bL, bLive, bHead⟩ := buildInnerLayer_ok nodes hi (h - 1) hL
      have hL' : layerB (buildInnerLayer nodes) hi ((h + 1) - 1) := by
        rw [show (h + 1) - 1 = (h - 1) + 1 from by omega]
        exact bL
      obtain ⟨iL, iLive, iHead⟩ := ih hi hL' (by omega)
      have hmax : max target (h + 1) = max target h := by omega
      rw [hmax] at iL
      exact ⟨iL, by rw [iLive, bLive], by rw [iHead, bHead]⟩
  | case2 h nodes hcond =>
      intro hi hL h1
      rw [alignHeight, if_neg hcond]
      have hmax : max target h = h := by omega
      rw [hmax]
      exact ⟨hL, rfl, rfl⟩

theorem bulkRootLoop_ok :
    ∀ (nodes : List (Nat × Node)) (hi : Option Nat) (h : Nat),
      layerB nodes hi h → nodes ≠ [] →
      ∃ h', layerB (bulkRootLoop nodes) hi h' ∧
        liveListL (bulkRootLoop nodes) = liveListL nodes ∧
        bulkRootLoop nodes ≠ [] ∧ (bulkRootLoop nodes).length ≤ 1 := by
  intro nodes
  induction nodes using bulkRootLoop.induct with
  | case1 nodes hcond ih =>
      intro hi h hL hne
      rw [bulkRootLoop, if_pos hcond]
      obtain ⟨bL, bLive, bHead⟩ := buildInnerLayer_ok nodes hi h hL
      have hbne : buildInnerLayer nodes ≠ [] := by
        intro hBE
        rw [hBE] at bHead
        cases nodes with
        | nil => exact hne rfl
        | cons q rest => simp at bHead
      obtain ⟨h', iL, iLive, iNe, iLen⟩ := ih hi (h + 1) bL hbne
      exact ⟨h', iL, by rw [iLive, bLive], iNe, iLen⟩
  | case2 nodes hcond =>
      intro hi h hL hne
      rw [bulkRootLoop, if_neg hcond]
      exact ⟨h, hL, rfl, hne, by omega⟩

theorem bulkSingle_ok (entries : List (Nat × Nat)) (hi : Option Nat)
    (hs : entries.Pairwise (fun p q => p.1 < q.1))
    (hhi : ∀ e ∈ entries, hiGT hi e.1 = true) :
    layerB (bulkSingle entries).2 hi ((bulkSingle entries).1 - 1) ∧
    liveListL (bulkSingle entries).2 = entries ∧
    (bulkSingle entries).2.head?.map Prod.fst = entries.head?.map Prod.fst ∧
    1 ≤ (bulkSingle entries).1 := by
  obtain ⟨bL, bLive, bHead⟩ := buildLeafLayer_ok entries hi hs hhi
  obtain ⟨uL, uLive, uHead, hle⟩ :=
    bulkUpper_ok 1 (buildLeafLayer entries) hi bL (le_refl 1)
  rw [bulkSingle]
  exact ⟨uL, by rw [uLive, bLive], by rw [uHead, bHead], hle⟩

theorem sum_map_add {β : Type} (l : List β) (f g : β → Nat) :
    (l.map (fun x => f x + g x)).sum = (l.map f).sum + (l.map g).sum := by
  induction l with
  | nil => rfl
  | cons x rest ih =>
      rw [List.map_cons, List.map_cons, List.map_cons, List.sum_cons, List.sum_cons,
        List.sum_cons, ih]
      omega

theorem sum_map_const {β : Type} (l : List β) (c : Nat) :
    (l.map (fun _ => c)).sum = l.length * c := by
  induction l with
  | nil => simp
  | cons x rest ih =>
      rw [List.map_cons, List.sum_cons, ih, List.length_cons]
      ring

theorem range_sum_div (tn r : Nat) (h1 : 1 ≤ tn) (hr : r < tn) :
    ((List.range tn).map (fun i => (r + i) / tn)).sum = r := by
  have hrange : List.range tn =
      List.range (tn - r) ++ (List.range r).map (fun j => (tn - r) + j) := by
    conv_lhs => rw [show tn = (tn - r) + r from by omega]
    exact List.range_add (tn - r) r
  rw [hrange, List.map_append, List.sum_append, List.map_map]
  rw [sum_map_zeros _ _ ?_, sum_map_ones _ _ ?_]
  · simp
  · intro j hj
    simp only [List.mem_range] at hj
    show (r + (tn - r + j)) / tn = 1
    rw [show r + (tn - r + j) = j + tn from by omega, Nat.add_div_right j (by omega),
      Nat.div_eq_of_lt (by omega)]
  · intro i hi
    simp only [List.mem_range] at hi
    exact Nat.div_eq_of_lt (by omega)

theorem bulkParts_sum (tn N : Nat) (h1 : 1 ≤ tn) : (bulkParts tn N).sum = N := by
  rw [bulkParts]
  have hterm : ∀ i ∈ List.range tn, (N + i) / tn = N / tn + (N % tn + i) / tn := by
    intro i _
    conv_lhs => rw [show N = tn * (N / tn) + N % tn from (Nat.div_add_mod N tn).symm]
    rw [Nat.add_assoc, Nat.mul_add_div (by omega)]
  rw [List.map_congr_left hterm]
  have hsplit : ((List.range tn).map (fun i => N / tn + (N % tn + i) / tn)).sum =
      ((List.range tn).map (fun _ => N / tn)).sum +
      ((List.range tn).map (fun i => (N % tn + i) / tn)).sum :=
    sum_map_add (List.range tn) _ _
  rw [hsplit, range_sum_div tn (N % tn) h1 (Nat.mod_lt N (by omega)),
    sum_map_const, List.length_range]
  have := Nat.div_add_mod N tn
  omega

theorem partitionEntries_flatten :
    ∀ (ns : List Nat) (l : List (Nat × Nat)), ns.sum = l.length →
      (partitionEntries ns l).flatten = l := by
  intro ns
  induction ns with
  | nil =>
      intro l h
      have hl : l = [] := List.eq_nil_of_length_eq_zero (by simpa using h.symm)
      rw [hl, partitionEntries]
      rfl
  | cons n ns' ih =>
      intro l h
      simp only [List.sum_cons] at h
      rw [partitionEntries, List.flatten_cons,
        ih (l.drop n) (by rw [List.length_drop]; omega), List.take_append_drop]

end BTreeOSL
